import Mathlib

/-!
# react-query: key serialisation and cache (de)hydration

A shallow embedding of `src/core/config.js`, `src/core/hydration.js` and
`src/hydration/hydration.js`.

JavaScript values are embedded as the inductive type `JSValue`.  Numbers are the
integer-valued ones (`Int`); `NaN`, the infinities, negative zero and fractions are
outside the model.  Strings are sequences of Unicode scalar values.  An object is
the list of its own enumerable string-keyed properties in enumeration order, and a
property name that looks like an array index is ordered like any other name.  A
JavaScript object never has two properties of the same name, which is the
predicate `JSValue.wellFormed`.

`JSON.stringify` and `JSON.parse` are embedded on texts, character by character.
Code that throws returns `Except JSError`; time (`Date.now()`) is a parameter.

`src/core/utils.js` and `src/core/queryCache.js` are not among the sources:
`stableStringify`, `createQuery`, `getQuery` and `initializeQuery` are modelled from
the spec, each under a comment that says so.
-/

namespace ReactQuery

/-! ## JavaScript values -/

/-- The JavaScript values that occur in query keys, query data and snapshots. -/
inductive JSValue where
  | undefined
  | null
  | bool (b : Bool)
  | num (n : Int)
  | str (s : String)
  | func (id : Nat)
  | arr (xs : List JSValue)
  | obj (fields : List (String × JSValue))
  deriving Repr, Inhabited

/-- Errors thrown by the embedded code. -/
inductive JSError where
  | error (message : String)
  | syntaxError
  | typeError
  deriving Repr, DecidableEq, Inhabited

namespace JSValue

/-- The test `typeof v === 'function'`. -/
def isFunction : JSValue → Bool
  | .func _ => true
  | _ => false

/-- The test `Array.isArray(v)`. -/
def isArray : JSValue → Bool
  | .arr _ => true
  | _ => false

/-- JavaScript truthiness (`!!v`): `undefined`, `null`, `false`, `0` and `''` are falsy. -/
def truthy : JSValue → Bool
  | .undefined => false
  | .null => false
  | .bool b => b
  | .num n => n != 0
  | .str s => s != ""
  | .func _ => true
  | .arr _ => true
  | .obj _ => true

/-- The test `v === undefined`. -/
def isUndefined : JSValue → Bool
  | .undefined => true
  | _ => false

/-- Values for which `JSON.stringify` yields `undefined` instead of a text. -/
def unserialisable : JSValue → Bool
  | .undefined => true
  | .func _ => true
  | _ => false

end JSValue

/-! ## `JSON.stringify` -/

def quoteChar : Char := Char.ofNat 34
def backslashChar : Char := Char.ofNat 92

/-- The escape sequence `QuoteJSONString` emits for one character. -/
def escapeChar (c : Char) : List Char :=
  if c = quoteChar then [backslashChar, quoteChar]
  else if c = backslashChar then [backslashChar, backslashChar]
  else if c = Char.ofNat 8 then [backslashChar, 'b']
  else if c = Char.ofNat 9 then [backslashChar, 't']
  else if c = Char.ofNat 10 then [backslashChar, 'n']
  else if c = Char.ofNat 12 then [backslashChar, 'f']
  else if c = Char.ofNat 13 then [backslashChar, 'r']
  else if c.toNat < 32 then
    [backslashChar, 'u', '0', '0', Nat.digitChar (c.toNat / 16), Nat.digitChar (c.toNat % 16)]
  else [c]

/-- The characters of a string with every character escaped as JSON requires. -/
def escapeChars : List Char → List Char
  | [] => []
  | c :: cs => escapeChar c ++ escapeChars cs

/-- The JSON string literal for a string (`QuoteJSONString`). -/
def quoteJSON (s : String) : List Char :=
  quoteChar :: (escapeChars s.data ++ [quoteChar])

/-- The decimal text of an integer-valued number (`Number::toString`). -/
def renderInt : Int → List Char
  | .ofNat n => Nat.toDigits 10 n
  | .negSucc n => '-' :: Nat.toDigits 10 (n + 1)

/-- The texts of a list joined by commas. -/
def joinComma : List (List Char) → List Char
  | [] => []
  | [t] => t
  | t :: ts => t ++ ',' :: joinComma ts

def nullText : List Char := ['n', 'u', 'l', 'l']
def trueText : List Char := ['t', 'r', 'u', 'e']
def falseText : List Char := ['f', 'a', 'l', 's', 'e']

mutual
/-- The JSON text of a value (`SerializeJSONProperty`), `none` where JavaScript yields
`undefined` (for `undefined` itself and for functions). -/
def serialize : JSValue → Option (List Char)
  | .undefined => none
  | .func _ => none
  | .null => some nullText
  | .bool true => some trueText
  | .bool false => some falseText
  | .num n => some (renderInt n)
  | .str s => some (quoteJSON s)
  | .arr xs => some ('[' :: (joinComma (serializeElements xs) ++ [']']))
  | .obj fs => some ('{' :: (joinComma (serializeMembers fs) ++ ['}']))
/-- The texts of the elements of an array (`SerializeJSONArray`): an element without
a JSON text is written as `null`. -/
def serializeElements : List JSValue → List (List Char)
  | [] => []
  | x :: xs => (serialize x).getD nullText :: serializeElements xs
/-- The texts of the members of an object (`SerializeJSONObject`): a property whose
value has no JSON text is left out. -/
def serializeMembers : List (String × JSValue) → List (List Char)
  | [] => []
  | (k, v) :: fs =>
    match serialize v with
    | none => serializeMembers fs
    | some t => (quoteJSON k ++ ':' :: t) :: serializeMembers fs
end

/-- The builtin `JSON.stringify(v)`; `none` stands for the result `undefined`. -/
def JSONstringify (v : JSValue) : Option String :=
  (serialize v).map String.mk

/-! ## `JSON.parse` -/

/-- JSON whitespace. -/
def isWs (c : Char) : Bool :=
  c = ' ' || c = Char.ofNat 9 || c = Char.ofNat 10 || c = Char.ofNat 13

def skipWs : List Char → List Char
  | [] => []
  | c :: cs => if isWs c then skipWs cs else c :: cs

/-- Consumes the literal `lit` from the front of the input. -/
def expectText : List Char → List Char → Option (List Char)
  | [], cs => some cs
  | _ :: _, [] => none
  | l :: ls, c :: cs => if l = c then expectText ls cs else none

/-- The value of a hexadecimal digit. -/
def hexVal (c : Char) : Option Nat :=
  if '0' ≤ c ∧ c ≤ '9' then some (c.toNat - 48)
  else if 'a' ≤ c ∧ c ≤ 'f' then some (c.toNat - 87)
  else if 'A' ≤ c ∧ c ≤ 'F' then some (c.toNat - 55)
  else none

/-- The character denoted by a two-character escape `\e`. -/
def unescapeChar (e : Char) : Option Char :=
  if e = quoteChar then some quoteChar
  else if e = backslashChar then some backslashChar
  else if e = '/' then some '/'
  else if e = 'b' then some (Char.ofNat 8)
  else if e = 't' then some (Char.ofNat 9)
  else if e = 'n' then some (Char.ofNat 10)
  else if e = 'f' then some (Char.ofNat 12)
  else if e = 'r' then some (Char.ofNat 13)
  else none

/-- The characters of a JSON string literal after its opening quote, up to and
including the closing quote.  A `\u` escape of a surrogate code unit is outside the
model (strings are sequences of scalar values) and is refused. -/
def parseStringBody : List Char → Option (List Char × List Char)
  | [] => none
  | c :: rest =>
    if c = quoteChar then some ([], rest)
    else if c = backslashChar then
      match rest with
      | [] => none
      | e :: rest1 =>
        if e = 'u' then
          match rest1 with
          | h1 :: h2 :: h3 :: h4 :: rest2 =>
            match hexVal h1, hexVal h2, hexVal h3, hexVal h4 with
            | some a, some b, some c3, some d =>
              let n := ((a * 16 + b) * 16 + c3) * 16 + d
              if 0xD800 ≤ n ∧ n ≤ 0xDFFF then none
              else (parseStringBody rest2).map (fun r => (Char.ofNat n :: r.1, r.2))
            | _, _, _, _ => none
          | _ => none
        else
          match unescapeChar e with
          | some ch => (parseStringBody rest1).map (fun r => (ch :: r.1, r.2))
          | none => none
    else if c.toNat < 32 then none
    else (parseStringBody rest).map (fun r => (c :: r.1, r.2))

/-- The longest run of decimal digits at the front of the input. -/
def takeDigits : List Char → List Char × List Char
  | [] => ([], [])
  | c :: cs =>
    if c.isDigit then ((c :: (takeDigits cs).1), (takeDigits cs).2) else ([], c :: cs)

/-- The number denoted by a run of decimal digits. -/
def digitsValue (ds : List Char) : Nat :=
  ds.foldl (fun acc c => acc * 10 + (c.toNat - 48)) 0

/-- An unsigned JSON integer: `0` or a run of digits without a leading zero.  A
fraction or an exponent denotes a number outside the model and is refused. -/
def parseNat (cs : List Char) : Option (Nat × List Char) :=
  match takeDigits cs with
  | ([], _) => none
  | (d :: ds, rest) =>
    if d = '0' ∧ ds ≠ [] then none
    else
      match rest with
      | [] => some (digitsValue (d :: ds), [])
      | c :: r =>
        if c = '.' ∨ c = 'e' ∨ c = 'E' then none
        else some (digitsValue (d :: ds), c :: r)

/-- A JSON number.  `-0` denotes negative zero, which is outside the model. -/
def parseNumber (cs : List Char) : Option (JSValue × List Char) :=
  match cs with
  | [] => none
  | c :: r =>
    if c = '-' then
      match parseNat r with
      | some (n, t) => if n = 0 then none else some (.num (-(n : Int)), t)
      | none => none
    else
      match parseNat (c :: r) with
      | some (n, t) => some (.num (n : Int), t)
      | none => none

/-- The assignment `o[k] = v` on an object given as the list of its properties: an existing
property keeps its place, a new one is added at the end. -/
def objSet {α : Type} (fs : List (String × α)) (k : String) (v : α) : List (String × α) :=
  match fs with
  | [] => [(k, v)]
  | (k1, v1) :: rest => if k1 = k then (k1, v) :: rest else (k1, v1) :: objSet rest k v

/-- The own property `k` of an object given as the list of its properties. -/
def objGet {α : Type} (fs : List (String × α)) (k : String) : Option α :=
  match fs with
  | [] => none
  | (k1, v1) :: rest => if k1 = k then some v1 else objGet rest k

/-- The object built by defining the members in textual order. -/
def buildObject (members : List (String × JSValue)) : List (String × JSValue) :=
  members.foldl (fun o m => objSet o m.1 m.2) []

mutual
/-- One JSON value at the front of the input; the fuel bounds the number of nested
calls and the length of the input always suffices. -/
def parseValue : Nat → List Char → Option (JSValue × List Char)
  | 0, _ => none
  | fuel + 1, cs =>
    match skipWs cs with
    | [] => none
    | c :: rest =>
      if c = '[' then
        match skipWs rest with
        | [] => none
        | c1 :: r1 =>
          if c1 = ']' then some (.arr [], r1)
          else (parseElements fuel (c1 :: r1)).map (fun r => (.arr r.1, r.2))
      else if c = '{' then
        match skipWs rest with
        | [] => none
        | c1 :: r1 =>
          if c1 = '}' then some (.obj [], r1)
          else (parseMembers fuel (c1 :: r1)).map (fun r => (.obj (buildObject r.1), r.2))
      else if c = quoteChar then
        (parseStringBody rest).map (fun r => (.str (String.mk r.1), r.2))
      else if c = 'n' then (expectText ['u', 'l', 'l'] rest).map (fun r => (.null, r))
      else if c = 't' then (expectText ['r', 'u', 'e'] rest).map (fun r => (.bool true, r))
      else if c = 'f' then
        (expectText ['a', 'l', 's', 'e'] rest).map (fun r => (.bool false, r))
      else parseNumber (c :: rest)
/-- The elements of a non-empty array up to and including the closing bracket. -/
def parseElements : Nat → List Char → Option (List JSValue × List Char)
  | 0, _ => none
  | fuel + 1, cs =>
    match parseValue fuel cs with
    | none => none
    | some (v, rest) =>
      match skipWs rest with
      | [] => none
      | c :: r =>
        if c = ',' then (parseElements fuel r).map (fun p => (v :: p.1, p.2))
        else if c = ']' then some ([v], r)
        else none
/-- The members of a non-empty object up to and including the closing brace. -/
def parseMembers : Nat → List Char → Option (List (String × JSValue) × List Char)
  | 0, _ => none
  | fuel + 1, cs =>
    match skipWs cs with
    | [] => none
    | q :: r0 =>
      if q = quoteChar then
        match parseStringBody r0 with
        | none => none
        | some (k, r1) =>
          match skipWs r1 with
          | [] => none
          | c :: r2 =>
            if c = ':' then
              match parseValue fuel r2 with
              | none => none
              | some (v, r3) =>
                match skipWs r3 with
                | [] => none
                | c1 :: r4 =>
                  if c1 = ',' then
                    (parseMembers fuel r4).map (fun p => ((String.mk k, v) :: p.1, p.2))
                  else if c1 = '}' then some ([(String.mk k, v)], r4)
                  else none
            else none
      else none
end

/-- The builtin `JSON.parse(text)`: the value denoted by the text, or a `SyntaxError`. -/
def JSONparse (text : String) : Except JSError JSValue :=
  match parseValue (text.data.length + 1) text.data with
  | none => .error .syntaxError
  | some (v, rest) => if skipWs rest = [] then .ok v else .error .syntaxError

/-! ## What a JSON round trip preserves -/

/-- The input ends here or continues with a separator of the enclosing array or
object. -/
def isTerminated : List Char → Bool
  | [] => true
  | c :: _ => c = ',' || c = ']' || c = '}'

mutual
/-- The value that `JSON.parse(JSON.stringify(v))` denotes: inside arrays `undefined`
and functions become `null`, inside objects such properties are dropped. -/
def jsonClean : JSValue → JSValue
  | .arr xs => .arr (cleanElements xs)
  | .obj fs => .obj (cleanMembers fs)
  | .undefined => .undefined
  | .null => .null
  | .bool b => .bool b
  | .num n => .num n
  | .str s => .str s
  | .func i => .func i
def cleanElements : List JSValue → List JSValue
  | [] => []
  | x :: xs => (if x.unserialisable then JSValue.null else jsonClean x) :: cleanElements xs
def cleanMembers : List (String × JSValue) → List (String × JSValue)
  | [] => []
  | (k, v) :: fs =>
    if v.unserialisable then cleanMembers fs else (k, jsonClean v) :: cleanMembers fs
end

mutual
/-- No object inside the value has two properties of the same name (true of every
JavaScript object). -/
def JSValue.wellFormed : JSValue → Bool
  | .arr xs => wellFormedElements xs
  | .obj fs => decide ((fs.map Prod.fst).Nodup) && wellFormedMembers fs
  | _ => true
def wellFormedElements : List JSValue → Bool
  | [] => true
  | x :: xs => x.wellFormed && wellFormedElements xs
def wellFormedMembers : List (String × JSValue) → Bool
  | [] => true
  | (_, v) :: fs => v.wellFormed && wellFormedMembers fs
end

mutual
/-- The value is JSON data: it contains neither `undefined` nor a function. -/
def JSValue.isJSON : JSValue → Bool
  | .undefined => false
  | .func _ => false
  | .arr xs => isJSONElements xs
  | .obj fs => isJSONMembers fs
  | _ => true
def isJSONElements : List JSValue → Bool
  | [] => true
  | x :: xs => x.isJSON && isJSONElements xs
def isJSONMembers : List (String × JSValue) → Bool
  | [] => true
  | (_, v) :: fs => v.isJSON && isJSONMembers fs
end

/-- The parser returns the cleaned value for the text of `v`, whatever follows it. -/
def ParsesBack (v : JSValue) : Prop :=
  ∀ t, serialize v = some t → ∀ fuel rest, t.length < fuel → isTerminated rest = true →
    parseValue fuel (t ++ rest) = some (jsonClean v, rest)


/-! ## `src/core/config.js` -/

/-- Lexicographic comparison of two strings by their characters. -/
def charsLe : List Char → List Char → Bool
  | [], _ => true
  | _ :: _, [] => false
  | a :: as, b :: bs =>
    if a.toNat < b.toNat then true
    else if a.toNat = b.toNat then charsLe as bs
    else false

/-- The order in which property names are sorted. -/
def keyLe (a b : String) : Bool := charsLe a.data b.data

/-- The order of two properties: the order of their names. -/
def fieldLe (p q : String × JSValue) : Prop := keyLe p.1 q.1 = true

instance : DecidableRel fieldLe := fun p q => inferInstanceAs (Decidable (keyLe p.1 q.1 = true))

mutual
/-- The value with the properties of every object in it, at any depth, sorted by
name. -/
def sortFields : JSValue → JSValue
  | .arr xs => .arr (sortElements xs)
  | .obj fs => .obj (List.insertionSort fieldLe (sortMembers fs))
  | .undefined => .undefined
  | .null => .null
  | .bool b => .bool b
  | .num n => .num n
  | .str s => .str s
  | .func i => .func i
def sortElements : List JSValue → List JSValue
  | [] => []
  | x :: xs => sortFields x :: sortElements xs
def sortMembers : List (String × JSValue) → List (String × JSValue)
  | [] => []
  | (k, v) :: fs => (k, sortFields v) :: sortMembers fs
end

/-- Modelled from the spec: `stableStringify` of `src/core/utils.js`, which is not
among the sources.  The spec (4.1) has it recursively sort the fields of structured
values by field name and then serialize to a deterministic JSON-like string. -/
def stableStringify (value : JSValue) : Option String :=
  JSONstringify (sortFields value)

/-- The elements of an array (`[]` for any other value). -/
def arrayElements : JSValue → List JSValue
  | .arr xs => xs
  | _ => []

/-- The error thrown for an invalid query key. -/
def invalidKeyError : JSError := .error "A valid query key is required!"

/-- The function `defaultQueryKeySerializerFn` of `src/core/config.js`.  The result is the array
the function returns, `[]` or `[queryHash, queryKey]`. -/
def defaultQueryKeySerializerFn (queryKey : JSValue) : Except JSError JSValue :=
  if !queryKey.truthy then .ok (.arr [])
  else
    let queryKey := if queryKey.isArray then queryKey else .arr [queryKey]
    if (arrayElements queryKey).any JSValue.isFunction then .error invalidKeyError
    else
      match stableStringify queryKey with
      | none => .error .syntaxError
      | some queryHash =>
        match JSONparse queryHash with
        | .error e => .error e
        | .ok parsed =>
          if queryHash = "" then .ok (.arr []) else .ok (.arr [.str queryHash, parsed])

/-- Structural equality of two values up to the order of the properties of the
objects in them, at any depth: the least equivalence that relates an object to each
reordering of its properties and is preserved when an element of an array or the
value of a property is replaced by an equivalent value. -/
inductive KeyEquiv : JSValue → JSValue → Prop
  | refl (v : JSValue) : KeyEquiv v v
  | symm {a b : JSValue} : KeyEquiv a b → KeyEquiv b a
  | trans {a b c : JSValue} : KeyEquiv a b → KeyEquiv b c → KeyEquiv a c
  | reorder {fs gs : List (String × JSValue)} : fs.Perm gs → KeyEquiv (.obj fs) (.obj gs)
  | element (pre post : List JSValue) {x y : JSValue} :
      KeyEquiv x y → KeyEquiv (.arr (pre ++ x :: post)) (.arr (pre ++ y :: post))
  | property (pre post : List (String × JSValue)) (k : String) {x y : JSValue} :
      KeyEquiv x y → KeyEquiv (.obj (pre ++ (k, x) :: post)) (.obj (pre ++ (k, y) :: post))

/-- The query key after `if (!Array.isArray(queryKey)) queryKey = [queryKey]`. -/
def wrapKey (queryKey : JSValue) : JSValue :=
  if queryKey.isArray then queryKey else .arr [queryKey]

/-! ## The query cache -/

/-- The status of a query: `statusIdle`, `statusLoading`, `statusError` and
`statusSuccess` of `src/core/utils.js`. -/
inductive Status where
  | idle
  | loading
  | error
  | success
  deriving DecidableEq, Repr, Inhabited

/-- The part of `query.config` that hydration reads. -/
structure QueryConfig where
  staleTime : Int
  cacheTime : Int
  deriving Repr, DecidableEq

/-- The part of `query.state` that hydration reads and writes. -/
structure QueryState where
  status : Status
  data : JSValue
  updatedAt : JSValue
  isStale : Bool
  deriving Repr

/-- A query of the cache.  `staleTimeout` and `cacheTimeout` are the times at which
the armed staleness and garbage-collection timers fire, `none` while not armed. -/
structure Query where
  queryKey : JSValue
  queryHash : String
  config : QueryConfig
  state : QueryState
  staleTimeout : Option Int
  cacheTimeout : Option Int
  deriving Repr

/-- A query cache: `queryCache.queries` maps each query hash to its query. -/
structure QueryCache where
  queries : List (String × Query)
  deriving Repr

/-- The process defaults `defaultConfigRef.current.queries`. -/
structure Defaults where
  staleTime : Int
  cacheTime : Int
  deriving Repr, DecidableEq

def DEFAULT_STALE_TIME : Int := 0
def DEFAULT_CACHE_TIME : Int := 5 * 60 * 1000

/-- The `queries` part of `DEFAULT_CONFIG` of `src/core/config.js` that hydration
reads. -/
def DEFAULT_CONFIG : Defaults :=
  { staleTime := DEFAULT_STALE_TIME, cacheTime := DEFAULT_CACHE_TIME }

/-- Reading the property `k` of a value, for a name that is neither an index nor
inherited (`config`, `updatedAt`, `staleTime`, `cacheTime`, `initialData`): a
`TypeError` on `undefined` and `null`, `undefined` where the property is absent. -/
def getProp (o : JSValue) (k : String) : Except JSError JSValue :=
  match o with
  | .undefined => .error .typeError
  | .null => .error .typeError
  | .obj fs => .ok ((objGet fs k).getD .undefined)
  | _ => .ok .undefined

/-- The elements of a list paired with their indices from `i` on, as property names. -/
def indexedFrom {α : Type} : Nat → List α → List (String × α)
  | _, [] => []
  | i, x :: xs => (String.mk (Nat.toDigits 10 i), x) :: indexedFrom (i + 1) xs

/-- The builtin `Object.entries(v)`. -/
def objectEntries : JSValue → Except JSError (List (String × JSValue))
  | .undefined => .error .typeError
  | .null => .error .typeError
  | .obj fs => .ok fs
  | .arr xs => .ok (indexedFrom 0 xs)
  | .str s => .ok (indexedFrom 0 (s.data.map (fun c => JSValue.str (String.mk [c]))))
  | _ => .ok []

/-- The names of the own properties of an object (`[]` for any other value). -/
def objectKeys : JSValue → List String
  | .obj fs => fs.map Prod.fst
  | _ => []

/-- The own property `k` of an object, `none` where it has none of that name. -/
def ownProp : JSValue → String → Option JSValue
  | .obj fs, k => objGet fs k
  | _, _ => none

/-- The expression `query || {}`. -/
def orEmptyObject (query : JSValue) : JSValue :=
  if query.truthy then query else .obj []

/-- A numeric option of a query configuration, the default where the configuration
does not give a number. -/
def configNumber (queryConfig : JSValue) (name : String) (dflt : Int) : Int :=
  match getProp queryConfig name with
  | .ok (.num n) => n
  | _ => dflt

/-- Modelled from the spec: the query that `createQuery` (of `src/core/queryCache.js`,
which is not among the sources) constructs for a hash without a query.  Spec 4.2: a
new `Idle` entry with the entry-specific configuration layered over the process
defaults, and if `initialData` is part of the configuration the entry goes directly
to `Success` with `updatedAt = now`.  Spec 4.6: the timers are not armed before the
initializer runs.  An entry without data counts as stale (spec 3). -/
def newQuery (defaults : Defaults) (now : Int) (queryHash : String)
    (queryKey queryConfig : JSValue) : Query :=
  let initialData :=
    match getProp queryConfig "initialData" with
    | .ok v => v
    | .error _ => JSValue.undefined
  let hasInitialData := !initialData.isUndefined
  { queryKey := queryKey
    queryHash := queryHash
    config :=
      { staleTime := configNumber queryConfig "staleTime" defaults.staleTime
        cacheTime := configNumber queryConfig "cacheTime" defaults.cacheTime }
    state :=
      { status := if hasInitialData then Status.success else Status.idle
        data := initialData
        updatedAt := if hasInitialData then JSValue.num now else JSValue.undefined
        isStale := !hasInitialData }
    staleTimeout := none
    cacheTimeout := none }

/-- Modelled from the spec: `queryCache.createQuery(queryKey, queryConfig)` of
`src/core/queryCache.js`, which is not among the sources.  Spec 4.2 (`createEntry`):
normalizes the key; if an entry with that hash exists it is returned unchanged;
otherwise a new entry is constructed and registered.  A key that does not normalize
to a hash is an invalid key (spec 4.1). -/
def createQuery (defaults : Defaults) (now : Int) (queryCache : QueryCache)
    (queryKey queryConfig : JSValue) : QueryCache × Except JSError Query :=
  match defaultQueryKeySerializerFn queryKey with
  | .error e => (queryCache, .error e)
  | .ok (.arr [.str queryHash, canonical]) =>
    match objGet queryCache.queries queryHash with
    | some query => (queryCache, .ok query)
    | none =>
      let query := newQuery defaults now queryHash canonical queryConfig
      ({ queries := queryCache.queries ++ [(queryHash, query)] }, .ok query)
  | .ok _ => (queryCache, .error invalidKeyError)

/-- Modelled from the spec: `queryCache.getQuery(queryKey)` of
`src/core/queryCache.js`, which is not among the sources.  Spec 4.2 (`getEntry`): a
pure lookup of the entry at the hash of the normalized key. -/
def getQuery (queryCache : QueryCache) (queryKey : JSValue) : Option Query :=
  match defaultQueryKeySerializerFn queryKey with
  | .ok (.arr [.str queryHash, _]) => objGet queryCache.queries queryHash
  | _ => none

/-- Modelled from the spec: `query.initializeQuery()` of `src/core/queryCache.js`,
which is not among the sources.  Spec 4.6: invoking the initializer arms the timers
of the reconstituted entry, the staleness timer for `staleTime` and the
garbage-collection timer for `cacheTime`. -/
def initializeQuery (now : Int) (query : Query) : Query :=
  { query with
    staleTimeout := some (now + query.config.staleTime)
    cacheTimeout := some (now + query.config.cacheTime) }

/-- The outcome of a call of `hydrate`: the cache as the call leaves it and either
the error thrown or the list `queriesToInit` that the returned initializer holds. -/
structure HydrateResult where
  queryCache : QueryCache
  result : Except JSError (List String)

/-- The function `initializeQueries` that `hydrate` returns (the same in both
files), run on its list `queriesToInit` at time `now`: the cache after the call and
the list after it, which the loop has emptied. -/
def initializeQueries (isServer : Bool) (now : Int) :
    List String → QueryCache → QueryCache × List String
  | [], queryCache => (queryCache, [])
  | queryHash :: queriesToInit, queryCache =>
    match objGet queryCache.queries queryHash with
    | some query =>
      if !isServer then
        initializeQueries isServer now queriesToInit
          { queries := objSet queryCache.queries queryHash (initializeQuery now query) }
      else initializeQueries isServer now queriesToInit queryCache
    | none => initializeQueries isServer now queriesToInit queryCache

/-! ## `src/core/hydration.js` -/

namespace Core

def dehydrateQuery (defaults : Defaults) (query : Query) : JSValue :=
  let dehydratedQuery : List (String × JSValue) := []
  let dehydratedQuery :=
    if query.config.staleTime ≠ defaults.staleTime then
      objSet dehydratedQuery "staleTime" (.num query.config.staleTime)
    else dehydratedQuery
  let dehydratedQuery :=
    if query.config.cacheTime ≠ defaults.cacheTime then
      objSet dehydratedQuery "cacheTime" (.num query.config.cacheTime)
    else dehydratedQuery
  let dehydratedQuery :=
    if query.state.data.isUndefined = false then
      objSet dehydratedQuery "initialData" query.state.data
    else dehydratedQuery
  .obj dehydratedQuery

def dehydrate (defaults : Defaults) (queryCache : QueryCache) : JSValue :=
  .obj (queryCache.queries.foldl
    (fun dehydratedQueries entry =>
      if entry.2.state.status = Status.success then
        objSet dehydratedQueries entry.1 (dehydrateQuery defaults entry.2)
      else dehydratedQueries)
    [])

/-- The loop of `hydrate` over the entries of the snapshot. -/
def hydrateLoop (defaults : Defaults) (now : Int)
    (queryKeyParserFn : String → Except JSError JSValue) :
    List (String × JSValue) → QueryCache → List String → HydrateResult
  | [], queryCache, queriesToInit => ⟨queryCache, .ok queriesToInit⟩
  | (queryHash, query) :: rest, queryCache, queriesToInit =>
    match queryKeyParserFn queryHash with
    | .error e => ⟨queryCache, .error e⟩
    | .ok queryKey =>
      let queryConfig := orEmptyObject query
      match createQuery defaults now queryCache queryKey queryConfig with
      | (queryCache1, .error e) => ⟨queryCache1, .error e⟩
      | (queryCache1, .ok _) =>
        hydrateLoop defaults now queryKeyParserFn rest queryCache1
          (queriesToInit ++ [queryHash])

def hydrate (defaults : Defaults) (now : Int) (queryCache : QueryCache)
    (dehydratedQueries : JSValue) (queryKeyParserFn : String → Except JSError JSValue) :
    HydrateResult :=
  match objectEntries dehydratedQueries with
  | .error e => ⟨queryCache, .error e⟩
  | .ok entries => hydrateLoop defaults now queryKeyParserFn entries queryCache []

end Core

/-! ## `src/hydration/hydration.js` -/

namespace Hydration

def dehydrateQuery (query : Query) : JSValue :=
  let config : List (String × JSValue) := []
  let config :=
    if query.config.staleTime ≠ DEFAULT_STALE_TIME then
      objSet config "staleTime" (.num query.config.staleTime)
    else config
  let config :=
    if query.config.cacheTime ≠ DEFAULT_CACHE_TIME then
      objSet config "cacheTime" (.num query.config.cacheTime)
    else config
  let config :=
    if query.state.data.isUndefined = false then
      objSet config "initialData" query.state.data
    else config
  .obj (objSet [("config", JSValue.obj config)] "updatedAt" query.state.updatedAt)

def dehydrate (queryCache : QueryCache) : JSValue :=
  .obj (queryCache.queries.foldl
    (fun dehydratedQueries entry =>
      if entry.2.state.status = Status.success then
        objSet dehydratedQueries entry.1 (dehydrateQuery entry.2)
      else dehydratedQueries)
    [])

/-- The statement `queryCache.queries[queryHash].state.updatedAt = updatedAt`. -/
def setUpdatedAt (queryCache : QueryCache) (queryHash : String) (updatedAt : JSValue) :
    Except JSError QueryCache :=
  match objGet queryCache.queries queryHash with
  | none => .error .typeError
  | some query =>
    .ok { queries := objSet queryCache.queries queryHash
            { query with state := { query.state with updatedAt := updatedAt } } }

/-- The loop of `hydrate` over the entries of the snapshot. -/
def hydrateLoop (defaults : Defaults) (now : Int)
    (queryKeyParserFn : String → Except JSError JSValue) :
    List (String × JSValue) → QueryCache → List String → HydrateResult
  | [], queryCache, queriesToInit => ⟨queryCache, .ok queriesToInit⟩
  | (queryHash, query) :: rest, queryCache, queriesToInit =>
    match queryKeyParserFn queryHash with
    | .error e => ⟨queryCache, .error e⟩
    | .ok queryKey =>
      match getProp query "config" with
      | .error e => ⟨queryCache, .error e⟩
      | .ok config =>
        let queryConfig := orEmptyObject config
        match createQuery defaults now queryCache queryKey queryConfig with
        | (queryCache1, .error e) => ⟨queryCache1, .error e⟩
        | (queryCache1, .ok _) =>
          match getProp query "updatedAt" with
          | .error e => ⟨queryCache1, .error e⟩
          | .ok updatedAt =>
            match setUpdatedAt queryCache1 queryHash updatedAt with
            | .error e => ⟨queryCache1, .error e⟩
            | .ok queryCache2 =>
              hydrateLoop defaults now queryKeyParserFn rest queryCache2
                (queriesToInit ++ [queryHash])

def hydrate (defaults : Defaults) (now : Int) (queryCache : QueryCache)
    (dehydratedQueries : JSValue) (queryKeyParserFn : String → Except JSError JSValue) :
    HydrateResult :=
  match objectEntries dehydratedQueries with
  | .error e => ⟨queryCache, .error e⟩
  | .ok entries => hydrateLoop defaults now queryKeyParserFn entries queryCache []

end Hydration

/-! ## Notions used in the statements -/

/-- The hash is canonical: the default key parser reads the key `canonical` from it
and the default serializer gives that key this hash again. -/
def CanonicalHash (queryHash : String) (canonical : JSValue) : Prop :=
  JSONparse queryHash = .ok canonical
    ∧ defaultQueryKeySerializerFn canonical = .ok (.arr [.str queryHash, canonical])

/-- The key that the default key parser reads from a hash. -/
def parsedKey (queryHash : String) : JSValue :=
  match JSONparse queryHash with
  | .ok queryKey => queryKey
  | .error _ => .undefined

/-- The hash is the one `defaultQueryKeySerializerFn` gives to some key. -/
def IsDefaultHash (queryHash : String) : Prop :=
  ∃ key canonical, key.wellFormed = true
    ∧ defaultQueryKeySerializerFn key = .ok (.arr [.str queryHash, canonical])

/-- The property `k` of an object, `undefined` where it has none. -/
def propOrUndefined (o : JSValue) (k : String) : JSValue :=
  match getProp o k with
  | .ok v => v
  | .error _ => .undefined

/-- The query with `state.updatedAt` replaced. -/
def Query.withUpdatedAt (query : Query) (updatedAt : JSValue) : Query :=
  { query with state := { query.state with updatedAt := updatedAt } }

/-- Every hash with a query in the first cache has one in the second. -/
def Extends (qc qc1 : QueryCache) : Prop :=
  ∀ h, (objGet qc.queries h).isSome = true → (objGet qc1.queries h).isSome = true

/-- The query at the hash, if any, is the same in the second cache. -/
def KeepsAt (h : String) (qc qc1 : QueryCache) : Prop :=
  ∀ q, objGet qc.queries h = some q → objGet qc1.queries h = some q

/-- The step of the loop of `hydrate` in `src/core/hydration.js` for this entry
succeeds on the cache without changing it. -/
def Core.StepOk (p : String → Except JSError JSValue) (qc : QueryCache)
    (e : String × JSValue) : Prop :=
  ∃ k h c, p e.1 = .ok k ∧ defaultQueryKeySerializerFn k = .ok (.arr [.str h, c])
    ∧ (objGet qc.queries h).isSome = true

/-- The step of the loop of `hydrate` in `src/hydration/hydration.js` for this entry
succeeds on the cache without changing it. -/
def Hydration.StepOk (p : String → Except JSError JSValue) (qc : QueryCache)
    (e : String × JSValue) : Prop :=
  ∃ k h c cfg q, p e.1 = .ok k ∧ getProp e.2 "config" = .ok cfg
    ∧ defaultQueryKeySerializerFn k = .ok (.arr [.str h, c])
    ∧ (objGet qc.queries h).isSome = true
    ∧ objGet qc.queries e.1 = some q
    ∧ getProp e.2 "updatedAt" = .ok q.state.updatedAt

/-! ## Sample values -/

/-- A query for the key `[name]` as `prefetchQuery(name, fn, { staleTime })` leaves
it, with the given status, data and time of the last update. -/
def sampleQuery (name : String) (status : Status) (data : JSValue) (staleTime : Int)
    (updatedAt : JSValue) : Query :=
  { queryKey := .arr [.str name]
    queryHash := String.mk (('[' :: quoteJSON name) ++ [']'])
    config := { staleTime := staleTime, cacheTime := DEFAULT_CACHE_TIME }
    state := { status := status, data := data, updatedAt := updatedAt, isStale := true }
    staleTimeout := none
    cacheTimeout := none }

/-- A server-side cache: three fetched queries and one that failed. -/
def sampleCache : QueryCache :=
  { queries :=
      [ ("[\"string\"]", sampleQuery "string" .success (.str "string") 0 (.num 100)),
        ("[\"null\"]", sampleQuery "null" .success .null 50 (.num 110)),
        ("[\"nested\"]", sampleQuery "nested" .success
          (.obj [("key", .arr [.obj [("nestedKey", .num 1)]])]) 0 (.num 120)),
        ("[\"failed\"]", sampleQuery "failed" .error .undefined 0 .undefined) ] }

/-- A client-side cache that already holds data for the key `string`, fetched at
time 200. -/
def clientCache : QueryCache :=
  { queries := [("[\"string\"]", sampleQuery "string" .success (.str "newer") 0 (.num 200))] }

/-- A snapshot in the format of `src/core/hydration.js`. -/
def coreSnapshot : List (String × JSValue) :=
  [ ("[\"string\"]", .obj [("initialData", .str "should not change")]),
    ("[\"added string\"]", .obj [("initialData", .str "added string")]) ]

/-- A snapshot in the format of `src/hydration/hydration.js`, taken at time 100. -/
def hydrationSnapshot : JSValue :=
  .obj [("[\"string\"]",
    .obj [("config", .obj [("initialData", .str "string")]), ("updatedAt", .num 100)])]

/-- A snapshot in the format of `src/core/hydration.js` whose second hash is not
JSON. -/
def brokenSnapshot : List (String × JSValue) :=
  [ ("[\"a\"]", .obj [("initialData", .str "a")]),
    ("oops", .obj [("initialData", .str "broken")]),
    ("[\"b\"]", .obj [("initialData", .str "b")]) ]

/-- The same snapshot in the format of `src/hydration/hydration.js`. -/
def brokenHydrationSnapshot : List (String × JSValue) :=
  [ ("[\"a\"]", .obj [("config", .obj [("initialData", .str "a")]), ("updatedAt", .num 1)]),
    ("oops", .obj [("config", .obj [("initialData", .str "broken")]), ("updatedAt", .num 2)]),
    ("[\"b\"]", .obj [("config", .obj [("initialData", .str "b")]), ("updatedAt", .num 3)]) ]

/-- A snapshot in the format of `src/hydration/hydration.js` of a query fetched with
`staleTime: 50`. -/
def timedSnapshot : List (String × JSValue) :=
  [ ("[\"string\"]",
      .obj [("config", .obj [("staleTime", .num 50), ("initialData", .str "string")]),
        ("updatedAt", .num 100)]) ]

/-! ## The default retry delay -/

/-- The default `retryDelay` of `DEFAULT_CONFIG.queries` in `src/core/config.js`,
`attemptIndex => Math.min(1000 * 2 ** attemptIndex, 30000)`, on the attempt indices
0, 1, 2, ...  The result is exact also where `2 ** attemptIndex` exceeds the range
of exact integers or is `Infinity`, as the minimum is then 30000. -/
def retryDelay (attemptIndex : Nat) : Nat :=
  min (1000 * 2 ^ attemptIndex) 30000

/-! ## The calls that hydration makes to the query cache -/

/-- A call to the query cache: `queryCache.createQuery(queryKey, queryConfig)` or
`query.initializeQuery()` on the query at a hash. -/
inductive CacheCall where
  | createQuery (queryKey queryConfig : JSValue)
  | initializeQuery (queryHash : String)
  deriving Repr

/-- The function `initializeQueries` with the calls it makes recorded, in the order
in which it makes them. -/
def initializeQueriesTraced (isServer : Bool) (now : Int) :
    List String → QueryCache → (QueryCache × List String) × List CacheCall
  | [], queryCache => ((queryCache, []), [])
  | queryHash :: queriesToInit, queryCache =>
    match objGet queryCache.queries queryHash with
    | some query =>
      if !isServer then
        ((initializeQueriesTraced isServer now queriesToInit
            { queries := objSet queryCache.queries queryHash (initializeQuery now query) }).1,
          CacheCall.initializeQuery queryHash ::
            (initializeQueriesTraced isServer now queriesToInit
              { queries := objSet queryCache.queries queryHash
                  (initializeQuery now query) }).2)
      else initializeQueriesTraced isServer now queriesToInit queryCache
    | none => initializeQueriesTraced isServer now queriesToInit queryCache

namespace Core

/-- The loop of `hydrate` with the calls it makes recorded, in the order in which it
makes them. -/
def hydrateLoopTraced (defaults : Defaults) (now : Int)
    (queryKeyParserFn : String → Except JSError JSValue) :
    List (String × JSValue) → QueryCache → List String → HydrateResult × List CacheCall
  | [], queryCache, queriesToInit => (⟨queryCache, .ok queriesToInit⟩, [])
  | (queryHash, query) :: rest, queryCache, queriesToInit =>
    match queryKeyParserFn queryHash with
    | .error e => (⟨queryCache, .error e⟩, [])
    | .ok queryKey =>
      let queryConfig := orEmptyObject query
      match createQuery defaults now queryCache queryKey queryConfig with
      | (queryCache1, .error e) =>
        (⟨queryCache1, .error e⟩, [CacheCall.createQuery queryKey queryConfig])
      | (queryCache1, .ok _) =>
        ((hydrateLoopTraced defaults now queryKeyParserFn rest queryCache1
            (queriesToInit ++ [queryHash])).1,
          CacheCall.createQuery queryKey queryConfig ::
            (hydrateLoopTraced defaults now queryKeyParserFn rest queryCache1
              (queriesToInit ++ [queryHash])).2)

/-- The function `hydrate` with the calls it makes recorded. -/
def hydrateTraced (defaults : Defaults) (now : Int) (queryCache : QueryCache)
    (dehydratedQueries : JSValue) (queryKeyParserFn : String → Except JSError JSValue) :
    HydrateResult × List CacheCall :=
  match objectEntries dehydratedQueries with
  | .error e => (⟨queryCache, .error e⟩, [])
  | .ok entries => hydrateLoopTraced defaults now queryKeyParserFn entries queryCache []

end Core

namespace Hydration

/-- The loop of `hydrate` with the calls it makes recorded, in the order in which it
makes them. -/
def hydrateLoopTraced (defaults : Defaults) (now : Int)
    (queryKeyParserFn : String → Except JSError JSValue) :
    List (String × JSValue) → QueryCache → List String → HydrateResult × List CacheCall
  | [], queryCache, queriesToInit => (⟨queryCache, .ok queriesToInit⟩, [])
  | (queryHash, query) :: rest, queryCache, queriesToInit =>
    match queryKeyParserFn queryHash with
    | .error e => (⟨queryCache, .error e⟩, [])
    | .ok queryKey =>
      match getProp query "config" with
      | .error e => (⟨queryCache, .error e⟩, [])
      | .ok config =>
        let queryConfig := orEmptyObject config
        match createQuery defaults now queryCache queryKey queryConfig with
        | (queryCache1, .error e) =>
          (⟨queryCache1, .error e⟩, [CacheCall.createQuery queryKey queryConfig])
        | (queryCache1, .ok _) =>
          match getProp query "updatedAt" with
          | .error e =>
            (⟨queryCache1, .error e⟩, [CacheCall.createQuery queryKey queryConfig])
          | .ok updatedAt =>
            match setUpdatedAt queryCache1 queryHash updatedAt with
            | .error e =>
              (⟨queryCache1, .error e⟩, [CacheCall.createQuery queryKey queryConfig])
            | .ok queryCache2 =>
              ((hydrateLoopTraced defaults now queryKeyParserFn rest queryCache2
                  (queriesToInit ++ [queryHash])).1,
                CacheCall.createQuery queryKey queryConfig ::
                  (hydrateLoopTraced defaults now queryKeyParserFn rest queryCache2
                    (queriesToInit ++ [queryHash])).2)

/-- The function `hydrate` with the calls it makes recorded. -/
def hydrateTraced (defaults : Defaults) (now : Int) (queryCache : QueryCache)
    (dehydratedQueries : JSValue) (queryKeyParserFn : String → Except JSError JSValue) :
    HydrateResult × List CacheCall :=
  match objectEntries dehydratedQueries with
  | .error e => (⟨queryCache, .error e⟩, [])
  | .ok entries => hydrateLoopTraced defaults now queryKeyParserFn entries queryCache []

end Hydration

/-- The key that a key parser reads from a hash. -/
def parsedWith (queryKeyParserFn : String → Except JSError JSValue) (queryHash : String) :
    JSValue :=
  match queryKeyParserFn queryHash with
  | .ok queryKey => queryKey
  | .error _ => .undefined

/-- Every query of the second cache is a query of the first, unchanged, or is new
and has no armed timer. -/
def OnlyAddsUnarmed (qc qc1 : QueryCache) : Prop :=
  ∀ h q, objGet qc1.queries h = some q →
    objGet qc.queries h = some q
      ∨ (objGet qc.queries h = none ∧ q.staleTimeout = none ∧ q.cacheTimeout = none)

/-! ## The staleness timer -/

/-- Modelled from the spec: the staleness timer of a query, which is part of
`src/core/queryCache.js` and not among the sources.  Spec 3 and 4.3: the timer that
`initializeQuery` arms for the time `due` runs once, at a time `now` not before
`due`; it marks the query stale and is then no longer armed.  A timer that is not
armed, or not yet due at `now`, changes nothing.  The function gives the query as it
is at time `now` when no fetch happened since the timer was armed. -/
def Query.runStaleTimer (now : Int) (query : Query) : Query :=
  match query.staleTimeout with
  | some due =>
    if due ≤ now then
      { query with state := { query.state with isStale := true }, staleTimeout := none }
    else query
  | none => query

/-! ## `src/react/ReactQueryCacheProvider.js` -/

/-- A value of the `queryCache` prop, or an element of the list `queryCaches`: a
primitive value, or an object, which is what a query cache is, given by its
reference. -/
inductive PropValue where
  | undefined
  | null
  | bool (b : Bool)
  | num (n : Int)
  | str (s : String)
  | object (ref : Nat)
  deriving DecidableEq, Repr

namespace PropValue

/-- The builtin `ToBoolean`. -/
def truthy : PropValue → Bool
  | undefined => false
  | null => false
  | bool b => b
  | num n => decide (n ≠ 0)
  | str s => decide (s ≠ "")
  | object _ => true

/-- The test `v == null`. -/
def looseNull : PropValue → Bool
  | undefined => true
  | null => true
  | _ => false

end PropValue

/-- What the provider reads and writes outside itself: the list `queryCaches` of the
active caches, the reference that the next new object gets, and the caches on which
`clear` has been called, in the order of the calls. -/
structure Runtime where
  queryCaches : List PropValue
  nextRef : Nat
  clearCalls : List PropValue
  deriving DecidableEq, Repr

/-- Modelled from the spec: `makeQueryCache()` of `src/core/queryCache.js`, which is
not among the sources.  Spec 2 (Cache): it makes a new cache, an object that no
other reference denotes. -/
def makeQueryCache (rt : Runtime) : PropValue × Runtime :=
  (.object rt.nextRef, { rt with nextRef := rt.nextRef + 1 })

/-- The call `queryCache.clear(\x7b notify: false \x7d)`, recorded. -/
def clear (rt : Runtime) (queryCache : PropValue) : Runtime :=
  { rt with clearCalls := rt.clearCalls ++ [queryCache] }

/-- The builtin `Array.prototype.indexOf`: the first index at which the array holds
the value, `none` for -1. -/
def indexOf : List PropValue → PropValue → Option Nat
  | [], _ => none
  | x :: xs, v => if x = v then some 0 else (indexOf xs v).map (· + 1)

/-- A mounted `ReactQueryCacheProvider`: the `queryCache` prop of its last render and
the memoized `resolvedQueryCache`, which are also the values that the cleanup of its
effect has captured. -/
structure ProviderInstance where
  queryCache : PropValue
  resolvedQueryCache : PropValue
  deriving DecidableEq, Repr

namespace ReactQueryCacheProvider

/-- The memoized expression `queryCache || makeQueryCache()`. -/
def resolve (rt : Runtime) (queryCache : PropValue) : PropValue × Runtime :=
  if queryCache.truthy then (queryCache, rt) else makeQueryCache rt

/-- The body of the effect: `queryCaches.push(resolvedQueryCache)`. -/
def effect (rt : Runtime) (resolvedQueryCache : PropValue) : Runtime :=
  { rt with queryCaches := rt.queryCaches ++ [resolvedQueryCache] }

/-- The cleanup function that the effect returns. -/
def cleanup (rt : Runtime) (inst : ProviderInstance) : Runtime :=
  let rt1 :=
    match indexOf rt.queryCaches inst.resolvedQueryCache with
    | some i => { rt with queryCaches := rt.queryCaches.eraseIdx i }
    | none => rt
  if inst.queryCache.looseNull then clear rt1 inst.resolvedQueryCache else rt1

/-- The first render of a provider and its effect, for a provider without
`initialQueries`. -/
def mount (rt : Runtime) (queryCache : PropValue) : ProviderInstance × Runtime :=
  (⟨queryCache, (resolve rt queryCache).1⟩,
    effect (resolve rt queryCache).2 (resolve rt queryCache).1)

/-- A later render with the given prop.  With the same prop the memoized cache is
kept and the effect does not run again, as its dependencies `[resolvedQueryCache,
queryCache]` are the same; with another prop the cache is resolved again, the
cleanup of the previous effect runs and then the effect. -/
def rerender (rt : Runtime) (inst : ProviderInstance) (queryCache : PropValue) :
    ProviderInstance × Runtime :=
  if queryCache = inst.queryCache then (inst, rt)
  else
    (⟨queryCache, (resolve rt queryCache).1⟩,
      effect (cleanup (resolve rt queryCache).2 inst) (resolve rt queryCache).1)

/-- The provider is unmounted: the cleanup of its effect runs. -/
def unmount (rt : Runtime) (inst : ProviderInstance) : Runtime :=
  cleanup rt inst

end ReactQueryCacheProvider

/-- A runtime in which the default cache, object 0, is the only active cache and a
cache made by the caller is object 1. -/
def sampleRuntime : Runtime :=
  { queryCaches := [.object 0], nextRef := 2, clearCalls := [] }

/-! ## Removal of queries -/

/-- Modelled from the spec: the removal of queries from the cache (`remove` and
garbage collection of `src/core/queryCache.js`, which is not among the sources).
Spec 4.2: the entry is removed from the registry, so `queryCache.queries[queryHash]`
is `undefined` afterwards; the other queries stay as they are. -/
def deleteQueries (removed : List String) (queryCache : QueryCache) : QueryCache :=
  { queries := queryCache.queries.filter (fun e => !removed.contains e.1) }

/-! ## Process defaults other than the built-in ones -/

/-- Process defaults that both a server and a client have set in place of the
built-in ones: stale time 50 and cache time 1000. -/
def customDefaults : Defaults :=
  { staleTime := 50, cacheTime := 1000 }

/-- A server-side cache under `customDefaults` with one fetched query, for which the
stale time was configured as 0; its cache time is the default of the process. -/
def customSource : QueryCache :=
  { queries :=
      [ ("[\"string\"]",
          { queryKey := .arr [.str "string"]
            queryHash := "[\"string\"]"
            config := { staleTime := 0, cacheTime := 1000 }
            state :=
              { status := .success, data := .str "string", updatedAt := .num 100,
                isStale := true }
            staleTimeout := none
            cacheTimeout := none }) ] }

/-! ## Structural induction on values -/

theorem jsValue_induct {P : JSValue → Prop}
    (hundefined : P .undefined) (hnull : P .null) (hbool : ∀ b, P (.bool b))
    (hnum : ∀ n, P (.num n)) (hstr : ∀ s, P (.str s)) (hfunc : ∀ i, P (.func i))
    (harr : ∀ xs, (∀ x ∈ xs, P x) → P (.arr xs))
    (hobj : ∀ fs, (∀ p ∈ fs, P p.2) → P (.obj fs)) : ∀ v, P v := by
  intro v
  refine JSValue.rec (motive_1 := P) (motive_2 := fun xs => ∀ x ∈ xs, P x)
    (motive_3 := fun fs => ∀ p ∈ fs, P p.2) (motive_4 := fun p => P p.2)
    hundefined hnull hbool hnum hstr hfunc harr hobj ?_ ?_ ?_ ?_ ?_ v
  · intro x hx; cases hx
  · intro x xs hx hxs y hy
    rcases List.mem_cons.1 hy with h | h
    · subst h; exact hx
    · exact hxs y h
  · intro x hx; cases hx
  · intro p ps hp hps q hq
    rcases List.mem_cons.1 hq with h | h
    · subst h; exact hp
    · exact hps q h
  · intro k v hv; exact hv

/-! ## Round trip of strings -/

theorem hexVal_digitChar : ∀ d, d < 16 → hexVal (Nat.digitChar d) = some d := by
  decide

theorem parseStringBody_plain (c : Char) (more : List Char) (h1 : ¬c = quoteChar)
    (h2 : ¬c = backslashChar) (h8 : ¬c.toNat < 32) :
    parseStringBody (c :: more)
      = (parseStringBody more).map (fun r => (c :: r.1, r.2)) := by
  rw [parseStringBody.eq_def]
  simp only [h1, h2, h8, if_false]

theorem parseStringBody_quote (rest : List Char) :
    parseStringBody (quoteChar :: rest) = some ([], rest) := by
  rw [parseStringBody.eq_def]
  simp only [if_true]

theorem parseStringBody_short (e ch : Char) (more : List Char) (hu : ¬e = 'u')
    (he : unescapeChar e = some ch) :
    parseStringBody (backslashChar :: e :: more)
      = (parseStringBody more).map (fun r => (ch :: r.1, r.2)) := by
  rw [parseStringBody.eq_def]
  have hb : ¬ (backslashChar = quoteChar) := by decide
  simp only [hb, hu, he, if_false, if_true]

theorem parseStringBody_control (c : Char) (more : List Char) (h : c.toNat < 32) :
    parseStringBody (backslashChar :: 'u' :: '0' :: '0' :: Nat.digitChar (c.toNat / 16)
        :: Nat.digitChar (c.toNat % 16) :: more)
      = (parseStringBody more).map (fun r => (c :: r.1, r.2)) := by
  rw [parseStringBody.eq_def]
  have hd1 : hexVal (Nat.digitChar (c.toNat / 16)) = some (c.toNat / 16) :=
    hexVal_digitChar _ (by omega)
  have hd2 : hexVal (Nat.digitChar (c.toNat % 16)) = some (c.toNat % 16) :=
    hexVal_digitChar _ (by omega)
  have h0 : hexVal '0' = some 0 := by decide
  have hb : ¬ (backslashChar = quoteChar) := by decide
  simp only [hb, h0, hd1, hd2, if_false, if_true]
  have hn : ((0 * 16 + 0) * 16 + c.toNat / 16) * 16 + c.toNat % 16 = c.toNat := by omega
  rw [hn]
  have hs : ¬ (0xD800 ≤ c.toNat ∧ c.toNat ≤ 0xDFFF) := by omega
  simp only [hs, if_false, Char.ofNat_toNat]

theorem parseStringBody_escapeChar (c : Char) (more : List Char) :
    parseStringBody (escapeChar c ++ more)
      = (parseStringBody more).map (fun r => (c :: r.1, r.2)) := by
  unfold escapeChar
  split_ifs with h1 h2 h3 h4 h5 h6 h7 h8
  · subst h1; exact parseStringBody_short _ _ _ (by decide) (by decide)
  · subst h2; exact parseStringBody_short _ _ _ (by decide) (by decide)
  · subst h3; exact parseStringBody_short _ _ _ (by decide) (by decide)
  · subst h4; exact parseStringBody_short _ _ _ (by decide) (by decide)
  · subst h5; exact parseStringBody_short _ _ _ (by decide) (by decide)
  · subst h6; exact parseStringBody_short _ _ _ (by decide) (by decide)
  · subst h7; exact parseStringBody_short _ _ _ (by decide) (by decide)
  · exact parseStringBody_control c more h8
  · exact parseStringBody_plain c more h1 h2 h8

theorem parseStringBody_escapeChars (cs rest : List Char) :
    parseStringBody (escapeChars cs ++ quoteChar :: rest) = some (cs, rest) := by
  induction cs with
  | nil => exact parseStringBody_quote rest
  | cons c cs ih =>
    simp only [escapeChars, List.append_assoc]
    rw [parseStringBody_escapeChar, ih]
    rfl

/-! ## Round trip of numbers -/

theorem digitChar_facts : ∀ d, d < 10 →
    (Nat.digitChar d).isDigit = true ∧ (Nat.digitChar d).toNat - 48 = d
      ∧ (Nat.digitChar d = '0' → d = 0) := by
  decide

theorem digitsValue_append (pre : List Char) (d : Char) :
    digitsValue (pre ++ [d]) = digitsValue pre * 10 + (d.toNat - 48) := by
  simp [digitsValue, List.foldl_append]

theorem toDigitsCore_spec (n : Nat) : ∀ fuel ds, n < fuel →
    ∃ pre, Nat.toDigitsCore 10 fuel n ds = pre ++ ds ∧ pre ≠ []
      ∧ (∀ c ∈ pre, c.isDigit = true) ∧ digitsValue pre = n
      ∧ (n ≠ 0 → pre.head? ≠ some '0') := by
  induction n using Nat.strong_induction_on with
  | _ n ih =>
    intro fuel ds hfuel
    cases fuel with
    | zero => omega
    | succ fuel =>
      have hd := digitChar_facts (n % 10) (Nat.mod_lt _ (by decide))
      simp only [Nat.toDigitsCore]
      by_cases h0 : n / 10 = 0
      · simp only [h0, if_true]
        have hn : n % 10 = n := by omega
        refine ⟨[Nat.digitChar (n % 10)], rfl, by simp, ?_, ?_, ?_⟩
        · intro c hc
          simp only [List.mem_singleton] at hc
          subst hc
          exact hd.1
        · simp only [digitsValue, List.foldl_cons, List.foldl_nil, hd.2.1]
          omega
        · intro hne hhead
          simp only [List.head?_cons, Option.some.injEq] at hhead
          exact hne (by have := hd.2.2 hhead; omega)
      · simp only [h0, if_false]
        obtain ⟨pre, hpre, hne, hdig, hval, hhead⟩ :=
          ih (n / 10) (by omega) fuel (Nat.digitChar (n % 10) :: ds) (by omega)
        refine ⟨pre ++ [Nat.digitChar (n % 10)], ?_, by simp, ?_, ?_, ?_⟩
        · rw [hpre]; simp
        · intro c hc
          rcases List.mem_append.1 hc with hc | hc
          · exact hdig c hc
          · simp only [List.mem_singleton] at hc
            subst hc
            exact hd.1
        · rw [digitsValue_append, hval, hd.2.1]
          omega
        · intro _
          cases pre with
          | nil => exact absurd rfl hne
          | cons p ps =>
            simp only [List.cons_append, List.head?_cons] at hhead ⊢
            exact hhead h0

theorem toDigits_spec (n : Nat) :
    Nat.toDigits 10 n ≠ [] ∧ (∀ c ∈ Nat.toDigits 10 n, c.isDigit = true)
      ∧ digitsValue (Nat.toDigits 10 n) = n
      ∧ (n ≠ 0 → (Nat.toDigits 10 n).head? ≠ some '0') := by
  obtain ⟨pre, hpre, h⟩ := toDigitsCore_spec n (n + 1) [] (by omega)
  have : Nat.toDigits 10 n = pre := by simp [Nat.toDigits, hpre]
  rw [this]
  exact h

theorem isTerminated_not_digit {c : Char} {r : List Char} (h : isTerminated (c :: r) = true) :
    c.isDigit = false ∧ ¬ (c = '.' ∨ c = 'e' ∨ c = 'E') ∧ isWs c = false := by
  simp only [isTerminated, Bool.or_eq_true, decide_eq_true_eq] at h
  rcases h with (h | h) | h <;> subst h <;> decide

theorem takeDigits_append (pre rest : List Char) (hpre : ∀ c ∈ pre, c.isDigit = true)
    (hrest : isTerminated rest = true) : takeDigits (pre ++ rest) = (pre, rest) := by
  induction pre with
  | nil =>
    cases rest with
    | nil => rfl
    | cons c r => simp [takeDigits, (isTerminated_not_digit hrest).1]
  | cons p ps ih =>
    have hp := hpre p (List.mem_cons_self _ _)
    have := ih (fun c hc => hpre c (List.mem_cons_of_mem _ hc))
    simp [takeDigits, hp, this]

theorem parseNat_toDigits (n : Nat) (rest : List Char) (hrest : isTerminated rest = true) :
    parseNat (Nat.toDigits 10 n ++ rest) = some (n, rest) := by
  obtain ⟨hne, hdig, hval, hhead⟩ := toDigits_spec n
  unfold parseNat
  rw [takeDigits_append _ _ hdig hrest]
  cases hds : Nat.toDigits 10 n with
  | nil => exact absurd hds hne
  | cons d ds =>
    rw [hds] at hval hhead
    have hlead : ¬ (d = '0' ∧ ds ≠ []) := by
      rintro ⟨hd, hds1⟩
      by_cases hn : n = 0
      · subst hn
        have : Nat.toDigits 10 0 = ['0'] := by decide
        rw [this] at hds
        simp only [List.cons.injEq] at hds
        exact hds1 hds.2.symm
      · exact hhead hn (by simp [hd])
    simp only [hlead, if_false]
    cases rest with
    | nil => simp [hval]
    | cons c r =>
      have := (isTerminated_not_digit hrest).2.1
      simp only [this, if_false, hval]

theorem parseNumber_renderInt (n : Int) (rest : List Char) (hrest : isTerminated rest = true) :
    parseNumber (renderInt n ++ rest) = some (.num n, rest) := by
  cases n with
  | ofNat n =>
    obtain ⟨hne, hdig, -, -⟩ := toDigits_spec n
    have hp := parseNat_toDigits n rest hrest
    simp only [renderInt]
    cases hds : Nat.toDigits 10 n with
    | nil => exact absurd hds hne
    | cons d ds =>
      rw [hds] at hp
      have hd : d.isDigit = true := hdig d (by rw [hds]; exact List.mem_cons_self _ _)
      have hminus : ¬ d = '-' := by
        intro h; subst h; exact absurd hd (by decide)
      simp only [parseNumber, List.cons_append, hminus, if_false]
      rw [List.cons_append] at hp
      rw [hp]
      rfl
  | negSucc n =>
    have hp := parseNat_toDigits (n + 1) rest hrest
    simp only [renderInt, parseNumber, List.cons_append, if_true, hp]
    simp [Int.negSucc_eq]

/-! ## Round trip of values -/

theorem skipWs_of_head {c : Char} (r : List Char) (h : isWs c = false) :
    skipWs (c :: r) = c :: r := by
  simp [skipWs, h]

theorem parsesBack_null : ParsesBack .null := by
  intro t ht fuel rest hfuel hrest
  simp only [serialize, Option.some.injEq] at ht
  subst ht
  cases fuel with
  | zero => omega
  | succ fuel =>
    simp only [nullText, List.cons_append, List.nil_append, parseValue]
    rw [skipWs_of_head _ (by decide)]
    simp [expectText, jsonClean, quoteChar]

theorem parsesBack_bool (b : Bool) : ParsesBack (.bool b) := by
  intro t ht fuel rest hfuel hrest
  cases fuel with
  | zero => omega
  | succ fuel =>
    cases b
    · simp only [serialize, Option.some.injEq] at ht
      subst ht
      simp only [falseText, List.cons_append, List.nil_append, parseValue]
      rw [skipWs_of_head _ (by decide)]
      simp [expectText, jsonClean, quoteChar]
    · simp only [serialize, Option.some.injEq] at ht
      subst ht
      simp only [trueText, List.cons_append, List.nil_append, parseValue]
      rw [skipWs_of_head _ (by decide)]
      simp [expectText, jsonClean, quoteChar]

theorem parsesBack_str (s : String) : ParsesBack (.str s) := by
  intro t ht fuel rest hfuel hrest
  simp only [serialize, Option.some.injEq] at ht
  subst ht
  cases fuel with
  | zero => omega
  | succ fuel =>
    simp only [quoteJSON, List.cons_append, List.append_assoc, List.nil_append, parseValue]
    rw [skipWs_of_head _ (by decide)]
    have h1 : ¬ quoteChar = '[' := by decide
    have h2 : ¬ quoteChar = '{' := by decide
    simp only [h1, h2, if_false, if_true, parseStringBody_escapeChars, Option.map_some',
      jsonClean]

theorem renderInt_head (n : Int) :
    ∃ c r, renderInt n = c :: r ∧ (c.isDigit = true ∨ c = '-') := by
  cases n with
  | ofNat n =>
    obtain ⟨hne, hdig, -, -⟩ := toDigits_spec n
    cases hds : Nat.toDigits 10 n with
    | nil => exact absurd hds hne
    | cons d ds =>
      exact ⟨d, ds, by simp [renderInt, hds], Or.inl (hdig d (by rw [hds]; simp))⟩
  | negSucc n => exact ⟨'-', _, rfl, Or.inr rfl⟩

theorem numberHead_facts (c : Char) (h : c.isDigit = true ∨ c = '-') :
    isWs c = false ∧ ¬ c = '[' ∧ ¬ c = '{' ∧ ¬ c = quoteChar ∧ ¬ c = 'n' ∧ ¬ c = 't'
      ∧ ¬ c = 'f' := by
  rcases h with h | h
  · refine ⟨?_, ?_, ?_, ?_, ?_, ?_, ?_⟩ <;>
      first
        | (intro h1; subst h1; exact absurd h (by decide))
        | (cases hw : isWs c with
           | false => rfl
           | true =>
             simp only [isWs, Bool.or_eq_true, decide_eq_true_eq] at hw
             rcases hw with ((hw | hw) | hw) | hw <;> subst hw <;> exact absurd h (by decide))
  · subst h; decide

theorem parsesBack_num (n : Int) : ParsesBack (.num n) := by
  intro t ht fuel rest hfuel hrest
  simp only [serialize, Option.some.injEq] at ht
  subst ht
  cases fuel with
  | zero => omega
  | succ fuel =>
    obtain ⟨c, r, hcr, hc⟩ := renderInt_head n
    obtain ⟨hw, h1, h2, h3, h4, h5, h6⟩ := numberHead_facts c hc
    have hp := parseNumber_renderInt n rest hrest
    rw [hcr] at hp ⊢
    simp only [List.cons_append, parseValue]
    rw [skipWs_of_head _ hw]
    simp only [h1, h2, h3, h4, h5, h6, if_false]
    rw [List.cons_append] at hp
    rw [hp]
    rfl

theorem serialize_head {v : JSValue} {t : List Char} (h : serialize v = some t) :
    ∃ c r, t = c :: r ∧ isWs c = false ∧ ¬ c = ']' ∧ ¬ c = '}' := by
  cases v with
  | undefined => simp [serialize] at h
  | func i => simp [serialize] at h
  | null => simp only [serialize, Option.some.injEq] at h; subst h; exact ⟨_, _, rfl, by decide⟩
  | bool b =>
    cases b <;> simp only [serialize, Option.some.injEq] at h <;> subst h <;>
      exact ⟨_, _, rfl, by decide⟩
  | num n =>
    simp only [serialize, Option.some.injEq] at h; subst h
    obtain ⟨c, r, hcr, hc⟩ := renderInt_head n
    refine ⟨c, r, hcr, (numberHead_facts c hc).1, ?_, ?_⟩ <;>
      (intro h1; subst h1; rcases hc with hc | hc <;> exact absurd hc (by decide))
  | str s => simp only [serialize, Option.some.injEq] at h; subst h; exact ⟨_, _, rfl, by decide⟩
  | arr xs => simp only [serialize, Option.some.injEq] at h; subst h; exact ⟨_, _, rfl, by decide⟩
  | obj fs => simp only [serialize, Option.some.injEq] at h; subst h; exact ⟨_, _, rfl, by decide⟩

theorem joinComma_cons_cons (t u : List Char) (ts : List (List Char)) :
    joinComma (t :: u :: ts) = t ++ ',' :: joinComma (u :: ts) := rfl

theorem elementText (x : JSValue) :
    ∃ y, serialize y = some ((serialize x).getD nullText)
      ∧ jsonClean y = (if x.unserialisable then JSValue.null else jsonClean x)
      ∧ (ParsesBack x → ParsesBack y) := by
  cases x with
  | undefined => exact ⟨.null, rfl, rfl, fun _ => parsesBack_null⟩
  | func i => exact ⟨.null, rfl, rfl, fun _ => parsesBack_null⟩
  | null => exact ⟨.null, rfl, rfl, id⟩
  | bool b => exact ⟨.bool b, by cases b <;> rfl, rfl, id⟩
  | num n => exact ⟨.num n, rfl, rfl, id⟩
  | str s => exact ⟨.str s, rfl, rfl, id⟩
  | arr xs => exact ⟨.arr xs, rfl, rfl, id⟩
  | obj fs => exact ⟨.obj fs, rfl, rfl, id⟩

theorem parseElements_serialize (xs : List JSValue) (ih : ∀ x ∈ xs, ParsesBack x)
    (hne : xs ≠ []) : ∀ fuel rest,
    (joinComma (serializeElements xs)).length + 1 < fuel →
    parseElements fuel (joinComma (serializeElements xs) ++ ']' :: rest)
      = some (cleanElements xs, rest) := by
  induction xs with
  | nil => exact absurd rfl hne
  | cons x xs ihxs =>
    intro fuel rest hfuel
    cases fuel with
    | zero => omega
    | succ fuel =>
      obtain ⟨y, hy, hclean, hpb⟩ := elementText x
      have hx := hpb (ih x (List.mem_cons_self _ _))
      cases xs with
      | nil =>
        simp only [serializeElements, joinComma, cleanElements] at hfuel ⊢
        rw [parseElements, hx _ hy fuel (']' :: rest) (by omega) rfl]
        simp only [skipWs_of_head _ (by decide : isWs ']' = false)]
        simp [hclean]
      | cons x2 xs =>
        have ih2 := ihxs (fun z hz => ih z (List.mem_cons_of_mem _ hz)) (by simp)
        simp only [serializeElements, joinComma_cons_cons, cleanElements,
          List.append_assoc, List.cons_append, List.length_append, List.length_cons]
          at hfuel ih2 ⊢
        rw [parseElements, hx _ hy fuel (',' :: _) (by omega) rfl]
        simp only [skipWs_of_head _ (by decide : isWs ',' = false)]
        rw [if_pos trivial, ih2 fuel rest (by omega)]
        simp [hclean]

theorem serialize_none_iff (v : JSValue) : serialize v = none ↔ v.unserialisable = true := by
  cases v with
  | bool b => cases b <;> simp [serialize, JSValue.unserialisable]
  | _ => simp [serialize, JSValue.unserialisable]

theorem serializeMembers_nil_iff (fs : List (String × JSValue)) :
    serializeMembers fs = [] ↔ cleanMembers fs = [] := by
  induction fs with
  | nil => simp [serializeMembers, cleanMembers]
  | cons p fs ih =>
    obtain ⟨k, v⟩ := p
    cases hv : serialize v with
    | none =>
      have := (serialize_none_iff v).1 hv
      simp [serializeMembers, cleanMembers, hv, this, ih]
    | some t =>
      have : v.unserialisable = false := by
        cases hu : v.unserialisable with
        | false => rfl
        | true => rw [(serialize_none_iff v).2 hu] at hv; cases hv
      simp [serializeMembers, cleanMembers, hv, this]

theorem parseMembers_step (fuel : Nat) (k : String) (t more : List Char) (cv : JSValue)
    (hv : ∀ rest, isTerminated rest = true → parseValue fuel (t ++ rest) = some (cv, rest)) :
    (∀ rest, parseMembers (fuel + 1) (quoteJSON k ++ ':' :: t ++ '}' :: rest)
        = some ([(k, cv)], rest))
    ∧ parseMembers (fuel + 1) (quoteJSON k ++ ':' :: t ++ ',' :: more)
        = (parseMembers fuel more).map (fun p => ((k, cv) :: p.1, p.2)) := by
  have hq : ∀ r, skipWs (quoteChar :: r) = quoteChar :: r :=
    fun r => skipWs_of_head r (by decide)
  have hc : ∀ r, skipWs (':' :: r) = ':' :: r := fun r => skipWs_of_head r (by decide)
  have hb : ∀ r, skipWs ('}' :: r) = '}' :: r := fun r => skipWs_of_head r (by decide)
  have hm : ∀ r, skipWs (',' :: r) = ',' :: r := fun r => skipWs_of_head r (by decide)
  constructor
  · intro rest
    simp only [quoteJSON, List.cons_append, List.append_assoc, List.nil_append]
    rw [parseMembers, hq]
    simp only [if_true, parseStringBody_escapeChars, hc]
    rw [hv ('}' :: rest) rfl]
    simp only [hb]
    simp
  · simp only [quoteJSON, List.cons_append, List.append_assoc, List.nil_append]
    rw [parseMembers, hq]
    simp only [if_true, parseStringBody_escapeChars, hc]
    rw [hv (',' :: more) rfl]
    simp only [hm]
    simp

theorem parseMembers_serialize (fs : List (String × JSValue))
    (ih : ∀ p ∈ fs, ParsesBack p.2) : ∀ fuel rest, serializeMembers fs ≠ [] →
    (joinComma (serializeMembers fs)).length + 1 < fuel →
    parseMembers fuel (joinComma (serializeMembers fs) ++ '}' :: rest)
      = some (cleanMembers fs, rest) := by
  induction fs with
  | nil => intro _ _ hne; exact absurd rfl hne
  | cons p fs ihfs =>
    obtain ⟨k, v⟩ := p
    have ih2 := ihfs (fun z hz => ih z (List.mem_cons_of_mem _ hz))
    intro fuel rest hne hfuel
    cases hv : serialize v with
    | none =>
      have hu := (serialize_none_iff v).1 hv
      simp only [serializeMembers, hv, cleanMembers, hu, if_true] at hne hfuel ⊢
      exact ih2 fuel rest hne hfuel
    | some t =>
      have hu : v.unserialisable = false := by
        cases hu : v.unserialisable with
        | false => rfl
        | true => rw [(serialize_none_iff v).2 hu] at hv; cases hv
      have hpb : ParsesBack v := ih (k, v) (List.mem_cons_self _ _)
      simp only [serializeMembers, hv, cleanMembers, hu] at hne hfuel ⊢
      cases fuel with
      | zero => omega
      | succ fuel =>
        cases hms : serializeMembers fs with
        | nil =>
          rw [hms] at hfuel
          simp only [joinComma, List.length_append, List.length_cons] at hfuel
          have hstep := (parseMembers_step fuel k t [] (jsonClean v)
            (fun r hr => hpb t hv fuel r (by omega) hr)).1 rest
          simp only [joinComma]
          rw [hstep, (serializeMembers_nil_iff fs).1 hms]
          rfl
        | cons m ms =>
          rw [hms] at hfuel
          simp only [joinComma_cons_cons, List.length_append, List.length_cons] at hfuel
          have hstep := (parseMembers_step fuel k t (joinComma (m :: ms) ++ '}' :: rest)
            (jsonClean v) (fun r hr => hpb t hv fuel r (by omega) hr)).2
          have hrec := ih2 fuel rest (by rw [hms]; simp) (by rw [hms]; omega)
          rw [hms] at hrec
          simp only [joinComma_cons_cons, List.append_assoc, List.cons_append] at hstep hrec ⊢
          rw [hstep, hrec]
          rfl

theorem objSet_append_of_not_mem {α : Type} (acc : List (String × α)) (k : String) (v : α)
    (h : k ∉ acc.map Prod.fst) : objSet acc k v = acc ++ [(k, v)] := by
  induction acc with
  | nil => rfl
  | cons p acc ih =>
    obtain ⟨k1, v1⟩ := p
    simp only [List.map_cons, List.mem_cons, not_or] at h
    have hne : ¬ k1 = k := fun e => h.1 e.symm
    simp [objSet, hne, ih h.2]

theorem foldl_objSet_nodup (ms acc : List (String × JSValue))
    (h : ((acc ++ ms).map Prod.fst).Nodup) :
    ms.foldl (fun o m => objSet o m.1 m.2) acc = acc ++ ms := by
  induction ms generalizing acc with
  | nil => simp
  | cons m ms ih =>
    have hk : m.1 ∉ acc.map Prod.fst := by
      intro hmem
      rw [List.map_append, List.nodup_append] at h
      exact h.2.2 hmem (by simp)
    rw [List.foldl_cons, objSet_append_of_not_mem acc m.1 m.2 hk]
    rw [ih (acc ++ [(m.1, m.2)]) (by simpa using h)]
    simp

theorem buildObject_of_nodup (ms : List (String × JSValue))
    (h : (ms.map Prod.fst).Nodup) : buildObject ms = ms := by
  have := foldl_objSet_nodup ms [] (by simpa using h)
  simpa [buildObject] using this

theorem cleanMembers_keys_sublist (fs : List (String × JSValue)) :
    ((cleanMembers fs).map Prod.fst).Sublist (fs.map Prod.fst) := by
  induction fs with
  | nil => simp [cleanMembers]
  | cons p fs ih =>
    obtain ⟨k, v⟩ := p
    by_cases hu : v.unserialisable = true
    · simp only [cleanMembers, hu, if_true, List.map_cons]
      exact ih.cons _
    · simp only [cleanMembers, hu, if_false, List.map_cons]
      exact ih.cons₂ _

theorem wellFormedElements_iff (xs : List JSValue) :
    wellFormedElements xs = true ↔ ∀ x ∈ xs, x.wellFormed = true := by
  induction xs with
  | nil => simp [wellFormedElements]
  | cons x xs ih => simp [wellFormedElements, ih]

theorem wellFormedMembers_iff (fs : List (String × JSValue)) :
    wellFormedMembers fs = true ↔ ∀ p ∈ fs, p.2.wellFormed = true := by
  induction fs with
  | nil => simp [wellFormedMembers]
  | cons p fs ih =>
    obtain ⟨k, v⟩ := p
    simp [wellFormedMembers, ih]

theorem wellFormed_obj_iff (fs : List (String × JSValue)) :
    (JSValue.obj fs).wellFormed = true
      ↔ (fs.map Prod.fst).Nodup ∧ ∀ p ∈ fs, p.2.wellFormed = true := by
  simp [JSValue.wellFormed, wellFormedMembers_iff]

theorem wellFormed_arr_iff (xs : List JSValue) :
    (JSValue.arr xs).wellFormed = true ↔ ∀ x ∈ xs, x.wellFormed = true := by
  simp [JSValue.wellFormed, wellFormedElements_iff]

theorem joinComma_head (m : List Char) (ms : List (List Char)) (tail : List Char) (c : Char)
    (r : List Char) (h : m = c :: r) : ∃ r2, joinComma (m :: ms) ++ tail = c :: r2 := by
  subst h
  cases ms with
  | nil => exact ⟨_, rfl⟩
  | cons m2 ms => exact ⟨_, rfl⟩

theorem serializeMembers_head (fs : List (String × JSValue)) (m : List Char)
    (ms : List (List Char)) (h : serializeMembers fs = m :: ms) : ∃ r, m = quoteChar :: r := by
  induction fs with
  | nil => simp [serializeMembers] at h
  | cons p fs ih =>
    obtain ⟨k, v⟩ := p
    cases hv : serialize v with
    | none =>
      simp only [serializeMembers, hv] at h
      exact ih h
    | some t =>
      simp only [serializeMembers, hv, List.cons.injEq] at h
      exact ⟨_, h.1.symm⟩

/-- Parsing the text of a well-formed value gives back the cleaned value. -/
theorem parsesBack_of_wellFormed : ∀ v : JSValue, v.wellFormed = true → ParsesBack v := by
  intro v
  induction v using jsValue_induct with
  | hundefined => intro _ t ht; simp [serialize] at ht
  | hfunc i => intro _ t ht; simp [serialize] at ht
  | hnull => exact fun _ => parsesBack_null
  | hbool b => exact fun _ => parsesBack_bool b
  | hnum n => exact fun _ => parsesBack_num n
  | hstr s => exact fun _ => parsesBack_str s
  | harr xs ih =>
    intro hwf t ht fuel rest hfuel hrest
    have hwf2 := (wellFormed_arr_iff xs).1 hwf
    simp only [serialize, Option.some.injEq] at ht
    subst ht
    cases fuel with
    | zero => omega
    | succ fuel =>
      simp only [List.cons_append, List.append_assoc, List.nil_append, List.length_cons,
        List.length_append] at hfuel ⊢
      rw [parseValue, skipWs_of_head _ (by decide)]
      simp only [if_true]
      cases xs with
      | nil =>
        simp only [serializeElements, joinComma, List.nil_append,
          skipWs_of_head _ (by decide : isWs ']' = false), if_true, jsonClean, cleanElements]
      | cons x xs =>
        have hp := parseElements_serialize (x :: xs) (fun z hz => ih z hz (hwf2 z hz))
          (by simp) fuel rest (by simp only [List.length_nil] at hfuel; omega)
        obtain ⟨y, hy, -, -⟩ := elementText x
        obtain ⟨c, r, hcr, hws, hnb, -⟩ := serialize_head hy
        have hjoin : ∃ r2, joinComma (serializeElements (x :: xs)) ++ ']' :: rest = c :: r2 :=
          joinComma_head _ (serializeElements xs) _ c r hcr
        obtain ⟨r2, hr2⟩ := hjoin
        rw [hr2] at hp ⊢
        rw [skipWs_of_head _ hws]
        simp only [hnb, if_false, hp, Option.map_some', jsonClean]
  | hobj fs ih =>
    intro hwf t ht fuel rest hfuel hrest
    obtain ⟨hnodup, hwf2⟩ := (wellFormed_obj_iff fs).1 hwf
    simp only [serialize, Option.some.injEq] at ht
    subst ht
    cases fuel with
    | zero => omega
    | succ fuel =>
      simp only [List.cons_append, List.append_assoc, List.nil_append, List.length_cons,
        List.length_append] at hfuel ⊢
      rw [parseValue, skipWs_of_head _ (by decide)]
      have h1 : ¬ ('{' : Char) = '[' := by decide
      simp only [h1, if_false, if_true]
      cases hms : serializeMembers fs with
      | nil =>
        simp only [joinComma, List.nil_append,
          skipWs_of_head _ (by decide : isWs '}' = false), if_true, jsonClean,
          (serializeMembers_nil_iff fs).1 hms]
      | cons m ms =>
        have hp := parseMembers_serialize fs (fun z hz => ih z hz (hwf2 z hz)) fuel rest
          (by rw [hms]; simp) (by simp only [List.length_nil] at hfuel; omega)
        have hbuild := buildObject_of_nodup (cleanMembers fs)
          (hnodup.sublist (cleanMembers_keys_sublist fs))
        have hhead : ∃ r2, joinComma (serializeMembers fs) ++ '}' :: rest = quoteChar :: r2 := by
          obtain ⟨r3, hr3⟩ := serializeMembers_head fs m ms hms
          rw [hms]
          exact joinComma_head m ms _ quoteChar r3 hr3
        obtain ⟨r2, hr2⟩ := hhead
        rw [← hms]
        rw [hr2] at hp ⊢
        rw [skipWs_of_head _ (by decide)]
        have h2 : ¬ quoteChar = '}' := by decide
        simp only [h2, if_false, hp, Option.map_some', jsonClean, hbuild]

/-- Parsing the result of `JSON.stringify(v)` succeeds on every well-formed value that has a
JSON text and yields the cleaned value. -/
theorem JSONparse_JSONstringify (v : JSValue) (text : String) (hwf : v.wellFormed = true)
    (h : JSONstringify v = some text) : JSONparse text = .ok (jsonClean v) := by
  simp only [JSONstringify, Option.map_eq_some'] at h
  obtain ⟨t, ht, rfl⟩ := h
  have := parsesBack_of_wellFormed v hwf t ht (t.length + 1) [] (by omega) rfl
  simp only [List.append_nil] at this
  simp [JSONparse, this, skipWs]

/-! ## The order of property names -/

theorem charsLe_total : ∀ a b : List Char, charsLe a b = true ∨ charsLe b a = true := by
  intro a
  induction a with
  | nil => intro b; exact Or.inl rfl
  | cons x xs ih =>
    intro b
    cases b with
    | nil => exact Or.inr rfl
    | cons y ys =>
      simp only [charsLe]
      rcases Nat.lt_trichotomy x.toNat y.toNat with h | h | h
      · simp [h]
      · have := ih ys
        simp [h, this]
      · simp [h]

theorem charsLe_trans : ∀ a b c : List Char,
    charsLe a b = true → charsLe b c = true → charsLe a c = true := by
  intro a
  induction a with
  | nil => intro b c _ _; rfl
  | cons x xs ih =>
    intro b c hab hbc
    cases b with
    | nil => simp [charsLe] at hab
    | cons y ys =>
      cases c with
      | nil => simp [charsLe] at hbc
      | cons z zs =>
        simp only [charsLe] at hab hbc ⊢
        split_ifs at hab hbc ⊢ with h1 h2 h3 h4 h5 h6 h7 <;>
          first
            | rfl
            | omega
            | exact ih ys zs hab hbc

theorem charsLe_antisymm : ∀ a b : List Char,
    charsLe a b = true → charsLe b a = true → a = b := by
  intro a
  induction a with
  | nil =>
    intro b _ hba
    cases b with
    | nil => rfl
    | cons y ys => simp [charsLe] at hba
  | cons x xs ih =>
    intro b hab hba
    cases b with
    | nil => simp [charsLe] at hab
    | cons y ys =>
      simp only [charsLe] at hab hba
      split_ifs at hab hba with h1 h2 h3 h4 h5 h6 <;>
        first
          | (exfalso; omega)
          | cases hab
          | cases hba
          | (have hxy : x = y := Char.ext (UInt32.ext (by simpa [Char.toNat] using ‹x.toNat = y.toNat›))
             rw [hxy, ih ys hab hba])

theorem fieldLe_isTotal : IsTotal (String × JSValue) fieldLe :=
  ⟨fun p q => charsLe_total p.1.data q.1.data⟩

theorem fieldLe_isTrans : IsTrans (String × JSValue) fieldLe :=
  ⟨fun p q r => charsLe_trans p.1.data q.1.data r.1.data⟩

theorem keyLe_antisymm (a b : String) (hab : keyLe a b = true) (hba : keyLe b a = true) :
    a = b :=
  String.ext (charsLe_antisymm a.data b.data hab hba)

/-! ## Sorting the properties -/

theorem sortElements_eq_map (xs : List JSValue) : sortElements xs = xs.map sortFields := by
  induction xs with
  | nil => rfl
  | cons x xs ih => simp [sortElements, ih]

theorem sortMembers_eq_map (fs : List (String × JSValue)) :
    sortMembers fs = fs.map (fun p => (p.1, sortFields p.2)) := by
  induction fs with
  | nil => rfl
  | cons p fs ih =>
    obtain ⟨k, v⟩ := p
    simp [sortMembers, ih]

theorem sortMembers_keys (fs : List (String × JSValue)) :
    (sortMembers fs).map Prod.fst = fs.map Prod.fst := by
  rw [sortMembers_eq_map, List.map_map]
  rfl

/-- Two lists of properties with the same distinct names, each sorted by name and
one a reordering of the other, are the same list. -/
theorem eq_of_perm_of_sorted_keys {l₁ l₂ : List (String × JSValue)} (hp : l₁.Perm l₂)
    (hnd : (l₁.map Prod.fst).Nodup) (h₁ : l₁.Sorted fieldLe) (h₂ : l₂.Sorted fieldLe) :
    l₁ = l₂ := by
  let r : String × JSValue → String × JSValue → Prop := fun p q => fieldLe p q ∧ p.1 ≠ q.1
  have hanti : IsAntisymm (String × JSValue) r :=
    ⟨fun p q hpq hqp => absurd (keyLe_antisymm p.1 q.1 hpq.1 hqp.1) hpq.2⟩
  have hnd₂ : (l₂.map Prod.fst).Nodup := (hp.map Prod.fst).nodup_iff.1 hnd
  have hs₁ : l₁.Sorted r := by
    have : l₁.Pairwise (fun p q => p.1 ≠ q.1) := by
      have := hnd
      rw [List.Nodup, List.pairwise_map] at this
      exact this
    exact List.Pairwise.and h₁ this
  have hs₂ : l₂.Sorted r := by
    have : l₂.Pairwise (fun p q => p.1 ≠ q.1) := by
      have := hnd₂
      rw [List.Nodup, List.pairwise_map] at this
      exact this
    exact List.Pairwise.and h₂ this
  exact List.eq_of_perm_of_sorted hp hs₁ hs₂

theorem insertionSort_eq_of_perm {l₁ l₂ : List (String × JSValue)} (hp : l₁.Perm l₂)
    (hnd : (l₁.map Prod.fst).Nodup) :
    List.insertionSort fieldLe l₁ = List.insertionSort fieldLe l₂ := by
  haveI := fieldLe_isTotal
  haveI := fieldLe_isTrans
  have hperm : (List.insertionSort fieldLe l₁).Perm (List.insertionSort fieldLe l₂) :=
    ((List.perm_insertionSort fieldLe l₁).trans hp).trans
      (List.perm_insertionSort fieldLe l₂).symm
  have hnd' : ((List.insertionSort fieldLe l₁).map Prod.fst).Nodup :=
    ((List.perm_insertionSort fieldLe l₁).map Prod.fst).nodup_iff.2 hnd
  exact eq_of_perm_of_sorted_keys hperm hnd' (List.sorted_insertionSort fieldLe l₁)
    (List.sorted_insertionSort fieldLe l₂)

theorem wellFormed_of_perm {fs gs : List (String × JSValue)} (hp : fs.Perm gs)
    (h : (JSValue.obj fs).wellFormed = true) : (JSValue.obj gs).wellFormed = true := by
  rw [wellFormed_obj_iff] at h ⊢
  exact ⟨(hp.map Prod.fst).nodup_iff.1 h.1, fun p hp' => h.2 p (hp.mem_iff.2 hp')⟩

theorem wellFormed_element {pre post : List JSValue} {x y : JSValue}
    (hxy : x.wellFormed = true → y.wellFormed = true)
    (h : (JSValue.arr (pre ++ x :: post)).wellFormed = true) :
    (JSValue.arr (pre ++ y :: post)).wellFormed = true := by
  rw [wellFormed_arr_iff] at h ⊢
  intro z hz
  rcases List.mem_append.1 hz with hz | hz
  · exact h z (List.mem_append_left _ hz)
  · rcases List.mem_cons.1 hz with hz | hz
    · subst hz
      exact hxy (h x (List.mem_append_right _ (List.mem_cons_self _ _)))
    · exact h z (List.mem_append_right _ (List.mem_cons_of_mem _ hz))

theorem wellFormed_property {pre post : List (String × JSValue)} {k : String} {x y : JSValue}
    (hxy : x.wellFormed = true → y.wellFormed = true)
    (h : (JSValue.obj (pre ++ (k, x) :: post)).wellFormed = true) :
    (JSValue.obj (pre ++ (k, y) :: post)).wellFormed = true := by
  rw [wellFormed_obj_iff] at h ⊢
  refine ⟨by simpa using h.1, ?_⟩
  intro z hz
  rcases List.mem_append.1 hz with hz | hz
  · exact h.2 z (List.mem_append_left _ hz)
  · rcases List.mem_cons.1 hz with hz | hz
    · subst hz
      exact hxy (h.2 (k, x) (List.mem_append_right _ (List.mem_cons_self _ _)))
    · exact h.2 z (List.mem_append_right _ (List.mem_cons_of_mem _ hz))

/-- Equivalent values are well-formed together and have the same sorted form. -/
theorem keyEquiv_sortFields_eq {a b : JSValue} (h : KeyEquiv a b) :
    (a.wellFormed = true ↔ b.wellFormed = true)
      ∧ (a.wellFormed = true → sortFields a = sortFields b) := by
  induction h with
  | refl v => exact ⟨Iff.rfl, fun _ => rfl⟩
  | symm _ ih => exact ⟨ih.1.symm, fun hb => (ih.2 (ih.1.2 hb)).symm⟩
  | trans _ _ ih₁ ih₂ =>
    exact ⟨ih₁.1.trans ih₂.1, fun ha => (ih₁.2 ha).trans (ih₂.2 (ih₁.1.1 ha))⟩
  | @reorder fs gs hp =>
    refine ⟨⟨wellFormed_of_perm hp, wellFormed_of_perm hp.symm⟩, fun ha => ?_⟩
    have hnd := ((wellFormed_obj_iff fs).1 ha).1
    simp only [sortFields, sortMembers_eq_map]
    congr 1
    exact insertionSort_eq_of_perm (hp.map _) (by rw [List.map_map]; exact hnd)
  | element pre post _ ih =>
    refine ⟨⟨wellFormed_element ih.1.1, wellFormed_element ih.1.2⟩, fun ha => ?_⟩
    have hx := (wellFormed_arr_iff _).1 ha _
      (List.mem_append_right _ (List.mem_cons_self _ _))
    simp only [sortFields, sortElements_eq_map, List.map_append, List.map_cons, ih.2 hx]
  | property pre post k _ ih =>
    refine ⟨⟨wellFormed_property ih.1.1, wellFormed_property ih.1.2⟩, fun ha => ?_⟩
    have hx := ((wellFormed_obj_iff _).1 ha).2 _
      (List.mem_append_right _ (List.mem_cons_self _ _))
    simp only [sortFields, sortMembers_eq_map, List.map_append, List.map_cons, ih.2 hx]

theorem truthy_sortFields (v : JSValue) : (sortFields v).truthy = v.truthy := by
  cases v <;> rfl

theorem isArray_sortFields (v : JSValue) : (sortFields v).isArray = v.isArray := by
  cases v <;> rfl

theorem isFunction_sortFields (v : JSValue) : (sortFields v).isFunction = v.isFunction := by
  cases v <;> rfl

theorem arrayElements_sortFields (v : JSValue) :
    arrayElements (sortFields v) = (arrayElements v).map sortFields := by
  cases v <;> simp [sortFields, arrayElements, sortElements_eq_map]

theorem any_isFunction_map_sortFields (xs : List JSValue) :
    (xs.map sortFields).any JSValue.isFunction = xs.any JSValue.isFunction := by
  induction xs with
  | nil => rfl
  | cons x xs ih => simp [List.any_cons, isFunction_sortFields, ih]

/-- The serializer depends on a key only through its sorted form. -/
theorem defaultQueryKeySerializerFn_congr {a b : JSValue} (h : sortFields a = sortFields b) :
    defaultQueryKeySerializerFn a = defaultQueryKeySerializerFn b := by
  have ht : a.truthy = b.truthy := by
    rw [← truthy_sortFields a, ← truthy_sortFields b, h]
  have ha : a.isArray = b.isArray := by
    rw [← isArray_sortFields a, ← isArray_sortFields b, h]
  have hw : sortFields (if a.isArray then a else .arr [a])
      = sortFields (if b.isArray then b else .arr [b]) := by
    rw [← ha]
    by_cases hia : a.isArray = true
    · simp [hia, h]
    · simp [hia, sortFields, sortElements, h]
  have hf : (arrayElements (if a.isArray then a else .arr [a])).any JSValue.isFunction
      = (arrayElements (if b.isArray then b else .arr [b])).any JSValue.isFunction := by
    rw [← any_isFunction_map_sortFields, ← arrayElements_sortFields, hw,
      arrayElements_sortFields, any_isFunction_map_sortFields]
  simp only [defaultQueryKeySerializerFn, stableStringify, ht, hf, hw]

/-! ## Cleaning and sorting -/

/-- What a JSON round trip makes of an element of an array. -/
theorem cleanElements_eq_map (xs : List JSValue) :
    cleanElements xs
      = xs.map (fun x => if x.unserialisable then JSValue.null else jsonClean x) := by
  induction xs with
  | nil => rfl
  | cons x xs ih => simp [cleanElements, ih]

theorem cleanMembers_eq_filterMap (fs : List (String × JSValue)) :
    cleanMembers fs
      = fs.filterMap (fun p => if p.2.unserialisable then none else some (p.1, jsonClean p.2)) := by
  induction fs with
  | nil => rfl
  | cons p fs ih =>
    obtain ⟨k, v⟩ := p
    by_cases hu : v.unserialisable = true
    · simp [cleanMembers, hu, ih]
    · simp [cleanMembers, hu, ih]

theorem map_eq_self_of_forall {α : Type} (f : α → α) (l : List α) (h : ∀ x ∈ l, f x = x) :
    l.map f = l := by
  induction l with
  | nil => rfl
  | cons x xs ih =>
    simp only [List.map_cons]
    rw [h x (List.mem_cons_self _ _), ih (fun y hy => h y (List.mem_cons_of_mem _ hy))]

/-- Cleaning a sorted value leaves it sorted. -/
theorem sortFields_jsonClean_sortFields (v : JSValue) :
    sortFields (jsonClean (sortFields v)) = jsonClean (sortFields v) := by
  induction v using jsValue_induct with
  | hundefined => rfl
  | hnull => rfl
  | hbool b => rfl
  | hnum n => rfl
  | hstr s => rfl
  | hfunc i => rfl
  | harr xs ih =>
    simp only [sortFields, jsonClean, sortElements_eq_map, cleanElements_eq_map, List.map_map]
    congr 1
    apply List.map_congr_left
    intro x hx
    simp only [Function.comp_apply]
    by_cases hu : (sortFields x).unserialisable = true
    · simp [hu, sortFields]
    · simp [hu, ih x hx]
  | hobj fs ih =>
    simp only [sortFields, jsonClean, sortMembers_eq_map, cleanMembers_eq_filterMap]
    congr 1
    set S := List.insertionSort fieldLe (fs.map (fun p => (p.1, sortFields p.2))) with hS
    have hmem : ∀ p ∈ S, ∃ q ∈ fs, p = (q.1, sortFields q.2) := by
      intro p hp
      have := (List.perm_insertionSort fieldLe _).mem_iff.1 hp
      obtain ⟨q, hq, rfl⟩ := List.mem_map.1 this
      exact ⟨q, hq, rfl⟩
    have hfix : (S.filterMap (fun p =>
          if p.2.unserialisable then none else some (p.1, jsonClean p.2))).map
          (fun p => (p.1, sortFields p.2))
        = S.filterMap (fun p =>
          if p.2.unserialisable then none else some (p.1, jsonClean p.2)) := by
      apply map_eq_self_of_forall
      intro z hz
      obtain ⟨p, hp, hpz⟩ := List.mem_filterMap.1 hz
      obtain ⟨q, hq, rfl⟩ := hmem p hp
      by_cases hu : (sortFields q.2).unserialisable = true
      · simp [hu] at hpz
      · simp only [hu, Bool.false_eq_true, if_false, Option.some.injEq] at hpz
        subst hpz
        simp only [ih q hq]
    rw [hfix]
    apply List.Sorted.insertionSort_eq
    haveI := fieldLe_isTotal
    haveI := fieldLe_isTrans
    have hsorted : S.Sorted fieldLe := List.sorted_insertionSort fieldLe _
    refine List.Pairwise.filterMap _ ?_ hsorted
    intro a a' haa b hb b' hb'
    by_cases hu : a.2.unserialisable = true
    · simp [hu] at hb
    · by_cases hu' : a'.2.unserialisable = true
      · simp [hu'] at hb'
      · simp only [hu, hu', Bool.false_eq_true, if_false, Option.mem_def,
          Option.some.injEq] at hb hb'
        subst hb hb'
        exact haa

theorem wellFormed_sortFields (v : JSValue) (h : v.wellFormed = true) :
    (sortFields v).wellFormed = true := by
  induction v using jsValue_induct with
  | hundefined => rfl
  | hnull => rfl
  | hbool b => rfl
  | hnum n => rfl
  | hstr s => rfl
  | hfunc i => rfl
  | harr xs ih =>
    rw [wellFormed_arr_iff] at h
    simp only [sortFields, sortElements_eq_map]
    rw [wellFormed_arr_iff]
    intro y hy
    obtain ⟨x, hx, rfl⟩ := List.mem_map.1 hy
    exact ih x hx (h x hx)
  | hobj fs ih =>
    rw [wellFormed_obj_iff] at h
    simp only [sortFields]
    rw [wellFormed_obj_iff]
    have hperm := List.perm_insertionSort fieldLe (sortMembers fs)
    constructor
    · have := (hperm.map Prod.fst).nodup_iff
      rw [this, sortMembers_keys]
      exact h.1
    · intro p hp
      have := hperm.mem_iff.1 hp
      rw [sortMembers_eq_map] at this
      obtain ⟨q, hq, rfl⟩ := List.mem_map.1 this
      exact ih q hq (h.2 q hq)

/-- Cleaning a value does not change its JSON text. -/
theorem serialize_jsonClean (v : JSValue) : serialize (jsonClean v) = serialize v := by
  induction v using jsValue_induct with
  | hundefined => rfl
  | hnull => rfl
  | hbool b => rfl
  | hnum n => rfl
  | hstr s => rfl
  | hfunc i => rfl
  | harr xs ih =>
    simp only [jsonClean, serialize]
    have : serializeElements (cleanElements xs) = serializeElements xs := by
      induction xs with
      | nil => rfl
      | cons x xs ihx =>
        simp only [cleanElements, serializeElements]
        rw [ihx (fun y hy => ih y (List.mem_cons_of_mem _ hy))]
        by_cases hu : x.unserialisable = true
        · simp [hu, (serialize_none_iff x).2 hu, serialize]
        · simp [hu, ih x (List.mem_cons_self _ _)]
    rw [this]
  | hobj fs ih =>
    simp only [jsonClean, serialize]
    have : serializeMembers (cleanMembers fs) = serializeMembers fs := by
      induction fs with
      | nil => rfl
      | cons p fs ihf =>
        obtain ⟨k, v⟩ := p
        have ihf' := ihf (fun y hy => ih y (List.mem_cons_of_mem _ hy))
        by_cases hu : v.unserialisable = true
        · simp [cleanMembers, serializeMembers, hu, (serialize_none_iff v).2 hu, ihf']
        · have hv := ih (k, v) (List.mem_cons_self _ _)
          simp only [cleanMembers, hu, Bool.false_eq_true, if_false, serializeMembers]
          rw [hv, ihf']
    rw [this]

theorem isJSONElements_iff (xs : List JSValue) :
    isJSONElements xs = true ↔ ∀ x ∈ xs, x.isJSON = true := by
  induction xs with
  | nil => simp [isJSONElements]
  | cons x xs ih => simp [isJSONElements, ih]

theorem isJSONMembers_iff (fs : List (String × JSValue)) :
    isJSONMembers fs = true ↔ ∀ p ∈ fs, p.2.isJSON = true := by
  induction fs with
  | nil => simp [isJSONMembers]
  | cons p fs ih =>
    obtain ⟨k, v⟩ := p
    simp [isJSONMembers, ih]

theorem unserialisable_of_isJSON {v : JSValue} (h : v.isJSON = true) :
    v.unserialisable = false := by
  cases v <;> first | rfl | simp [JSValue.isJSON] at h

/-- A JSON round trip changes nothing in JSON data. -/
theorem jsonClean_of_isJSON (v : JSValue) (h : v.isJSON = true) : jsonClean v = v := by
  induction v using jsValue_induct with
  | hundefined => rfl
  | hnull => rfl
  | hbool b => rfl
  | hnum n => rfl
  | hstr s => rfl
  | hfunc i => rfl
  | harr xs ih =>
    have hx := (isJSONElements_iff xs).1 (by simpa [JSValue.isJSON] using h)
    simp only [jsonClean, cleanElements_eq_map]
    congr 1
    apply map_eq_self_of_forall
    intro x hxs
    simp [unserialisable_of_isJSON (hx x hxs), ih x hxs (hx x hxs)]
  | hobj fs ih =>
    have hx := (isJSONMembers_iff fs).1 (by simpa [JSValue.isJSON] using h)
    simp only [jsonClean]
    congr 1
    induction fs with
    | nil => rfl
    | cons p fs ihf =>
      obtain ⟨k, v⟩ := p
      have h1 := hx (k, v) (List.mem_cons_self _ _)
      simp only [cleanMembers, unserialisable_of_isJSON h1, Bool.false_eq_true, if_false,
        ih (k, v) (List.mem_cons_self _ _) h1]
      rw [ihf (fun y hy => ih y (List.mem_cons_of_mem _ hy))
        (by simp [JSValue.isJSON, isJSONMembers_iff]; intro a b hab; exact hx (a, b) (List.mem_cons_of_mem _ hab))
        (fun y hy => hx y (List.mem_cons_of_mem _ hy))]

/-! ## The key serializer -/

theorem defaultQueryKeySerializerFn_eq (key : JSValue) :
    defaultQueryKeySerializerFn key =
      if !key.truthy then .ok (.arr [])
      else if (arrayElements (wrapKey key)).any JSValue.isFunction then .error invalidKeyError
      else
        match stableStringify (wrapKey key) with
        | none => .error .syntaxError
        | some queryHash =>
          match JSONparse queryHash with
          | .error e => .error e
          | .ok parsed =>
            if queryHash = "" then .ok (.arr []) else .ok (.arr [.str queryHash, parsed]) :=
  rfl

theorem wrapKey_cases (key : JSValue) : ∃ xs, wrapKey key = .arr xs := by
  cases key <;> exact ⟨_, rfl⟩

theorem wellFormed_wrapKey (key : JSValue) (h : key.wellFormed = true) :
    (wrapKey key).wellFormed = true := by
  unfold wrapKey
  split_ifs
  · exact h
  · rw [wellFormed_arr_iff]
    intro x hx
    simp only [List.mem_singleton] at hx
    subst hx
    exact h

theorem stableStringify_wrapKey (key : JSValue) : ∃ h, stableStringify (wrapKey key) = some h := by
  obtain ⟨xs, hxs⟩ := wrapKey_cases key
  rw [hxs]
  exact ⟨_, rfl⟩

theorem JSONparse_error (text : String) (e : JSError) (h : JSONparse text = .error e) :
    e = .syntaxError := by
  unfold JSONparse at h
  split at h
  · cases h; rfl
  · split_ifs at h
    cases h; rfl

/-- What a result `[queryHash, queryKey]` of the serializer says about the key. -/
theorem serializer_pair_inv {key : JSValue} {h : String} {canon : JSValue}
    (hres : defaultQueryKeySerializerFn key = .ok (.arr [.str h, canon])) :
    key.truthy = true ∧ (arrayElements (wrapKey key)).any JSValue.isFunction = false
      ∧ stableStringify (wrapKey key) = some h ∧ JSONparse h = .ok canon ∧ h ≠ "" := by
  rw [defaultQueryKeySerializerFn_eq] at hres
  by_cases ht : key.truthy = true
  · by_cases hf : (arrayElements (wrapKey key)).any JSValue.isFunction = true
    · simp [ht, hf] at hres
    · obtain ⟨qh, hqh⟩ := stableStringify_wrapKey key
      simp only [ht, hf, hqh, Bool.not_true, Bool.false_eq_true, if_false] at hres
      cases hp : JSONparse qh with
      | error e => rw [hp] at hres; cases hres
      | ok parsed =>
        rw [hp] at hres
        by_cases he : qh = ""
        · simp [he] at hres
        · simp only [he, if_false, Except.ok.injEq, JSValue.arr.injEq, List.cons.injEq,
            JSValue.str.injEq, and_true] at hres
          obtain ⟨h1, h2⟩ := hres
          subst h1 h2
          exact ⟨ht, by simpa using hf, hqh, hp, he⟩
  · simp [ht] at hres

theorem serializer_pair_of {key : JSValue} {h : String} {canon : JSValue}
    (ht : key.truthy = true)
    (hf : (arrayElements (wrapKey key)).any JSValue.isFunction = false)
    (hs : stableStringify (wrapKey key) = some h) (hp : JSONparse h = .ok canon)
    (hne : h ≠ "") : defaultQueryKeySerializerFn key = .ok (.arr [.str h, canon]) := by
  rw [defaultQueryKeySerializerFn_eq]
  simp [ht, hf, hs, hp, hne]

theorem isFunction_jsonClean (v : JSValue) : (jsonClean v).isFunction = v.isFunction := by
  cases v <;> rfl

theorem isFunction_imp_unserialisable {v : JSValue} (h : v.isFunction = true) :
    v.unserialisable = true := by
  cases v <;> first | rfl | simp [JSValue.isFunction] at h

/-- The canonical key of a well-formed key is a fixed point of the serializer. -/
theorem serializer_canonical {key : JSValue} {h : String} {canon : JSValue}
    (hwf : key.wellFormed = true)
    (hres : defaultQueryKeySerializerFn key = .ok (.arr [.str h, canon])) :
    canon = jsonClean (sortFields (wrapKey key))
      ∧ defaultQueryKeySerializerFn canon = .ok (.arr [.str h, canon]) := by
  obtain ⟨-, -, hs, hp, hne⟩ := serializer_pair_inv hres
  have hwf' := wellFormed_sortFields _ (wellFormed_wrapKey key hwf)
  have hrt := JSONparse_JSONstringify _ h hwf' hs
  rw [hp] at hrt
  have hcanon : canon = jsonClean (sortFields (wrapKey key)) := by
    simpa using hrt
  refine ⟨hcanon, ?_⟩
  obtain ⟨xs, hxs⟩ := wrapKey_cases key
  have hcanon' : canon = .arr (cleanElements (sortElements xs)) := by
    rw [hcanon, hxs]; rfl
  apply serializer_pair_of
  · rw [hcanon']; rfl
  · rw [hcanon']
    simp only [wrapKey, JSValue.isArray, if_true, arrayElements, cleanElements_eq_map,
      List.any_eq_false, List.mem_map]
    rintro y ⟨x, -, rfl⟩
    by_cases hu : x.unserialisable = true
    · simp [hu, JSValue.isFunction]
    · simp only [hu, Bool.false_eq_true, if_false, isFunction_jsonClean]
      intro hfun
      exact hu (isFunction_imp_unserialisable hfun)
  · have hw : wrapKey canon = canon := by rw [hcanon']; rfl
    rw [hw, stableStringify, hcanon, sortFields_jsonClean_sortFields]
    simp only [JSONstringify, serialize_jsonClean]
    exact hs
  · exact hp
  · exact hne

/-! ## Objects as lists of properties -/

theorem mem_keys_objSet {α : Type} (fs : List (String × α)) (k : String) (v : α) (h : String) :
    h ∈ (objSet fs k v).map Prod.fst ↔ h = k ∨ h ∈ fs.map Prod.fst := by
  induction fs with
  | nil => simp [objSet]
  | cons p fs ih =>
    obtain ⟨k1, v1⟩ := p
    by_cases hk : k1 = k
    · subst hk
      simp [objSet]
    · simp only [objSet, hk, if_false, List.map_cons, List.mem_cons, ih]
      tauto

theorem objGet_objSet {α : Type} (fs : List (String × α)) (k : String) (v : α) (h : String) :
    objGet (objSet fs k v) h = if k = h then some v else objGet fs h := by
  induction fs with
  | nil => simp [objSet, objGet]
  | cons p fs ih =>
    obtain ⟨k1, v1⟩ := p
    by_cases hk : k1 = k
    · subst hk
      by_cases hh : k1 = h
      · simp [objSet, objGet, hh]
      · simp [objSet, objGet, hh]
    · by_cases hh : k1 = h
      · subst hh
        simp [objSet, objGet, hk, Ne.symm hk]
      · simp [objSet, objGet, hk, hh, ih]

theorem objGet_append {α : Type} (fs gs : List (String × α)) (h : String) :
    objGet (fs ++ gs) h = (objGet fs h).orElse (fun _ => objGet gs h) := by
  induction fs with
  | nil => simp [objGet]
  | cons p fs ih =>
    obtain ⟨k1, v1⟩ := p
    by_cases hh : k1 = h
    · simp [objGet, hh]
    · simp [objGet, hh, ih]

theorem objGet_eq_none_iff {α : Type} (fs : List (String × α)) (h : String) :
    objGet fs h = none ↔ h ∉ fs.map Prod.fst := by
  induction fs with
  | nil => simp [objGet]
  | cons p fs ih =>
    obtain ⟨k1, v1⟩ := p
    by_cases hh : k1 = h
    · simp [objGet, hh]
    · simp [objGet, hh, ih, Ne.symm hh]

theorem objGet_of_mem {α : Type} (fs : List (String × α)) (k : String) (v : α)
    (hnd : (fs.map Prod.fst).Nodup) (hmem : (k, v) ∈ fs) : objGet fs k = some v := by
  induction fs with
  | nil => cases hmem
  | cons p fs ih =>
    obtain ⟨k1, v1⟩ := p
    simp only [List.map_cons, List.nodup_cons] at hnd
    rcases List.mem_cons.1 hmem with h | h
    · cases h
      simp [objGet]
    · have hne : ¬ k1 = k := by
        intro e
        subst e
        exact hnd.1 (List.mem_map.2 ⟨(k1, v), h, rfl⟩)
      simp [objGet, hne, ih hnd.2 h]

/-- Setting properties one by one, for the selected entries of a list with distinct
names, builds the list of the selected entries. -/
theorem foldl_objSet_filter {α β : Type} (P : α → Prop) [DecidablePred P] (f : α → β)
    (l : List (String × α)) (acc : List (String × β))
    (hnd : ((acc.map Prod.fst) ++ (l.map Prod.fst)).Nodup) :
    l.foldl (fun o e => if P e.2 then objSet o e.1 (f e.2) else o) acc
      = acc ++ (l.filter (fun e => decide (P e.2))).map (fun e => (e.1, f e.2)) := by
  induction l generalizing acc with
  | nil => simp
  | cons e l ih =>
    have hk : e.1 ∉ acc.map Prod.fst := by
      intro hmem
      rw [List.nodup_append] at hnd
      exact hnd.2.2 hmem (by simp)
    have hnd2 : ((acc.map Prod.fst) ++ (l.map Prod.fst)).Nodup := by
      rw [List.map_cons] at hnd
      exact (List.nodup_cons.1 (List.nodup_middle.1 hnd)).2
    by_cases hp : P e.2
    · simp only [List.foldl_cons, hp, if_true, List.filter_cons, decide_True, List.map_cons]
      rw [objSet_append_of_not_mem acc e.1 (f e.2) hk, ih]
      · simp
      · rw [List.map_cons] at hnd
        simpa using hnd
    · simp only [List.foldl_cons, hp, if_false, List.filter_cons, decide_False,
        Bool.false_eq_true]
      exact ih acc hnd2

theorem mem_keys_foldl_objSet {α β : Type} (P : α → Prop) [DecidablePred P] (f : α → β)
    (l : List (String × α)) (acc : List (String × β)) (h : String) :
    h ∈ (l.foldl (fun o e => if P e.2 then objSet o e.1 (f e.2) else o) acc).map Prod.fst
      ↔ h ∈ acc.map Prod.fst ∨ ∃ q, (h, q) ∈ l ∧ P q := by
  induction l generalizing acc with
  | nil => simp
  | cons e l ih =>
    obtain ⟨k, q⟩ := e
    simp only [List.foldl_cons]
    rw [ih]
    by_cases hp : P q
    · simp only [hp, if_true, mem_keys_objSet, List.mem_cons, Prod.mk.injEq]
      constructor
      · rintro ((h1 | h1) | ⟨q', hq', hp'⟩)
        · exact Or.inr ⟨q, Or.inl ⟨h1, rfl⟩, hp⟩
        · exact Or.inl h1
        · exact Or.inr ⟨q', Or.inr hq', hp'⟩
      · rintro (h1 | ⟨q', (⟨h1, h2⟩ | hq'), hp'⟩)
        · exact Or.inl (Or.inr h1)
        · exact Or.inl (Or.inl h1)
        · exact Or.inr ⟨q', hq', hp'⟩
    · simp only [hp, if_false, List.mem_cons, Prod.mk.injEq]
      constructor
      · rintro (h1 | ⟨q', hq', hp'⟩)
        · exact Or.inl h1
        · exact Or.inr ⟨q', Or.inr hq', hp'⟩
      · rintro (h1 | ⟨q', (⟨h1, h2⟩ | hq'), hp'⟩)
        · exact Or.inl h1
        · subst h2; exact absurd hp' hp
        · exact Or.inr ⟨q', hq', hp'⟩

/-! ## `createQuery` and the loop of `hydrate` in `src/core/hydration.js` -/

theorem canonicalHash_of_isDefaultHash {h : String} (hh : IsDefaultHash h) :
    ∃ canon, CanonicalHash h canon := by
  obtain ⟨key, canon, hwf, hres⟩ := hh
  exact ⟨canon, (serializer_pair_inv hres).2.2.2.1, (serializer_canonical hwf hres).2⟩

theorem parsedKey_of_canonical {h : String} {canon : JSValue} (hc : CanonicalHash h canon) :
    parsedKey h = canon := by
  simp [parsedKey, hc.1]

theorem createQuery_of_pair (d : Defaults) (now : Int) (qc : QueryCache) (k cfg : JSValue)
    (h : String) (c : JSValue) (hres : defaultQueryKeySerializerFn k = .ok (.arr [.str h, c])) :
    createQuery d now qc k cfg =
      match objGet qc.queries h with
      | some q => (qc, .ok q)
      | none =>
        ({ queries := qc.queries ++ [(h, newQuery d now h c cfg)] },
          .ok (newQuery d now h c cfg)) := by
  simp only [createQuery, hres]

/-- On a key with a hash `createQuery` succeeds and leaves every existing query as
it is; the hash of the key gets a new query if it had none. -/
theorem createQuery_spec (d : Defaults) (now : Int) (qc : QueryCache) (k cfg : JSValue)
    (h : String) (c : JSValue) (hres : defaultQueryKeySerializerFn k = .ok (.arr [.str h, c])) :
    (∃ q, (createQuery d now qc k cfg).2 = .ok q)
      ∧ ∀ h', objGet (createQuery d now qc k cfg).1.queries h'
          = (objGet qc.queries h').orElse
              (fun _ => if h = h' then some (newQuery d now h c cfg) else none) := by
  rw [createQuery_of_pair d now qc k cfg h c hres]
  cases hq : objGet qc.queries h with
  | some q =>
    refine ⟨⟨q, rfl⟩, fun h' => ?_⟩
    by_cases hh : h = h'
    · subst hh; simp [hq]
    · cases objGet qc.queries h' <;> simp [hh]
  | none =>
    refine ⟨⟨_, rfl⟩, fun h' => ?_⟩
    simp only [objGet_append, objGet]

theorem core_hydrateLoop_spec (d : Defaults) (now : Int) (entries : List (String × JSValue)) :
    ∀ (qc : QueryCache) (queue : List String),
    (∀ e ∈ entries, ∃ canon, CanonicalHash e.1 canon) →
    (Core.hydrateLoop d now JSONparse entries qc queue).result
        = .ok (queue ++ entries.map Prod.fst)
      ∧ ∀ h, objGet (Core.hydrateLoop d now JSONparse entries qc queue).queryCache.queries h
          = (objGet qc.queries h).orElse (fun _ => (objGet entries h).map
              (fun dq => newQuery d now h (parsedKey h) (orEmptyObject dq))) := by
  induction entries with
  | nil =>
    intro qc queue _
    refine ⟨by simp [Core.hydrateLoop], fun h => ?_⟩
    simp only [Core.hydrateLoop, objGet]
    cases objGet qc.queries h <;> simp
  | cons e entries ih =>
    intro qc queue hgood
    obtain ⟨h0, dq0⟩ := e
    obtain ⟨canon, hcanon⟩ := hgood (h0, dq0) (List.mem_cons_self _ _)
    obtain ⟨⟨q, hq⟩, hget⟩ := createQuery_spec d now qc canon (orEmptyObject dq0) h0 canon hcanon.2
    have hstep : Core.hydrateLoop d now JSONparse ((h0, dq0) :: entries) qc queue
        = Core.hydrateLoop d now JSONparse entries
            (createQuery d now qc canon (orEmptyObject dq0)).1 (queue ++ [h0]) := by
      rw [Core.hydrateLoop]
      simp only [hcanon.1]
      have : createQuery d now qc canon (orEmptyObject dq0)
          = ((createQuery d now qc canon (orEmptyObject dq0)).1, .ok q) := by
        rw [← hq]
      rw [this]
    rw [hstep]
    obtain ⟨hres, hall⟩ := ih (createQuery d now qc canon (orEmptyObject dq0)).1 (queue ++ [h0])
      (fun e he => hgood e (List.mem_cons_of_mem _ he))
    refine ⟨by simp [hres], fun h => ?_⟩
    rw [hall h, hget h]
    by_cases hh : h0 = h
    · subst hh
      cases objGet qc.queries h0 <;> simp [objGet, parsedKey_of_canonical hcanon]
    · cases objGet qc.queries h <;> simp [objGet, hh]

/-! ## The initializer -/

/-- The initializer changes the state of no query and removes none. -/
theorem initializeQueries_state (isServer : Bool) (now : Int) (queue : List String) :
    ∀ (qc : QueryCache) (h : String),
    (objGet (initializeQueries isServer now queue qc).1.queries h).map Query.state
      = (objGet qc.queries h).map Query.state := by
  induction queue with
  | nil => intro qc h; rfl
  | cons h0 queue ih =>
    intro qc h
    rw [initializeQueries]
    cases hq : objGet qc.queries h0 with
    | none => exact ih qc h
    | some q =>
      cases isServer with
      | true => exact ih qc h
      | false =>
        simp only [Bool.not_false, if_true]
        rw [ih]
        simp only [objGet_objSet]
        by_cases hh : h0 = h
        · subst hh
          simp [hq, initializeQuery]
        · simp [hh]

/-! ## The loop of `hydrate` in `src/hydration/hydration.js` -/

theorem hydration_step_spec (d : Defaults) (now : Int) (qc : QueryCache) (queue : List String)
    (h0 : String) (fs : List (String × JSValue)) (rest : List (String × JSValue))
    (canon : JSValue) (hcanon : CanonicalHash h0 canon) :
    ∃ qc2, Hydration.hydrateLoop d now JSONparse ((h0, .obj fs) :: rest) qc queue
        = Hydration.hydrateLoop d now JSONparse rest qc2 (queue ++ [h0])
      ∧ ∀ h, objGet qc2.queries h
          = if h0 = h then
              some (((objGet qc.queries h0).getD
                (newQuery d now h0 canon
                  (orEmptyObject (propOrUndefined (.obj fs) "config")))).withUpdatedAt
                (propOrUndefined (.obj fs) "updatedAt"))
            else objGet qc.queries h := by
  obtain ⟨⟨q, hq⟩, hget⟩ := createQuery_spec d now qc canon
    (orEmptyObject (propOrUndefined (.obj fs) "config")) h0 canon hcanon.2
  set qc1 := (createQuery d now qc canon
    (orEmptyObject (propOrUndefined (.obj fs) "config"))).1 with hqc1
  have hcq : createQuery d now qc canon (orEmptyObject (propOrUndefined (.obj fs) "config"))
      = (qc1, .ok q) := by rw [← hq]
  have hq0 : objGet qc1.queries h0
      = some ((objGet qc.queries h0).getD (newQuery d now h0 canon
          (orEmptyObject (propOrUndefined (.obj fs) "config")))) := by
    rw [hget h0]
    cases objGet qc.queries h0 <;> simp
  refine ⟨QueryCache.mk (objSet qc1.queries h0
      (((objGet qc.queries h0).getD (newQuery d now h0 canon
        (orEmptyObject (propOrUndefined (.obj fs) "config")))).withUpdatedAt
        (propOrUndefined (.obj fs) "updatedAt"))), ?_, ?_⟩
  · rw [Hydration.hydrateLoop]
    simp only [hcanon.1, getProp]
    have hc : (objGet fs "config").getD JSValue.undefined
        = propOrUndefined (.obj fs) "config" := rfl
    rw [hc, hcq]
    simp only [Hydration.setUpdatedAt, hq0]
    rfl
  · intro h
    simp only [objGet_objSet]
    by_cases hh : h0 = h
    · simp [hh]
    · simp only [hh, if_false]
      rw [hget h]
      cases objGet qc.queries h <;> simp [hh]

theorem hydration_hydrateLoop_spec (d : Defaults) (now : Int)
    (entries : List (String × JSValue)) :
    ∀ (qc : QueryCache) (queue : List String),
    (entries.map Prod.fst).Nodup →
    (∀ e ∈ entries, (∃ canon, CanonicalHash e.1 canon) ∧ ∃ fs, e.2 = .obj fs) →
    (Hydration.hydrateLoop d now JSONparse entries qc queue).result
        = .ok (queue ++ entries.map Prod.fst)
      ∧ ∀ h, objGet (Hydration.hydrateLoop d now JSONparse entries qc queue).queryCache.queries h
          = match objGet entries h with
            | none => objGet qc.queries h
            | some dq =>
              some (((objGet qc.queries h).getD
                (newQuery d now h (parsedKey h)
                  (orEmptyObject (propOrUndefined dq "config")))).withUpdatedAt
                (propOrUndefined dq "updatedAt")) := by
  induction entries with
  | nil =>
    intro qc queue _ _
    exact ⟨by simp [Hydration.hydrateLoop], fun h => by simp [Hydration.hydrateLoop, objGet]⟩
  | cons e entries ih =>
    intro qc queue hnd hgood
    obtain ⟨h0, dq0⟩ := e
    obtain ⟨⟨canon, hcanon⟩, fs, hfs⟩ := hgood (h0, dq0) (List.mem_cons_self _ _)
    simp only at hfs
    subst hfs
    obtain ⟨qc2, hstep, hget⟩ := hydration_step_spec d now qc queue h0 fs entries canon hcanon
    simp only [List.map_cons, List.nodup_cons] at hnd
    obtain ⟨hres, hall⟩ := ih qc2 (queue ++ [h0]) hnd.2
      (fun e he => hgood e (List.mem_cons_of_mem _ he))
    rw [hstep]
    refine ⟨by simp [hres], fun h => ?_⟩
    rw [hall h]
    by_cases hh : h0 = h
    · subst hh
      have hnone : objGet entries h0 = none := (objGet_eq_none_iff entries h0).2 hnd.1
      simp [hnone, objGet, hget h0, parsedKey_of_canonical hcanon]
    · simp only [objGet, hh, if_false, hget h]

/-! ## Snapshots through a JSON round trip -/

theorem mem_cleanMembers (fs : List (String × JSValue)) (e : String × JSValue) :
    e ∈ cleanMembers fs
      ↔ ∃ v, (e.1, v) ∈ fs ∧ v.unserialisable = false ∧ e.2 = jsonClean v := by
  rw [cleanMembers_eq_filterMap, List.mem_filterMap]
  constructor
  · rintro ⟨p, hp, hpe⟩
    by_cases hu : p.2.unserialisable = true
    · simp [hu] at hpe
    · simp only [hu, Bool.false_eq_true, if_false, Option.some.injEq] at hpe
      subst hpe
      exact ⟨p.2, hp, by simpa using hu, rfl⟩
  · rintro ⟨v, hv, hu, he⟩
    refine ⟨(e.1, v), hv, ?_⟩
    simp only [hu, Bool.false_eq_true, if_false, Option.some.injEq]
    rw [← he]

theorem hydration_dehydrateQuery_eq (query : Query) :
    ∃ config, Hydration.dehydrateQuery query
        = .obj [("config", .obj config), ("updatedAt", query.state.updatedAt)]
      ∧ (config.map Prod.fst).Nodup
      ∧ (∀ p ∈ config, (∃ n, p.2 = .num n) ∨ p.2 = query.state.data)
      ∧ objGet config "initialData"
        = (if query.state.data.isUndefined = true then none else some query.state.data) := by
  unfold Hydration.dehydrateQuery
  split_ifs <;> refine ⟨_, rfl, by simp [objSet], ?_, ?_⟩ <;> simp_all [objSet, objGet]

theorem hydration_dehydrateQuery_wellFormed (query : Query)
    (hdata : query.state.data.wellFormed = true)
    (hupd : query.state.updatedAt.wellFormed = true) :
    (Hydration.dehydrateQuery query).wellFormed = true := by
  obtain ⟨config, heq, hnd, hvals, -⟩ := hydration_dehydrateQuery_eq query
  rw [heq, wellFormed_obj_iff]
  refine ⟨by simp, ?_⟩
  intro p hp
  simp only [List.mem_cons, List.mem_singleton, List.not_mem_nil, or_false] at hp
  rcases hp with rfl | rfl
  · rw [wellFormed_obj_iff]
    refine ⟨hnd, fun p hp => ?_⟩
    rcases hvals p hp with ⟨n, hn⟩ | hd
    · rw [hn]; rfl
    · rw [hd]; exact hdata
  · exact hupd

theorem objGet_cleanMembers (fs : List (String × JSValue)) (k : String)
    (hnd : (fs.map Prod.fst).Nodup) :
    objGet (cleanMembers fs) k
      = (objGet fs k).bind (fun v => if v.unserialisable then none else some (jsonClean v)) := by
  induction fs with
  | nil => rfl
  | cons p fs ih =>
    obtain ⟨k1, v1⟩ := p
    simp only [List.map_cons, List.nodup_cons] at hnd
    by_cases hk : k1 = k
    · subst hk
      by_cases hu : v1.unserialisable = true
      · have hnone : objGet fs k1 = none := (objGet_eq_none_iff fs k1).2 hnd.1
        simp [cleanMembers, hu, objGet, ih hnd.2, hnone]
      · simp [cleanMembers, hu, objGet]
    · by_cases hu : v1.unserialisable = true
      · simp [cleanMembers, hu, objGet, hk, ih hnd.2]
      · simp [cleanMembers, hu, objGet, hk, ih hnd.2]

/-- The data of the query that `hydrate` of `src/hydration/hydration.js` creates
from the dehydrated form of a query with JSON data, after a JSON round trip. -/
theorem hydration_hydrated_data (d : Defaults) (now : Int) (h : String) (k : JSValue)
    (query : Query) (hjson : query.state.data.isJSON = true) :
    (newQuery d now h k (orEmptyObject
        (propOrUndefined (jsonClean (Hydration.dehydrateQuery query)) "config"))).state.data
      = query.state.data := by
  obtain ⟨config, heq, hnd, -, hinit⟩ := hydration_dehydrateQuery_eq query
  have hu := unserialisable_of_isJSON hjson
  have hundef : query.state.data.isUndefined = false := by
    cases hd : query.state.data <;> simp_all [JSValue.isJSON, JSValue.isUndefined]
  have hcfg : propOrUndefined (jsonClean (Hydration.dehydrateQuery query)) "config"
      = .obj (cleanMembers config) := by
    rw [heq]
    simp [propOrUndefined, getProp, jsonClean, cleanMembers, JSValue.unserialisable, objGet]
  rw [hcfg]
  have hget : objGet (cleanMembers config) "initialData" = some query.state.data := by
    rw [objGet_cleanMembers config _ hnd, hinit]
    simp [hundef, hu, jsonClean_of_isJSON _ hjson]
  simp [newQuery, orEmptyObject, JSValue.truthy, getProp, hget]

/-! ## Hydrating twice: `src/core/hydration.js` -/

theorem createQuery_dichotomy (k : JSValue) :
    (∃ h c, defaultQueryKeySerializerFn k = .ok (.arr [.str h, c]))
      ∨ ∃ err, ∀ (d : Defaults) (now : Int) (qc : QueryCache) (cfg : JSValue),
          createQuery d now qc k cfg = (qc, .error err) := by
  by_cases hp : ∃ h c, defaultQueryKeySerializerFn k = .ok (.arr [.str h, c])
  · exact Or.inl hp
  · right
    refine ⟨match defaultQueryKeySerializerFn k with
      | .error e => e
      | .ok _ => invalidKeyError, ?_⟩
    intro d now qc cfg
    unfold createQuery
    split
    · rename_i e he
      simp [he]
    · rename_i h c he
      exact absurd ⟨h, c, he⟩ hp
    · rename_i v he hv
      simp [hv]

theorem createQuery_keeps (d : Defaults) (now : Int) (qc : QueryCache) (k cfg : JSValue)
    (h : String) (q : Query) (hq : objGet qc.queries h = some q) :
    objGet (createQuery d now qc k cfg).1.queries h = some q := by
  rcases createQuery_dichotomy k with ⟨h1, c, hres⟩ | ⟨err, herr⟩
  · rw [(createQuery_spec d now qc k cfg h1 c hres).2 h, hq]
    rfl
  · rw [herr]
    exact hq

theorem createQuery_extends (d : Defaults) (now : Int) (qc : QueryCache) (k cfg : JSValue) :
    Extends qc (createQuery d now qc k cfg).1 := by
  intro h hs
  cases hq : objGet qc.queries h with
  | none => rw [hq] at hs; cases hs
  | some q => rw [createQuery_keeps d now qc k cfg h q hq]; rfl

theorem extends_trans {a b c : QueryCache} (h₁ : Extends a b) (h₂ : Extends b c) :
    Extends a c :=
  fun h hs => h₂ h (h₁ h hs)

theorem createQuery_existing (d : Defaults) (now : Int) (qc : QueryCache) (k cfg : JSValue)
    (h : String) (c : JSValue) (hres : defaultQueryKeySerializerFn k = .ok (.arr [.str h, c]))
    (hs : (objGet qc.queries h).isSome = true) :
    ∃ q, createQuery d now qc k cfg = (qc, .ok q) := by
  rw [createQuery_of_pair d now qc k cfg h c hres]
  cases hq : objGet qc.queries h with
  | none => rw [hq] at hs; cases hs
  | some q => exact ⟨q, rfl⟩

theorem core_stepOk_mono {p : String → Except JSError JSValue} {qc qc1 : QueryCache}
    {e : String × JSValue} (hext : Extends qc qc1) (h : Core.StepOk p qc e) :
    Core.StepOk p qc1 e := by
  obtain ⟨k, h1, c, hp, hres, hs⟩ := h
  exact ⟨k, h1, c, hp, hres, hext h1 hs⟩

theorem core_stepOk_loop {p : String → Except JSError JSValue} {qc : QueryCache}
    {e : String × JSValue} (h : Core.StepOk p qc e) (d : Defaults) (now : Int)
    (rest : List (String × JSValue)) (queue : List String) :
    Core.hydrateLoop d now p (e :: rest) qc queue
      = Core.hydrateLoop d now p rest qc (queue ++ [e.1]) := by
  obtain ⟨k, h1, c, hp, hres, hs⟩ := h
  obtain ⟨q, hq⟩ := createQuery_existing d now qc k (orEmptyObject e.2) h1 c hres hs
  obtain ⟨h0, dq⟩ := e
  rw [Core.hydrateLoop]
  simp only [hp, hq]

/-- The first step of the loop either fails, in the same way on every cache and
without changing the cache, or succeeds and is then a step that changes nothing. -/
theorem core_hydrateLoop_cons_cases (d : Defaults) (now : Int)
    (p : String → Except JSError JSValue) (e : String × JSValue) (qc : QueryCache) :
    (∃ err, ∀ (now1 : Int) (rest1 : List (String × JSValue)) (qc1 : QueryCache)
        (queue1 : List String),
        Core.hydrateLoop d now1 p (e :: rest1) qc1 queue1 = ⟨qc1, .error err⟩)
      ∨ ∃ qc1, (∀ (rest1 : List (String × JSValue)) (queue1 : List String),
            Core.hydrateLoop d now p (e :: rest1) qc queue1
              = Core.hydrateLoop d now p rest1 qc1 (queue1 ++ [e.1]))
          ∧ Core.StepOk p qc1 e ∧ Extends qc qc1 := by
  obtain ⟨h0, dq⟩ := e
  cases hp : p h0 with
  | error err =>
    left
    refine ⟨err, fun now1 rest1 qc1 queue1 => ?_⟩
    rw [Core.hydrateLoop]
    simp only [hp]
  | ok k =>
    rcases createQuery_dichotomy k with ⟨h1, c, hres⟩ | ⟨err, herr⟩
    · right
      obtain ⟨⟨q, hq⟩, hget⟩ := createQuery_spec d now qc k (orEmptyObject dq) h1 c hres
      refine ⟨(createQuery d now qc k (orEmptyObject dq)).1, ?_, ?_, ?_⟩
      · intro rest1 queue1
        rw [Core.hydrateLoop]
        simp only [hp]
        have : createQuery d now qc k (orEmptyObject dq)
            = ((createQuery d now qc k (orEmptyObject dq)).1, .ok q) := by rw [← hq]
        rw [this]
      · refine ⟨k, h1, c, hp, hres, ?_⟩
        rw [hget h1]
        cases objGet qc.queries h1 <;> simp
      · exact createQuery_extends d now qc k _
    · left
      refine ⟨err, fun now1 rest1 qc1 queue1 => ?_⟩
      rw [Core.hydrateLoop]
      simp only [hp, herr]

theorem core_hydrateLoop_extends (d : Defaults) (now : Int)
    (p : String → Except JSError JSValue) (l : List (String × JSValue)) :
    ∀ (qc : QueryCache) (queue : List String),
      Extends qc (Core.hydrateLoop d now p l qc queue).queryCache := by
  induction l with
  | nil => intro qc queue h hs; exact hs
  | cons e rest ih =>
    intro qc queue
    rcases core_hydrateLoop_cons_cases d now p e qc with ⟨err, herr⟩ | ⟨qc1, hstep, -, hext⟩
    · rw [herr]
      exact fun h hs => hs
    · rw [hstep]
      exact extends_trans hext (ih qc1 _)

/-- The list `queriesToInit` only collects the hashes: it has no effect on the cache
or on the outcome. -/
theorem core_hydrateLoop_queue (d : Defaults) (now : Int)
    (p : String → Except JSError JSValue) (l : List (String × JSValue)) :
    ∀ (qc : QueryCache) (queue : List String),
      Core.hydrateLoop d now p l qc queue
        = ⟨(Core.hydrateLoop d now p l qc []).queryCache,
            (Core.hydrateLoop d now p l qc []).result.map (queue ++ ·)⟩ := by
  induction l with
  | nil => intro qc queue; simp [Core.hydrateLoop, Except.map]
  | cons e rest ih =>
    intro qc queue
    rcases core_hydrateLoop_cons_cases d now p e qc with ⟨err, herr⟩ | ⟨qc1, hstep, -, -⟩
    · rw [herr, herr]
      rfl
    · rw [hstep, hstep, ih qc1 (queue ++ [e.1]), ih qc1 ([] ++ [e.1])]
      cases (Core.hydrateLoop d now p rest qc1 []).result <;> simp [Except.map]

/-- Hydrating a snapshot into the cache that hydrating it has produced changes
nothing and ends in the same way. -/
theorem core_hydrateLoop_idempotent (d : Defaults) (p : String → Except JSError JSValue)
    (l : List (String × JSValue)) :
    ∀ (qc : QueryCache) (now now1 : Int),
      Core.hydrateLoop d now1 p l (Core.hydrateLoop d now p l qc []).queryCache []
        = Core.hydrateLoop d now p l qc [] := by
  induction l with
  | nil => intro qc now now1; rfl
  | cons e rest ih =>
    intro qc now now1
    rcases core_hydrateLoop_cons_cases d now p e qc with ⟨err, herr⟩ | ⟨qc1, hstep, hok, -⟩
    · rw [herr, herr]
    · rw [hstep]
      have hok2 : Core.StepOk p (Core.hydrateLoop d now p rest qc1 ([] ++ [e.1])).queryCache e :=
        core_stepOk_mono (core_hydrateLoop_extends d now p rest qc1 _) hok
      rw [core_stepOk_loop hok2 d now1 rest []]
      rw [core_hydrateLoop_queue d now p rest qc1 ([] ++ [e.1])]
      simp only
      rw [core_hydrateLoop_queue d now1 p rest _ ([] ++ [e.1]), ih qc1 now now1]

/-! ## Hydrating twice: `src/hydration/hydration.js` -/

theorem objSet_self {α : Type} (fs : List (String × α)) (k : String) (v : α)
    (h : objGet fs k = some v) : objSet fs k v = fs := by
  induction fs with
  | nil => simp [objGet] at h
  | cons p fs ih =>
    obtain ⟨k1, v1⟩ := p
    by_cases hk : k1 = k
    · simp only [objGet, hk, if_true, Option.some.injEq] at h
      simp [objSet, hk, h]
    · simp only [objGet, hk, if_false] at h
      simp [objSet, hk, ih h]

theorem getProp_ok_of_ok {dq : JSValue} {a : String} {v : JSValue} (b : String)
    (h : getProp dq a = .ok v) : ∃ u, getProp dq b = .ok u := by
  cases dq <;> first | exact ⟨_, rfl⟩ | cases h

theorem hydration_setUpdatedAt_spec (qc : QueryCache) (h0 : String) (u : JSValue) (q : Query)
    (hq : objGet qc.queries h0 = some q) :
    ∃ qc2, Hydration.setUpdatedAt qc h0 u = .ok qc2
      ∧ (∀ h, objGet qc2.queries h
          = if h0 = h then some (q.withUpdatedAt u) else objGet qc.queries h) := by
  refine ⟨_, by simp only [Hydration.setUpdatedAt, hq]; rfl, fun h => ?_⟩
  simp only [objGet_objSet]
  rfl

theorem hydration_stepOk_mono {p : String → Except JSError JSValue} {qc qc1 : QueryCache}
    {e : String × JSValue} (hext : Extends qc qc1) (hkeep : KeepsAt e.1 qc qc1)
    (h : Hydration.StepOk p qc e) : Hydration.StepOk p qc1 e := by
  obtain ⟨k, h1, c, cfg, q, hp, hcfg, hres, hs, hq, hu⟩ := h
  exact ⟨k, h1, c, cfg, q, hp, hcfg, hres, hext h1 hs, hkeep q hq, hu⟩

theorem hydration_stepOk_loop {p : String → Except JSError JSValue} {qc : QueryCache}
    {e : String × JSValue} (h : Hydration.StepOk p qc e) (d : Defaults) (now : Int)
    (rest : List (String × JSValue)) (queue : List String) :
    Hydration.hydrateLoop d now p (e :: rest) qc queue
      = Hydration.hydrateLoop d now p rest qc (queue ++ [e.1]) := by
  obtain ⟨k, h1, c, cfg, q, hp, hcfg, hres, hs, hq, hu⟩ := h
  obtain ⟨q1, hq1⟩ := createQuery_existing d now qc k (orEmptyObject cfg) h1 c hres hs
  obtain ⟨h0, dq⟩ := e
  have hset : Hydration.setUpdatedAt qc h0 q.state.updatedAt = .ok qc := by
    simp only [Hydration.setUpdatedAt, hq]
    have : objSet qc.queries h0
        { q with state := { q.state with updatedAt := q.state.updatedAt } } = qc.queries :=
      objSet_self qc.queries h0 _ hq
    rw [this]
  rw [Hydration.hydrateLoop]
  simp only at hp hcfg hu hq
  simp only [hp, hcfg, hq1, hu, hset]

/-- The first step of the loop either fails, and fails again in the same way on the
cache it leaves, or succeeds and is then a step that changes nothing; it changes no
query but the one at its own hash and removes none. -/
theorem hydration_hydrateLoop_cons_cases (d : Defaults) (now : Int)
    (p : String → Except JSError JSValue) (e : String × JSValue) (qc : QueryCache) :
    (∃ err qc1,
        (∀ (rest1 : List (String × JSValue)) (queue1 : List String),
          Hydration.hydrateLoop d now p (e :: rest1) qc queue1 = ⟨qc1, .error err⟩)
        ∧ (∀ (now1 : Int) (rest1 : List (String × JSValue)) (queue1 : List String),
          Hydration.hydrateLoop d now1 p (e :: rest1) qc1 queue1 = ⟨qc1, .error err⟩)
        ∧ Extends qc qc1 ∧ ∀ h, KeepsAt h qc qc1)
      ∨ ∃ qc2, (∀ (rest1 : List (String × JSValue)) (queue1 : List String),
            Hydration.hydrateLoop d now p (e :: rest1) qc queue1
              = Hydration.hydrateLoop d now p rest1 qc2 (queue1 ++ [e.1]))
          ∧ Hydration.StepOk p qc2 e ∧ Extends qc qc2 ∧ ∀ h, h ≠ e.1 → KeepsAt h qc qc2 := by
  obtain ⟨h0, dq⟩ := e
  have hrefl : Extends qc qc ∧ ∀ h, KeepsAt h qc qc := ⟨fun _ hs => hs, fun _ _ hq => hq⟩
  cases hp : p h0 with
  | error err =>
    left
    refine ⟨err, qc, fun rest1 queue1 => ?_, fun now1 rest1 queue1 => ?_, hrefl⟩ <;>
      (rw [Hydration.hydrateLoop]; simp only [hp])
  | ok k =>
    cases hcfg : getProp dq "config" with
    | error err =>
      left
      refine ⟨err, qc, fun rest1 queue1 => ?_, fun now1 rest1 queue1 => ?_, hrefl⟩ <;>
        (rw [Hydration.hydrateLoop]; simp only [hp, hcfg])
    | ok cfg =>
      obtain ⟨u, hu⟩ := getProp_ok_of_ok "updatedAt" hcfg
      rcases createQuery_dichotomy k with ⟨h1, c, hres⟩ | ⟨err, herr⟩
      · obtain ⟨⟨q, hq⟩, hget⟩ := createQuery_spec d now qc k (orEmptyObject cfg) h1 c hres
        have hcq : createQuery d now qc k (orEmptyObject cfg)
            = ((createQuery d now qc k (orEmptyObject cfg)).1, .ok q) := by rw [← hq]
        have hext1 := createQuery_extends d now qc k (orEmptyObject cfg)
        have hkeep1 : ∀ h, KeepsAt h qc (createQuery d now qc k (orEmptyObject cfg)).1 :=
          fun h q0 hq0 => createQuery_keeps d now qc k _ h q0 hq0
        have hs1 : (objGet (createQuery d now qc k (orEmptyObject cfg)).1.queries h1).isSome
            = true := by
          rw [hget h1]
          cases objGet qc.queries h1 <;> simp
        cases hq0 : objGet (createQuery d now qc k (orEmptyObject cfg)).1.queries h0 with
        | none =>
          left
          have hset : Hydration.setUpdatedAt (createQuery d now qc k (orEmptyObject cfg)).1 h0 u
              = .error .typeError := by
            simp only [Hydration.setUpdatedAt, hq0]
          refine ⟨.typeError, (createQuery d now qc k (orEmptyObject cfg)).1,
            fun rest1 queue1 => ?_, fun now1 rest1 queue1 => ?_, hext1, hkeep1⟩
          · rw [Hydration.hydrateLoop]
            simp only [hp, hcfg, hu]
            rw [hcq]
            simp only [hset]
          · obtain ⟨q1, hq1⟩ := createQuery_existing d now1
              (createQuery d now qc k (orEmptyObject cfg)).1 k (orEmptyObject cfg) h1 c hres hs1
            rw [Hydration.hydrateLoop]
            simp only [hp, hcfg, hu, hq1, hset]
        | some q0 =>
          right
          obtain ⟨qc2, hset, hget2⟩ := hydration_setUpdatedAt_spec
            (createQuery d now qc k (orEmptyObject cfg)).1 h0 u q0 hq0
          refine ⟨qc2, fun rest1 queue1 => ?_, ?_, ?_, ?_⟩
          · rw [Hydration.hydrateLoop]
            simp only [hp, hcfg, hu]
            rw [hcq]
            simp only [hset]
          · refine ⟨k, h1, c, cfg, q0.withUpdatedAt u, hp, hcfg, hres, ?_, ?_, hu⟩
            · rw [hget2 h1]
              by_cases hh : h0 = h1
              · simp [hh]
              · simp only [hh, if_false]
                exact hs1
            · rw [hget2 h0]
              simp
          · intro h hs
            rw [hget2 h]
            by_cases hh : h0 = h
            · simp [hh]
            · simp only [hh, if_false]
              exact hext1 h hs
          · intro h hne q1 hq1
            rw [hget2 h]
            simp only [Ne.symm hne, if_false]
            exact hkeep1 h q1 hq1
      · left
        refine ⟨err, qc, fun rest1 queue1 => ?_, fun now1 rest1 queue1 => ?_, hrefl⟩ <;>
          (rw [Hydration.hydrateLoop]; simp only [hp, hcfg, herr])

theorem hydration_hydrateLoop_preserves (d : Defaults) (now : Int)
    (p : String → Except JSError JSValue) (l : List (String × JSValue)) :
    ∀ (qc : QueryCache) (queue : List String),
      Extends qc (Hydration.hydrateLoop d now p l qc queue).queryCache
        ∧ ∀ h, h ∉ l.map Prod.fst →
            KeepsAt h qc (Hydration.hydrateLoop d now p l qc queue).queryCache := by
  induction l with
  | nil => intro qc queue; exact ⟨fun _ hs => hs, fun _ _ _ hq => hq⟩
  | cons e rest ih =>
    intro qc queue
    rcases hydration_hydrateLoop_cons_cases d now p e qc with
      ⟨err, qc1, herr, -, hext, hkeep⟩ | ⟨qc2, hstep, -, hext, hkeep⟩
    · rw [herr]
      exact ⟨hext, fun h _ => hkeep h⟩
    · rw [hstep]
      obtain ⟨hext2, hkeep2⟩ := ih qc2 (queue ++ [e.1])
      refine ⟨extends_trans hext hext2, fun h hh q hq => ?_⟩
      simp only [List.map_cons, List.mem_cons, not_or] at hh
      exact hkeep2 h hh.2 q (hkeep h hh.1 q hq)

theorem hydration_hydrateLoop_queue (d : Defaults) (now : Int)
    (p : String → Except JSError JSValue) (l : List (String × JSValue)) :
    ∀ (qc : QueryCache) (queue : List String),
      Hydration.hydrateLoop d now p l qc queue
        = ⟨(Hydration.hydrateLoop d now p l qc []).queryCache,
            (Hydration.hydrateLoop d now p l qc []).result.map (queue ++ ·)⟩ := by
  induction l with
  | nil => intro qc queue; simp [Hydration.hydrateLoop, Except.map]
  | cons e rest ih =>
    intro qc queue
    rcases hydration_hydrateLoop_cons_cases d now p e qc with
      ⟨err, qc1, herr, -, -, -⟩ | ⟨qc2, hstep, -, -, -⟩
    · rw [herr, herr]
      rfl
    · rw [hstep, hstep, ih qc2 (queue ++ [e.1]), ih qc2 ([] ++ [e.1])]
      cases (Hydration.hydrateLoop d now p rest qc2 []).result <;> simp [Except.map]

/-- Hydrating a snapshot with distinct hashes into the cache that hydrating it has
produced changes nothing and ends in the same way. -/
theorem hydration_hydrateLoop_idempotent (d : Defaults)
    (p : String → Except JSError JSValue) (l : List (String × JSValue)) :
    (l.map Prod.fst).Nodup → ∀ (qc : QueryCache) (now now1 : Int),
      Hydration.hydrateLoop d now1 p l (Hydration.hydrateLoop d now p l qc []).queryCache []
        = Hydration.hydrateLoop d now p l qc [] := by
  induction l with
  | nil => intro _ qc now now1; rfl
  | cons e rest ih =>
    intro hnd qc now now1
    simp only [List.map_cons, List.nodup_cons] at hnd
    rcases hydration_hydrateLoop_cons_cases d now p e qc with
      ⟨err, qc1, herr, hagain, -, -⟩ | ⟨qc2, hstep, hok, -, -⟩
    · rw [herr, hagain]
    · rw [hstep]
      obtain ⟨hext, hkeep⟩ := hydration_hydrateLoop_preserves d now p rest qc2 ([] ++ [e.1])
      have hok2 := hydration_stepOk_mono hext (hkeep e.1 hnd.1) hok
      rw [hydration_stepOk_loop hok2 d now1 rest []]
      rw [hydration_hydrateLoop_queue d now p rest qc2 ([] ++ [e.1])]
      simp only
      rw [hydration_hydrateLoop_queue d now1 p rest _ ([] ++ [e.1]), ih hnd.2 qc2 now now1]

/-! ## The entries of a snapshot have distinct names -/

theorem toDigits_injective {a b : Nat} (h : Nat.toDigits 10 a = Nat.toDigits 10 b) : a = b := by
  have ha := (toDigits_spec a).2.2.1
  have hb := (toDigits_spec b).2.2.1
  rw [h] at ha
  omega

theorem indexedFrom_keys {α : Type} (xs : List α) : ∀ (i : Nat) (k : String),
    k ∈ (indexedFrom i xs).map Prod.fst → ∃ j, i ≤ j ∧ k = String.mk (Nat.toDigits 10 j) := by
  induction xs with
  | nil => intro i k hk; simp [indexedFrom] at hk
  | cons x xs ih =>
    intro i k hk
    simp only [indexedFrom, List.map_cons, List.mem_cons] at hk
    rcases hk with rfl | hk
    · exact ⟨i, le_refl _, rfl⟩
    · obtain ⟨j, hj, rfl⟩ := ih (i + 1) k hk
      exact ⟨j, by omega, rfl⟩

theorem indexedFrom_nodup {α : Type} (xs : List α) :
    ∀ i : Nat, ((indexedFrom i xs).map Prod.fst).Nodup := by
  induction xs with
  | nil => intro i; simp [indexedFrom]
  | cons x xs ih =>
    intro i
    simp only [indexedFrom, List.map_cons, List.nodup_cons]
    refine ⟨fun hmem => ?_, ih (i + 1)⟩
    obtain ⟨j, hj, hk⟩ := indexedFrom_keys xs (i + 1) _ hmem
    have : Nat.toDigits 10 i = Nat.toDigits 10 j := congrArg String.data hk
    have := toDigits_injective this
    omega

theorem objectEntries_nodup (v : JSValue) (entries : List (String × JSValue))
    (hwf : v.wellFormed = true) (h : objectEntries v = .ok entries) :
    (entries.map Prod.fst).Nodup := by
  cases v with
  | undefined => cases h
  | null => cases h
  | obj fs =>
    simp only [objectEntries, Except.ok.injEq] at h
    subst h
    exact ((wellFormed_obj_iff fs).1 hwf).1
  | arr xs =>
    simp only [objectEntries, Except.ok.injEq] at h
    subst h
    exact indexedFrom_nodup xs 0
  | str s =>
    simp only [objectEntries, Except.ok.injEq] at h
    subst h
    exact indexedFrom_nodup _ 0
  | bool b => simp only [objectEntries, Except.ok.injEq] at h; subst h; exact List.nodup_nil
  | num n => simp only [objectEntries, Except.ok.injEq] at h; subst h; exact List.nodup_nil
  | func i => simp only [objectEntries, Except.ok.injEq] at h; subst h; exact List.nodup_nil

/-! ## The values of a dehydrated mapping -/

theorem mem_of_objGet {α : Type} (fs : List (String × α)) (k : String) (v : α)
    (h : objGet fs k = some v) : (k, v) ∈ fs := by
  induction fs with
  | nil => simp [objGet] at h
  | cons p fs ih =>
    obtain ⟨k1, v1⟩ := p
    by_cases hk : k1 = k
    · subst hk
      simp only [objGet, if_true, Option.some.injEq] at h
      subst h
      exact List.mem_cons_self _ _
    · simp only [objGet, hk, if_false] at h
      exact List.mem_cons_of_mem _ (ih h)

theorem mem_objSet {α : Type} (fs : List (String × α)) (k : String) (v : α)
    (e : String × α) (h : e ∈ objSet fs k v) : e ∈ fs ∨ e = (k, v) := by
  induction fs with
  | nil =>
    simp only [objSet, List.mem_singleton] at h
    exact Or.inr h
  | cons p fs ih =>
    obtain ⟨k1, v1⟩ := p
    by_cases hk : k1 = k
    · subst hk
      simp only [objSet, if_true, List.mem_cons] at h
      rcases h with h | h
      · exact Or.inr h
      · exact Or.inl (List.mem_cons_of_mem _ h)
    · simp only [objSet, hk, if_false, List.mem_cons] at h
      rcases h with h | h
      · exact Or.inl (by rw [h]; exact List.mem_cons_self _ _)
      · rcases ih h with h | h
        · exact Or.inl (List.mem_cons_of_mem _ h)
        · exact Or.inr h

theorem mem_foldl_objSet {α β : Type} (P : α → Prop) [DecidablePred P] (f : α → β)
    (l : List (String × α)) (acc : List (String × β)) (e : String × β)
    (h : e ∈ l.foldl (fun o e => if P e.2 then objSet o e.1 (f e.2) else o) acc) :
    e ∈ acc ∨ ∃ q, (e.1, q) ∈ l ∧ P q ∧ e.2 = f q := by
  induction l generalizing acc with
  | nil => exact Or.inl h
  | cons x l ih =>
    obtain ⟨k, q⟩ := x
    simp only [List.foldl_cons] at h
    rcases ih _ h with h1 | ⟨q', hq', hp', he⟩
    · by_cases hp : P q
      · simp only [hp, if_true] at h1
        rcases mem_objSet acc k (f q) e h1 with h2 | h2
        · exact Or.inl h2
        · exact Or.inr ⟨q, by rw [h2]; exact List.mem_cons_self _ _, hp, by rw [h2]⟩
      · simp only [hp, if_false] at h1
        exact Or.inl h1
    · exact Or.inr ⟨q', List.mem_cons_of_mem _ hq', hp', he⟩

theorem hydration_dehydrateQuery_keys (query : Query) :
    ∃ config, Hydration.dehydrateQuery query
        = .obj [("config", .obj config), ("updatedAt", query.state.updatedAt)]
      ∧ ∀ k ∈ config.map Prod.fst, k = "staleTime" ∨ k = "cacheTime" ∨ k = "initialData" := by
  unfold Hydration.dehydrateQuery
  split_ifs <;> refine ⟨_, rfl, ?_⟩ <;> simp [objSet]

theorem core_dehydrateQuery_keys (d : Defaults) (query : Query) :
    ∀ k ∈ objectKeys (Core.dehydrateQuery d query),
      k = "staleTime" ∨ k = "cacheTime" ∨ k = "initialData" := by
  unfold Core.dehydrateQuery
  split_ifs <;> simp [objSet, objectKeys]

/-! ## The loop of `hydrate` stops at the first error -/

theorem core_hydrateLoop_append (d : Defaults) (now : Int)
    (p : String → Except JSError JSValue) (pre rest : List (String × JSValue)) :
    ∀ (qc : QueryCache) (queue : List String),
      Core.hydrateLoop d now p (pre ++ rest) qc queue
        = match (Core.hydrateLoop d now p pre qc queue).result with
          | .ok q =>
            Core.hydrateLoop d now p rest (Core.hydrateLoop d now p pre qc queue).queryCache q
          | .error err => ⟨(Core.hydrateLoop d now p pre qc queue).queryCache, .error err⟩ := by
  induction pre with
  | nil => intro qc queue; rfl
  | cons e pre ih =>
    intro qc queue
    rcases core_hydrateLoop_cons_cases d now p e qc with ⟨err, herr⟩ | ⟨qc1, hstep, -, -⟩
    · rw [List.cons_append, herr, herr]
    · rw [List.cons_append, hstep, hstep, ih]

theorem hydration_hydrateLoop_append (d : Defaults) (now : Int)
    (p : String → Except JSError JSValue) (pre rest : List (String × JSValue)) :
    ∀ (qc : QueryCache) (queue : List String),
      Hydration.hydrateLoop d now p (pre ++ rest) qc queue
        = match (Hydration.hydrateLoop d now p pre qc queue).result with
          | .ok q =>
            Hydration.hydrateLoop d now p rest
              (Hydration.hydrateLoop d now p pre qc queue).queryCache q
          | .error err =>
            ⟨(Hydration.hydrateLoop d now p pre qc queue).queryCache, .error err⟩ := by
  induction pre with
  | nil => intro qc queue; rfl
  | cons e pre ih =>
    intro qc queue
    rcases hydration_hydrateLoop_cons_cases d now p e qc with
      ⟨err, qc1, herr, -, -, -⟩ | ⟨qc2, hstep, -, -, -⟩
    · rw [List.cons_append, herr, herr]
    · rw [List.cons_append, hstep, hstep, ih]

theorem core_hydrateLoop_parser_error (d : Defaults) (now : Int)
    (p : String → Except JSError JSValue) (h : String) (dq : JSValue)
    (post : List (String × JSValue)) (qc : QueryCache) (queue : List String) (err : JSError)
    (hfail : p h = .error err) :
    Core.hydrateLoop d now p ((h, dq) :: post) qc queue = ⟨qc, .error err⟩ := by
  rw [Core.hydrateLoop]
  simp only [hfail]

theorem hydration_hydrateLoop_parser_error (d : Defaults) (now : Int)
    (p : String → Except JSError JSValue) (h : String) (dq : JSValue)
    (post : List (String × JSValue)) (qc : QueryCache) (queue : List String) (err : JSError)
    (hfail : p h = .error err) :
    Hydration.hydrateLoop d now p ((h, dq) :: post) qc queue = ⟨qc, .error err⟩ := by
  rw [Hydration.hydrateLoop]
  simp only [hfail]

/-! ## The recorded calls -/

theorem initializeQueriesTraced_fst (isServer : Bool) (now : Int) (queue : List String) :
    ∀ qc : QueryCache,
      (initializeQueriesTraced isServer now queue qc).1 = initializeQueries isServer now queue qc := by
  induction queue with
  | nil => intro qc; rfl
  | cons h queue ih =>
    intro qc
    rw [initializeQueriesTraced, initializeQueries]
    cases objGet qc.queries h with
    | none => exact ih qc
    | some q =>
      cases isServer with
      | true => exact ih qc
      | false => exact ih _

theorem initializeQueries_queue (isServer : Bool) (now : Int) (queue : List String) :
    ∀ qc : QueryCache, (initializeQueries isServer now queue qc).2 = [] := by
  induction queue with
  | nil => intro qc; rfl
  | cons h queue ih =>
    intro qc
    rw [initializeQueries]
    cases objGet qc.queries h with
    | none => exact ih qc
    | some q =>
      cases isServer with
      | true => exact ih qc
      | false => exact ih _

theorem initializeQueriesTraced_sublist (isServer : Bool) (now : Int) (queue : List String) :
    ∀ qc : QueryCache,
      (initializeQueriesTraced isServer now queue qc).2.Sublist
        (queue.map CacheCall.initializeQuery) := by
  induction queue with
  | nil => intro qc; exact List.Sublist.refl _
  | cons h queue ih =>
    intro qc
    rw [initializeQueriesTraced]
    cases objGet qc.queries h with
    | none => exact (ih qc).cons _
    | some q =>
      cases isServer with
      | true => exact (ih qc).cons _
      | false => exact (ih _).cons₂ _

theorem objGet_isSome_objSet {α : Type} (fs : List (String × α)) (k : String) (v w : α)
    (h : String) (hk : objGet fs k = some w) :
    (objGet (objSet fs k v) h).isSome = (objGet fs h).isSome := by
  rw [objGet_objSet]
  by_cases hh : k = h
  · subst hh
    simp [hk]
  · simp [hh]

/-- On the client the initializer calls `initializeQuery` for the hashes of its list
that have a query in the cache, in the order of the list. -/
theorem initializeQueriesTraced_calls (now : Int) (queue : List String) :
    ∀ qc : QueryCache,
      (initializeQueriesTraced false now queue qc).2
        = (queue.filter (fun h => (objGet qc.queries h).isSome)).map
            CacheCall.initializeQuery := by
  induction queue with
  | nil => intro qc; rfl
  | cons h queue ih =>
    intro qc
    rw [initializeQueriesTraced]
    cases hq : objGet qc.queries h with
    | none =>
      simp only [List.filter_cons, hq, Option.isSome_none, Bool.false_eq_true, if_false]
      exact ih qc
    | some q =>
      simp only [Bool.not_false, if_true, List.filter_cons, hq, Option.isSome_some,
        List.map_cons]
      rw [ih]
      congr 2
      apply List.filter_congr
      intro x _
      exact objGet_isSome_objSet qc.queries h _ q x hq

theorem initializeQueriesTraced_server (now : Int) (queue : List String) :
    ∀ qc : QueryCache, initializeQueriesTraced true now queue qc = ((qc, []), []) := by
  induction queue with
  | nil => intro qc; rfl
  | cons h queue ih =>
    intro qc
    rw [initializeQueriesTraced]
    cases objGet qc.queries h with
    | none => exact ih qc
    | some q => exact ih qc

theorem core_hydrateLoopTraced_fst (d : Defaults) (now : Int)
    (p : String → Except JSError JSValue) (l : List (String × JSValue)) :
    ∀ (qc : QueryCache) (queue : List String),
      (Core.hydrateLoopTraced d now p l qc queue).1 = Core.hydrateLoop d now p l qc queue := by
  induction l with
  | nil => intro qc queue; rfl
  | cons e l ih =>
    intro qc queue
    obtain ⟨h, dq⟩ := e
    rw [Core.hydrateLoopTraced, Core.hydrateLoop]
    cases p h with
    | error err => rfl
    | ok k =>
      simp only
      cases hc : createQuery d now qc k (orEmptyObject dq) with
      | mk qc1 res =>
        cases res with
        | error err => rfl
        | ok q => exact ih _ _

theorem hydration_hydrateLoopTraced_fst (d : Defaults) (now : Int)
    (p : String → Except JSError JSValue) (l : List (String × JSValue)) :
    ∀ (qc : QueryCache) (queue : List String),
      (Hydration.hydrateLoopTraced d now p l qc queue).1
        = Hydration.hydrateLoop d now p l qc queue := by
  induction l with
  | nil => intro qc queue; rfl
  | cons e l ih =>
    intro qc queue
    obtain ⟨h, dq⟩ := e
    rw [Hydration.hydrateLoopTraced, Hydration.hydrateLoop]
    cases p h with
    | error err => rfl
    | ok k =>
      simp only
      cases getProp dq "config" with
      | error err => rfl
      | ok cfg =>
        simp only
        cases hc : createQuery d now qc k (orEmptyObject cfg) with
        | mk qc1 res =>
          cases res with
          | error err => rfl
          | ok q =>
            simp only
            cases getProp dq "updatedAt" with
            | error err => rfl
            | ok u =>
              simp only
              cases Hydration.setUpdatedAt qc1 h u with
              | error err => rfl
              | ok qc2 => exact ih _ _

theorem core_hydrateLoop_result (d : Defaults) (now : Int)
    (p : String → Except JSError JSValue) (l : List (String × JSValue)) :
    ∀ (qc : QueryCache) (queue q : List String),
      (Core.hydrateLoop d now p l qc queue).result = .ok q → q = queue ++ l.map Prod.fst := by
  induction l with
  | nil =>
    intro qc queue q h
    simp only [Core.hydrateLoop, Except.ok.injEq] at h
    simp [h]
  | cons e l ih =>
    intro qc queue q h
    rcases core_hydrateLoop_cons_cases d now p e qc with ⟨err, herr⟩ | ⟨qc1, hstep, -, -⟩
    · rw [herr] at h; cases h
    · rw [hstep] at h
      rw [ih qc1 _ q h]
      simp

theorem hydration_hydrateLoop_result (d : Defaults) (now : Int)
    (p : String → Except JSError JSValue) (l : List (String × JSValue)) :
    ∀ (qc : QueryCache) (queue q : List String),
      (Hydration.hydrateLoop d now p l qc queue).result = .ok q →
        q = queue ++ l.map Prod.fst := by
  induction l with
  | nil =>
    intro qc queue q h
    simp only [Hydration.hydrateLoop, Except.ok.injEq] at h
    simp [h]
  | cons e l ih =>
    intro qc queue q h
    rcases hydration_hydrateLoop_cons_cases d now p e qc with
      ⟨err, qc1, herr, -, -, -⟩ | ⟨qc2, hstep, -, -, -⟩
    · rw [herr] at h; cases h
    · rw [hstep] at h
      rw [ih qc2 _ q h]
      simp

/-- The calls that the loop records are the calls of `createQuery` for the entries
of the snapshot, one after the other up to the entry at which the loop stops. -/
theorem core_hydrateLoopTraced_calls (d : Defaults) (now : Int)
    (p : String → Except JSError JSValue) (l : List (String × JSValue)) :
    ∀ (qc : QueryCache) (queue : List String),
      (Core.hydrateLoopTraced d now p l qc queue).2
          <+: l.map (fun e => CacheCall.createQuery (parsedWith p e.1) (orEmptyObject e.2))
        ∧ (∀ q, (Core.hydrateLoopTraced d now p l qc queue).1.result = .ok q →
            (Core.hydrateLoopTraced d now p l qc queue).2
              = l.map (fun e => CacheCall.createQuery (parsedWith p e.1)
                  (orEmptyObject e.2))) := by
  induction l with
  | nil => intro qc queue; exact ⟨List.prefix_refl _, fun _ _ => rfl⟩
  | cons e l ih =>
    intro qc queue
    obtain ⟨h, dq⟩ := e
    rw [Core.hydrateLoopTraced]
    cases hp : p h with
    | error err => exact ⟨List.nil_prefix, fun q hq => by cases hq⟩
    | ok k =>
      have hk : parsedWith p h = k := by simp [parsedWith, hp]
      simp only [List.map_cons, hk]
      cases hc : createQuery d now qc k (orEmptyObject dq) with
      | mk qc1 res =>
        cases res with
        | error err =>
          refine ⟨?_, fun q hq => by cases hq⟩
          exact (List.prefix_cons_inj _).2 List.nil_prefix
        | ok q0 =>
          obtain ⟨hpre, hall⟩ := ih qc1 (queue ++ [h])
          exact ⟨(List.prefix_cons_inj _).2 hpre,
            fun q hq => congrArg (List.cons _) (hall q hq)⟩

theorem hydration_hydrateLoopTraced_calls (d : Defaults) (now : Int)
    (p : String → Except JSError JSValue) (l : List (String × JSValue)) :
    ∀ (qc : QueryCache) (queue : List String),
      (Hydration.hydrateLoopTraced d now p l qc queue).2
          <+: l.map (fun e => CacheCall.createQuery (parsedWith p e.1)
                (orEmptyObject (propOrUndefined e.2 "config")))
        ∧ (∀ q, (Hydration.hydrateLoopTraced d now p l qc queue).1.result = .ok q →
            (Hydration.hydrateLoopTraced d now p l qc queue).2
              = l.map (fun e => CacheCall.createQuery (parsedWith p e.1)
                  (orEmptyObject (propOrUndefined e.2 "config")))) := by
  induction l with
  | nil => intro qc queue; exact ⟨List.prefix_refl _, fun _ _ => rfl⟩
  | cons e l ih =>
    intro qc queue
    obtain ⟨h, dq⟩ := e
    rw [Hydration.hydrateLoopTraced]
    cases hp : p h with
    | error err => exact ⟨List.nil_prefix, fun q hq => by cases hq⟩
    | ok k =>
      have hk : parsedWith p h = k := by simp [parsedWith, hp]
      simp only [List.map_cons, hk]
      cases hcfg : getProp dq "config" with
      | error err => exact ⟨List.nil_prefix, fun q hq => by cases hq⟩
      | ok cfg =>
        have hcfg' : propOrUndefined dq "config" = cfg := by simp [propOrUndefined, hcfg]
        simp only [hcfg']
        cases hc : createQuery d now qc k (orEmptyObject cfg) with
        | mk qc1 res =>
          cases res with
          | error err =>
            exact ⟨(List.prefix_cons_inj _).2 List.nil_prefix, fun q hq => by cases hq⟩
          | ok q0 =>
            simp only
            cases getProp dq "updatedAt" with
            | error err =>
              exact ⟨(List.prefix_cons_inj _).2 List.nil_prefix, fun q hq => by cases hq⟩
            | ok u =>
              simp only
              cases Hydration.setUpdatedAt qc1 h u with
              | error err =>
                exact ⟨(List.prefix_cons_inj _).2 List.nil_prefix, fun q hq => by cases hq⟩
              | ok qc2 =>
                obtain ⟨hpre, hall⟩ := ih qc2 (queue ++ [h])
                exact ⟨(List.prefix_cons_inj _).2 hpre,
            fun q hq => congrArg (List.cons _) (hall q hq)⟩

/-! ## What `hydrate` does to the timers -/

theorem onlyAddsUnarmed_refl (qc : QueryCache) : OnlyAddsUnarmed qc qc :=
  fun _ _ hq => Or.inl hq

theorem onlyAddsUnarmed_trans {a b c : QueryCache} (hab : OnlyAddsUnarmed a b)
    (hbc : OnlyAddsUnarmed b c) (hext : Extends a b) : OnlyAddsUnarmed a c := by
  intro h q hq
  rcases hbc h q hq with hb | ⟨hb, ht⟩
  · exact hab h q hb
  · right
    refine ⟨?_, ht⟩
    cases ha : objGet a.queries h with
    | none => rfl
    | some q0 =>
      have := hext h (by rw [ha]; rfl)
      rw [hb] at this
      cases this

theorem createQuery_onlyAddsUnarmed (d : Defaults) (now : Int) (qc : QueryCache)
    (k cfg : JSValue) : OnlyAddsUnarmed qc (createQuery d now qc k cfg).1 := by
  rcases createQuery_dichotomy k with ⟨h1, c, hres⟩ | ⟨err, herr⟩
  · intro h q hq
    rw [(createQuery_spec d now qc k cfg h1 c hres).2 h] at hq
    cases ho : objGet qc.queries h with
    | some q0 =>
      rw [ho] at hq
      left
      exact hq
    | none =>
      rw [ho] at hq
      right
      refine ⟨rfl, ?_⟩
      by_cases hh : h1 = h
      · simp only [Option.orElse, hh, if_true, Option.some.injEq] at hq
        subst hq
        exact ⟨rfl, rfl⟩
      · simp [Option.orElse, hh] at hq
  · rw [herr]
    exact onlyAddsUnarmed_refl qc

theorem core_hydrateLoop_onlyAddsUnarmed (d : Defaults) (now : Int)
    (p : String → Except JSError JSValue) (l : List (String × JSValue)) :
    ∀ (qc : QueryCache) (queue : List String),
      OnlyAddsUnarmed qc (Core.hydrateLoop d now p l qc queue).queryCache
        ∧ Extends qc (Core.hydrateLoop d now p l qc queue).queryCache := by
  induction l with
  | nil => intro qc queue; exact ⟨onlyAddsUnarmed_refl qc, fun _ hs => hs⟩
  | cons e l ih =>
    intro qc queue
    obtain ⟨h, dq⟩ := e
    rw [Core.hydrateLoop]
    cases hp : p h with
    | error err => exact ⟨onlyAddsUnarmed_refl qc, fun _ hs => hs⟩
    | ok k =>
      dsimp only
      have h1 := createQuery_onlyAddsUnarmed d now qc k (orEmptyObject dq)
      have h2 := createQuery_extends d now qc k (orEmptyObject dq)
      cases hc : createQuery d now qc k (orEmptyObject dq) with
      | mk qc1 res =>
        rw [hc] at h1 h2
        dsimp only at h1 h2
        cases res with
        | error err => exact ⟨h1, h2⟩
        | ok q0 =>
          obtain ⟨h3, h4⟩ := ih qc1 (queue ++ [h])
          exact ⟨onlyAddsUnarmed_trans h1 h3 h2, extends_trans h2 h4⟩

theorem initializeQuery_injective : Function.Injective CacheCall.initializeQuery :=
  fun _ _ h => CacheCall.initializeQuery.inj h

/-! ## Properties of the key serializer -/

/-- C2: two keys that are structurally equal up to the order of the properties of
their objects, at any depth, get the same result from `defaultQueryKeySerializerFn`,
in particular the same `queryHash`. -/
theorem serializer_respects_key_equivalence (a b : JSValue) (hwf : a.wellFormed = true)
    (h : KeyEquiv a b) : defaultQueryKeySerializerFn a = defaultQueryKeySerializerFn b :=
  defaultQueryKeySerializerFn_congr ((keyEquiv_sortFields_eq h).2 hwf)

theorem serializer_respects_key_equivalence_witness :
    (JSValue.arr [.str "string", .obj [("key", .arr [.str "string"]), ("key2", .num 0)]]).wellFormed
        = true
      ∧ KeyEquiv
          (JSValue.arr [.str "string", .obj [("key", .arr [.str "string"]), ("key2", .num 0)]])
          (JSValue.arr [.str "string", .obj [("key2", .num 0), ("key", .arr [.str "string"])]])
      ∧ defaultQueryKeySerializerFn
            (JSValue.arr [.str "string", .obj [("key", .arr [.str "string"]), ("key2", .num 0)]])
          = defaultQueryKeySerializerFn
            (JSValue.arr [.str "string", .obj [("key2", .num 0), ("key", .arr [.str "string"])]]) :=
  ⟨rfl, KeyEquiv.element [.str "string"] [] (KeyEquiv.reorder (List.Perm.swap _ _ [])),
    serializer_respects_key_equivalence _ _ rfl
      (KeyEquiv.element [.str "string"] [] (KeyEquiv.reorder (List.Perm.swap _ _ [])))⟩

/-- C3: the default key parser `JSON.parse` inverts the default hash serialization:
where `defaultQueryKeySerializerFn` returns `[hash, canonical]`, `JSON.parse(hash)`
is `canonical`, and the serializer returns the same hash and the same canonical key
for `JSON.parse(hash)`. -/
theorem keyParser_inverts_serialization (key : JSValue) (queryHash : String)
    (canonical : JSValue) (hwf : key.wellFormed = true)
    (hres : defaultQueryKeySerializerFn key = .ok (.arr [.str queryHash, canonical])) :
    JSONparse queryHash = .ok canonical
      ∧ defaultQueryKeySerializerFn canonical = .ok (.arr [.str queryHash, canonical]) :=
  ⟨(serializer_pair_inv hres).2.2.2.1, (serializer_canonical hwf hres).2⟩

theorem keyParser_inverts_serialization_witness :
    (JSValue.arr [.str "string", .obj [("key2", .num 0), ("key", .arr [.str "string"])]]).wellFormed
        = true
      ∧ defaultQueryKeySerializerFn
          (JSValue.arr [.str "string", .obj [("key2", .num 0), ("key", .arr [.str "string"])]])
        = .ok (.arr [.str "[\"string\",\x7b\"key\":[\"string\"],\"key2\":0\x7d]",
            .arr [.str "string", .obj [("key", .arr [.str "string"]), ("key2", .num 0)]]])
      ∧ JSONparse "[\"string\",\x7b\"key\":[\"string\"],\"key2\":0\x7d]"
        = .ok (.arr [.str "string", .obj [("key", .arr [.str "string"]), ("key2", .num 0)]])
      ∧ defaultQueryKeySerializerFn
          (.arr [.str "string", .obj [("key", .arr [.str "string"]), ("key2", .num 0)]])
        = .ok (.arr [.str "[\"string\",\x7b\"key\":[\"string\"],\"key2\":0\x7d]",
            .arr [.str "string", .obj [("key", .arr [.str "string"]), ("key2", .num 0)]]]) :=
  ⟨rfl, rfl,
    keyParser_inverts_serialization
      (JSValue.arr [.str "string", .obj [("key2", .num 0), ("key", .arr [.str "string"])]])
      _ _ rfl rfl⟩

/-- C8, as stated, fails: a key with a function inside a nested array and as the
value of a property of a nested object is not rejected; the serializer returns a
hash in which the one function is `null` and the other is left out. -/
theorem nested_function_is_not_rejected :
    defaultQueryKeySerializerFn
        (.arr [.str "todos", .arr [.func 0], .obj [("filter", .func 1)]])
      = .ok (.arr [.str "[\"todos\",[null],\x7b\x7d]",
          .arr [.str "todos", .arr [.null], .obj []]]) :=
  rfl

/-- C8, amended: `defaultQueryKeySerializerFn` fails with the invalid-key error
exactly for the keys that are a function themselves or an array with a function
among its top-level elements. -/
theorem invalid_key_iff_top_level_function (key : JSValue) :
    defaultQueryKeySerializerFn key = .error invalidKeyError
      ↔ (key.isFunction = true ∨ ∃ xs, key = .arr xs ∧ ∃ x ∈ xs, x.isFunction = true) := by
  rw [defaultQueryKeySerializerFn_eq]
  have hwrap : (arrayElements (wrapKey key)).any JSValue.isFunction = true
      ↔ (key.isFunction = true ∨ ∃ xs, key = .arr xs ∧ ∃ x ∈ xs, x.isFunction = true) := by
    cases key <;> simp [wrapKey, JSValue.isArray, arrayElements, JSValue.isFunction]
  by_cases ht : key.truthy = true
  · by_cases hf : (arrayElements (wrapKey key)).any JSValue.isFunction = true
    · simp only [ht, hf, Bool.not_true, Bool.false_eq_true, if_false, if_true, true_iff]
      exact hwrap.1 hf
    · obtain ⟨qh, hqh⟩ := stableStringify_wrapKey key
      rw [← hwrap]
      simp only [ht, hf, hqh, Bool.not_true, Bool.false_eq_true, if_false, iff_false]
      cases hp : JSONparse qh with
      | error e =>
        have := JSONparse_error qh e hp
        subst this
        simp [invalidKeyError]
      | ok parsed =>
        by_cases he : qh = "" <;> simp [he]
  · have hnf : ¬ (key.isFunction = true ∨ ∃ xs, key = .arr xs ∧ ∃ x ∈ xs, x.isFunction = true) := by
      cases key <;> simp_all [JSValue.truthy, JSValue.isFunction]
    simp [ht, hnf]

/-! ## Properties of `dehydrate` -/

theorem core_dehydrate_eq (d : Defaults) (qc : QueryCache)
    (hnd : (qc.queries.map Prod.fst).Nodup) :
    Core.dehydrate d qc
      = .obj ((qc.queries.filter (fun e => decide (e.2.state.status = Status.success))).map
          (fun e => (e.1, Core.dehydrateQuery d e.2))) := by
  unfold Core.dehydrate
  rw [foldl_objSet_filter (fun q : Query => q.state.status = Status.success)
    (Core.dehydrateQuery d) qc.queries [] (by simpa using hnd)]
  simp

theorem hydration_dehydrate_eq (qc : QueryCache) (hnd : (qc.queries.map Prod.fst).Nodup) :
    Hydration.dehydrate qc
      = .obj ((qc.queries.filter (fun e => decide (e.2.state.status = Status.success))).map
          (fun e => (e.1, Hydration.dehydrateQuery e.2))) := by
  unfold Hydration.dehydrate
  rw [foldl_objSet_filter (fun q : Query => q.state.status = Status.success)
    Hydration.dehydrateQuery qc.queries [] (by simpa using hnd)]
  simp

theorem selected_keys_nodup {α β : Type} (l : List (String × α)) (p : String × α → Bool)
    (f : α → β) (hnd : (l.map Prod.fst).Nodup) :
    (((l.filter p).map (fun e => (e.1, f e.2))).map Prod.fst).Nodup := by
  rw [List.map_map]
  have : (Prod.fst ∘ fun e : String × α => (e.1, f e.2)) = Prod.fst := rfl
  rw [this]
  exact hnd.sublist ((List.filter_sublist l).map Prod.fst)

/-- C4: the hashes in the mapping that `dehydrate` returns are exactly the hashes of
the queries of the cache whose status is success, in both files; a hash whose query
is idle, loading or in error is not among them. -/
theorem dehydrate_keys_are_success_hashes (d : Defaults) (queryCache : QueryCache)
    (queryHash : String) :
    (queryHash ∈ objectKeys (Core.dehydrate d queryCache)
        ↔ ∃ query, (queryHash, query) ∈ queryCache.queries
            ∧ query.state.status = Status.success)
      ∧ (queryHash ∈ objectKeys (Hydration.dehydrate queryCache)
        ↔ ∃ query, (queryHash, query) ∈ queryCache.queries
            ∧ query.state.status = Status.success) := by
  constructor
  · simp only [Core.dehydrate, objectKeys]
    rw [mem_keys_foldl_objSet (fun q : Query => q.state.status = Status.success)]
    simp
  · simp only [Hydration.dehydrate, objectKeys]
    rw [mem_keys_foldl_objSet (fun q : Query => q.state.status = Status.success)]
    simp

/-- C9: the dehydrated query carries `staleTime` exactly when the configured
`staleTime` of the query differs from the default, and then it is the configured
value; the same holds for `cacheTime`.  In `src/core/hydration.js` the default is
the current process default and the fields are at the top level; in
`src/hydration/hydration.js` it is the built-in default and the fields are in
`config`. -/
theorem dehydrateQuery_times (d : Defaults) (query : Query) :
    ownProp (Core.dehydrateQuery d query) "staleTime"
        = (if query.config.staleTime ≠ d.staleTime
            then some (JSValue.num query.config.staleTime) else none)
      ∧ ownProp (Core.dehydrateQuery d query) "cacheTime"
        = (if query.config.cacheTime ≠ d.cacheTime
            then some (JSValue.num query.config.cacheTime) else none)
      ∧ (ownProp (Hydration.dehydrateQuery query) "config").bind (ownProp · "staleTime")
        = (if query.config.staleTime ≠ DEFAULT_STALE_TIME
            then some (JSValue.num query.config.staleTime) else none)
      ∧ (ownProp (Hydration.dehydrateQuery query) "config").bind (ownProp · "cacheTime")
        = (if query.config.cacheTime ≠ DEFAULT_CACHE_TIME
            then some (JSValue.num query.config.cacheTime) else none) := by
  refine ⟨?_, ?_, ?_, ?_⟩
  · unfold Core.dehydrateQuery
    split_ifs <;> simp_all [ownProp, objSet, objGet]
  · unfold Core.dehydrateQuery
    split_ifs <;> simp_all [ownProp, objSet, objGet]
  · unfold Hydration.dehydrateQuery
    split_ifs <;> simp_all [ownProp, objSet, objGet]
  · unfold Hydration.dehydrateQuery
    split_ifs <;> simp_all [ownProp, objSet, objGet]

theorem core_dehydrateQuery_initialData (d : Defaults) (query : Query) :
    ownProp (Core.dehydrateQuery d query) "initialData"
      = if query.state.data.isUndefined = true then none else some query.state.data := by
  unfold Core.dehydrateQuery
  split_ifs <;> simp_all [ownProp, objSet, objGet]

theorem hydration_dehydrateQuery_initialData (query : Query) :
    (ownProp (Hydration.dehydrateQuery query) "config").bind (ownProp · "initialData")
      = if query.state.data.isUndefined = true then none else some query.state.data := by
  unfold Hydration.dehydrateQuery
  split_ifs <;> simp_all [ownProp, objSet, objGet]

/-- C10: for every success query of a cache, the entry that `dehydrate` makes for its
hash has `initialData` equal to the data of the query, `null` included, and has no
`initialData` only when the data is `undefined`; in `src/core/hydration.js` the
field is at the top level of the entry, in `src/hydration/hydration.js` in its
`config`. -/
theorem dehydrate_initialData (d : Defaults) (queryCache : QueryCache) (queryHash : String)
    (query : Query) (hnd : (queryCache.queries.map Prod.fst).Nodup)
    (hmem : (queryHash, query) ∈ queryCache.queries)
    (hsuccess : query.state.status = Status.success) :
    (ownProp (Core.dehydrate d queryCache) queryHash).bind (ownProp · "initialData")
        = (if query.state.data.isUndefined = true then none else some query.state.data)
      ∧ ((ownProp (Hydration.dehydrate queryCache) queryHash).bind (ownProp · "config")).bind
          (ownProp · "initialData")
        = (if query.state.data.isUndefined = true then none else some query.state.data) := by
  have hin : (queryHash, query)
      ∈ queryCache.queries.filter (fun e => decide (e.2.state.status = Status.success)) :=
    List.mem_filter.2 ⟨hmem, by simp [hsuccess]⟩
  constructor
  · have hget : ownProp (Core.dehydrate d queryCache) queryHash
        = some (Core.dehydrateQuery d query) := by
      rw [core_dehydrate_eq d queryCache hnd]
      exact objGet_of_mem _ _ _ (selected_keys_nodup _ _ _ hnd)
        (List.mem_map.2 ⟨(queryHash, query), hin, rfl⟩)
    rw [hget]
    exact core_dehydrateQuery_initialData d query
  · have hget : ownProp (Hydration.dehydrate queryCache) queryHash
        = some (Hydration.dehydrateQuery query) := by
      rw [hydration_dehydrate_eq queryCache hnd]
      exact objGet_of_mem _ _ _ (selected_keys_nodup _ _ _ hnd)
        (List.mem_map.2 ⟨(queryHash, query), hin, rfl⟩)
    rw [hget]
    exact hydration_dehydrateQuery_initialData query

theorem dehydrate_initialData_witness :
    (sampleCache.queries.map Prod.fst).Nodup
      ∧ ("[\"null\"]", sampleQuery "null" .success .null 50 (.num 110)) ∈ sampleCache.queries
      ∧ (sampleQuery "null" .success .null 50 (.num 110)).state.status = Status.success
      ∧ (ownProp (Core.dehydrate DEFAULT_CONFIG sampleCache) "[\"null\"]").bind
          (ownProp · "initialData") = some JSValue.null
      ∧ ((ownProp (Hydration.dehydrate sampleCache) "[\"null\"]").bind
          (ownProp · "config")).bind (ownProp · "initialData") = some JSValue.null :=
  have hnd : (sampleCache.queries.map Prod.fst).Nodup := by decide
  have hmem : ("[\"null\"]", sampleQuery "null" .success .null 50 (.num 110))
      ∈ sampleCache.queries := by
    simp [sampleCache]
  ⟨hnd, hmem, rfl,
    dehydrate_initialData DEFAULT_CONFIG sampleCache "[\"null\"]"
      (sampleQuery "null" .success .null 50 (.num 110)) hnd hmem rfl⟩

/-! ## Round trip of a cache -/

theorem unserialisable_dehydrateQuery (query : Query) :
    (Hydration.dehydrateQuery query).unserialisable = false
      ∧ ∃ fs, jsonClean (Hydration.dehydrateQuery query) = .obj fs := by
  obtain ⟨config, heq, -, -, -⟩ := hydration_dehydrateQuery_eq query
  rw [heq]
  exact ⟨rfl, _, rfl⟩

/-- C1: for a cache whose success queries hold JSON data, `dehydrate`, then
`JSON.stringify`, then `JSON.parse`, then `hydrate` into a fresh cache, then the
initializer, all succeed and give a cache in which looking up each key of a success
query returns a query whose data is the data of the original query. -/
theorem dehydrate_hydrate_roundtrip (d : Defaults) (now later : Int) (isServer : Bool)
    (source : QueryCache) (hnd : (source.queries.map Prod.fst).Nodup)
    (hhash : ∀ e ∈ source.queries, e.2.state.status = Status.success → IsDefaultHash e.1)
    (hdata : ∀ e ∈ source.queries, e.2.state.status = Status.success →
      e.2.state.data.isJSON = true ∧ e.2.state.data.wellFormed = true
        ∧ e.2.state.updatedAt.wellFormed = true) :
    ∃ text parsed queriesToInit,
      JSONstringify (Hydration.dehydrate source) = some text
      ∧ JSONparse text = .ok parsed
      ∧ (Hydration.hydrate d now ⟨[]⟩ parsed JSONparse).result = .ok queriesToInit
      ∧ ∀ key queryHash canonical query,
          defaultQueryKeySerializerFn key = .ok (.arr [.str queryHash, canonical]) →
          (queryHash, query) ∈ source.queries →
          query.state.status = Status.success →
          ∃ hydrated,
            getQuery (initializeQueries isServer later queriesToInit
                (Hydration.hydrate d now ⟨[]⟩ parsed JSONparse).queryCache).1 key
              = some hydrated
            ∧ hydrated.state.data = query.state.data := by
  have hsnap := hydration_dehydrate_eq source hnd
  set F := (source.queries.filter (fun e => decide (e.2.state.status = Status.success))).map
    (fun e => (e.1, Hydration.dehydrateQuery e.2)) with hF
  have hFnd : (F.map Prod.fst).Nodup := selected_keys_nodup _ _ _ hnd
  have hFmem : ∀ p ∈ F, ∃ q, (p.1, q) ∈ source.queries ∧ q.state.status = Status.success
      ∧ p.2 = Hydration.dehydrateQuery q := by
    intro p hp
    obtain ⟨e, he, rfl⟩ := List.mem_map.1 hp
    obtain ⟨hmem, hs⟩ := List.mem_filter.1 he
    exact ⟨e.2, hmem, by simpa using hs, rfl⟩
  have hwf : (JSValue.obj F).wellFormed = true := by
    rw [wellFormed_obj_iff]
    refine ⟨hFnd, fun p hp => ?_⟩
    obtain ⟨q, hq, hs, hpq⟩ := hFmem p hp
    rw [hpq]
    have := hdata (p.1, q) hq hs
    exact hydration_dehydrateQuery_wellFormed q this.2.1 this.2.2
  obtain ⟨text, htext⟩ : ∃ text, JSONstringify (JSValue.obj F) = some text := ⟨_, rfl⟩
  have hparse := JSONparse_JSONstringify (.obj F) text hwf htext
  have hclean : jsonClean (.obj F) = .obj (cleanMembers F) := rfl
  rw [hclean] at hparse
  have hhyd : Hydration.hydrate d now ⟨[]⟩ (.obj (cleanMembers F)) JSONparse
      = Hydration.hydrateLoop d now JSONparse (cleanMembers F) ⟨[]⟩ [] := rfl
  have hEnd : ((cleanMembers F).map Prod.fst).Nodup :=
    hFnd.sublist (cleanMembers_keys_sublist F)
  have hgood : ∀ e ∈ cleanMembers F, (∃ canon, CanonicalHash e.1 canon) ∧ ∃ fs, e.2 = .obj fs := by
    intro e he
    obtain ⟨v, hv, -, hev⟩ := (mem_cleanMembers F e).1 he
    obtain ⟨q, hq, hs, hpq⟩ := hFmem (e.1, v) hv
    simp only at hpq
    refine ⟨canonicalHash_of_isDefaultHash (hhash (e.1, q) hq hs), ?_⟩
    rw [hev, hpq]
    exact (unserialisable_dehydrateQuery q).2
  obtain ⟨hres, hall⟩ := hydration_hydrateLoop_spec d now (cleanMembers F) ⟨[]⟩ [] hEnd hgood
  refine ⟨text, .obj (cleanMembers F), _, by rw [hsnap]; exact htext, hparse,
    by rw [hhyd]; exact hres, ?_⟩
  intro key queryHash canonical query hkey hmem hs
  have hin : (queryHash, jsonClean (Hydration.dehydrateQuery query)) ∈ cleanMembers F := by
    rw [mem_cleanMembers]
    refine ⟨Hydration.dehydrateQuery query, ?_, (unserialisable_dehydrateQuery query).1, rfl⟩
    exact List.mem_map.2 ⟨(queryHash, query), List.mem_filter.2 ⟨hmem, by simp [hs]⟩, rfl⟩
  have hget := objGet_of_mem _ _ _ hEnd hin
  have hq := hall queryHash
  rw [hget] at hq
  simp only [objGet, Option.getD_none] at hq
  have hstate := initializeQueries_state isServer later ([] ++ (cleanMembers F).map Prod.fst)
    (Hydration.hydrateLoop d now JSONparse (cleanMembers F) ⟨[]⟩ []).queryCache queryHash
  rw [hq] at hstate
  rw [hhyd]
  have hgq : ∀ qc : QueryCache, getQuery qc key = objGet qc.queries queryHash := by
    intro qc
    simp only [getQuery, hkey]
  rw [hgq]
  cases hfin : objGet (initializeQueries isServer later ([] ++ (cleanMembers F).map Prod.fst)
      (Hydration.hydrateLoop d now JSONparse (cleanMembers F) ⟨[]⟩ []).queryCache).1.queries
      queryHash with
  | none => rw [hfin] at hstate; simp at hstate
  | some hydrated =>
    rw [hfin] at hstate
    simp only [Option.map_some', Option.some.injEq] at hstate
    refine ⟨hydrated, rfl, ?_⟩
    rw [hstate]
    exact hydration_hydrated_data d now queryHash (parsedKey queryHash) query
      (hdata (queryHash, query) hmem hs).1

theorem dehydrate_hydrate_roundtrip_witness :
    (sampleCache.queries.map Prod.fst).Nodup
      ∧ (∀ e ∈ sampleCache.queries, e.2.state.status = Status.success → IsDefaultHash e.1)
      ∧ (∀ e ∈ sampleCache.queries, e.2.state.status = Status.success →
          e.2.state.data.isJSON = true ∧ e.2.state.data.wellFormed = true
            ∧ e.2.state.updatedAt.wellFormed = true)
      ∧ ∃ text parsed queriesToInit,
          JSONstringify (Hydration.dehydrate sampleCache) = some text
          ∧ JSONparse text = .ok parsed
          ∧ (Hydration.hydrate DEFAULT_CONFIG 300 ⟨[]⟩ parsed JSONparse).result
              = .ok queriesToInit
          ∧ ∀ key queryHash canonical query,
              defaultQueryKeySerializerFn key = .ok (.arr [.str queryHash, canonical]) →
              (queryHash, query) ∈ sampleCache.queries →
              query.state.status = Status.success →
              ∃ hydrated,
                getQuery (initializeQueries false 310 queriesToInit
                    (Hydration.hydrate DEFAULT_CONFIG 300 ⟨[]⟩ parsed JSONparse).queryCache).1
                    key = some hydrated
                ∧ hydrated.state.data = query.state.data :=
  have hnd : (sampleCache.queries.map Prod.fst).Nodup := by decide
  have hhash : ∀ e ∈ sampleCache.queries, e.2.state.status = Status.success →
      IsDefaultHash e.1 := by
    intro e he hs
    simp only [sampleCache, List.mem_cons, List.mem_singleton, List.not_mem_nil,
      or_false] at he
    rcases he with rfl | rfl | rfl | rfl
    · exact ⟨.str "string", _, rfl, rfl⟩
    · exact ⟨.str "null", _, rfl, rfl⟩
    · exact ⟨.str "nested", _, rfl, rfl⟩
    · exact ⟨.str "failed", _, rfl, rfl⟩
  have hdata : ∀ e ∈ sampleCache.queries, e.2.state.status = Status.success →
      e.2.state.data.isJSON = true ∧ e.2.state.data.wellFormed = true
        ∧ e.2.state.updatedAt.wellFormed = true := by
    intro e he hs
    simp only [sampleCache, List.mem_cons, List.mem_singleton, List.not_mem_nil,
      or_false] at he
    rcases he with rfl | rfl | rfl | rfl
    · exact ⟨rfl, rfl, rfl⟩
    · exact ⟨rfl, rfl, rfl⟩
    · exact ⟨rfl, rfl, rfl⟩
    · cases hs
  ⟨hnd, hhash, hdata,
    dehydrate_hydrate_roundtrip DEFAULT_CONFIG 300 310 false sampleCache hnd hhash hdata⟩

/-! ## Hydrating into a cache that already has queries -/

theorem newQuery_data (d : Defaults) (now : Int) (h : String) (k dq : JSValue) :
    (newQuery d now h k (orEmptyObject dq)).state.data = propOrUndefined dq "initialData" := by
  cases dq with
  | bool b => cases b <;> rfl
  | num n =>
    by_cases hn : n = 0
    · subst hn; rfl
    · simp [newQuery, orEmptyObject, JSValue.truthy, hn, getProp, propOrUndefined]
  | str s =>
    by_cases hs : s = ""
    · subst hs; rfl
    · simp [newQuery, orEmptyObject, JSValue.truthy, hs, getProp, propOrUndefined]
  | _ => rfl

/-- C5: `hydrate` of `src/core/hydration.js` and the initializer it returns leave the
data of a query that the cache already holds at a hash of the snapshot as it is, and
a hash of the snapshot without a query in the cache gets a query that holds the
`initialData` of the snapshot. -/
theorem hydrate_keeps_existing_data (d : Defaults) (now later : Int) (isServer : Bool)
    (queryCache : QueryCache) (entries : List (String × JSValue))
    (hnd : (entries.map Prod.fst).Nodup) (hhash : ∀ e ∈ entries, IsDefaultHash e.1) :
    ∃ queriesToInit,
      (Core.hydrate d now queryCache (.obj entries) JSONparse).result = .ok queriesToInit
      ∧ ∀ queryHash dehydrated, (queryHash, dehydrated) ∈ entries →
          (∀ existing, objGet queryCache.queries queryHash = some existing →
            ∃ query,
              objGet (initializeQueries isServer later queriesToInit
                  (Core.hydrate d now queryCache (.obj entries) JSONparse).queryCache).1.queries
                  queryHash = some query
                ∧ query.state.data = existing.state.data)
          ∧ (objGet queryCache.queries queryHash = none →
            ∃ query,
              objGet (initializeQueries isServer later queriesToInit
                  (Core.hydrate d now queryCache (.obj entries) JSONparse).queryCache).1.queries
                  queryHash = some query
                ∧ query.state.data = propOrUndefined dehydrated "initialData") := by
  have hhyd : Core.hydrate d now queryCache (.obj entries) JSONparse
      = Core.hydrateLoop d now JSONparse entries queryCache [] := rfl
  obtain ⟨hres, hall⟩ := core_hydrateLoop_spec d now entries queryCache []
    (fun e he => canonicalHash_of_isDefaultHash (hhash e he))
  rw [hhyd]
  refine ⟨_, hres, ?_⟩
  intro queryHash dehydrated hmem
  have hstate := initializeQueries_state isServer later ([] ++ entries.map Prod.fst)
    (Core.hydrateLoop d now JSONparse entries queryCache []).queryCache queryHash
  rw [hall queryHash] at hstate
  constructor
  · intro existing hex
    rw [hex] at hstate
    cases hfin : objGet (initializeQueries isServer later ([] ++ entries.map Prod.fst)
        (Core.hydrateLoop d now JSONparse entries queryCache []).queryCache).1.queries
        queryHash with
    | none => rw [hfin] at hstate; simp at hstate
    | some query =>
      rw [hfin] at hstate
      simp only [Option.map_some', Option.orElse, Option.some.injEq] at hstate
      exact ⟨query, rfl, by rw [hstate]⟩
  · intro hnone
    rw [hnone, objGet_of_mem entries queryHash dehydrated hnd hmem] at hstate
    cases hfin : objGet (initializeQueries isServer later ([] ++ entries.map Prod.fst)
        (Core.hydrateLoop d now JSONparse entries queryCache []).queryCache).1.queries
        queryHash with
    | none => rw [hfin] at hstate; simp at hstate
    | some query =>
      rw [hfin] at hstate
      simp only [Option.map_some', Option.orElse, Option.some.injEq] at hstate
      exact ⟨query, rfl, by rw [hstate]; exact newQuery_data d now _ _ _⟩

theorem hydrate_keeps_existing_data_witness :
    (coreSnapshot.map Prod.fst).Nodup ∧ (∀ e ∈ coreSnapshot, IsDefaultHash e.1)
      ∧ ∃ queriesToInit,
        (Core.hydrate DEFAULT_CONFIG 300 clientCache (.obj coreSnapshot) JSONparse).result
          = .ok queriesToInit
        ∧ ∀ queryHash dehydrated, (queryHash, dehydrated) ∈ coreSnapshot →
            (∀ existing, objGet clientCache.queries queryHash = some existing →
              ∃ query,
                objGet (initializeQueries false 310 queriesToInit
                    (Core.hydrate DEFAULT_CONFIG 300 clientCache (.obj coreSnapshot)
                      JSONparse).queryCache).1.queries
                    queryHash = some query
                  ∧ query.state.data = existing.state.data)
            ∧ (objGet clientCache.queries queryHash = none →
              ∃ query,
                objGet (initializeQueries false 310 queriesToInit
                    (Core.hydrate DEFAULT_CONFIG 300 clientCache (.obj coreSnapshot)
                      JSONparse).queryCache).1.queries
                    queryHash = some query
                  ∧ query.state.data = propOrUndefined dehydrated "initialData") :=
  have hnd : (coreSnapshot.map Prod.fst).Nodup := by decide
  have hhash : ∀ e ∈ coreSnapshot, IsDefaultHash e.1 := by
    intro e he
    simp only [coreSnapshot, List.mem_cons, List.mem_singleton, List.not_mem_nil,
      or_false] at he
    rcases he with rfl | rfl
    · exact ⟨.str "string", _, rfl, rfl⟩
    · exact ⟨.str "added string", _, rfl, rfl⟩
  ⟨hnd, hhash, hydrate_keeps_existing_data DEFAULT_CONFIG 300 310 false clientCache
    coreSnapshot hnd hhash⟩

/-- C6, evaluated on a cache that holds newer data for the key `string`, updated at
time 200, and a snapshot taken at time 100: `hydrate` of
`src/hydration/hydration.js` keeps the data of the existing query and sets its
`updatedAt` back to 100, where `hydrate` of `src/core/hydration.js` leaves the query
as it is. -/
theorem hydrate_overwrites_updatedAt :
    (objGet clientCache.queries "[\"string\"]").map (fun q => (q.state.data, q.state.updatedAt))
        = some (.str "newer", .num 200)
      ∧ (objGet (Hydration.hydrate DEFAULT_CONFIG 300 clientCache hydrationSnapshot
            JSONparse).queryCache.queries "[\"string\"]").map
          (fun q => (q.state.data, q.state.updatedAt))
        = some (.str "newer", .num 100)
      ∧ (objGet (Core.hydrate DEFAULT_CONFIG 300 clientCache (.obj coreSnapshot)
            JSONparse).queryCache.queries "[\"string\"]").map
          (fun q => (q.state.data, q.state.updatedAt))
        = some (.str "newer", .num 200) :=
  ⟨rfl, rfl, rfl⟩

/-! ## Hydrating twice -/

/-- C7: hydration is idempotent.  For every cache, every snapshot and every key
parser, hydrating the snapshot into the cache that a first hydration of it has left
gives the same cache, with the same queries in the same state, and the same outcome
as the first hydration, in both files. -/
theorem hydrate_idempotent (d : Defaults) (now now1 : Int) (queryCache : QueryCache)
    (dehydratedQueries : JSValue) (queryKeyParserFn : String → Except JSError JSValue)
    (hwf : dehydratedQueries.wellFormed = true) :
    Core.hydrate d now1
          (Core.hydrate d now queryCache dehydratedQueries queryKeyParserFn).queryCache
          dehydratedQueries queryKeyParserFn
        = Core.hydrate d now queryCache dehydratedQueries queryKeyParserFn
      ∧ Hydration.hydrate d now1
          (Hydration.hydrate d now queryCache dehydratedQueries queryKeyParserFn).queryCache
          dehydratedQueries queryKeyParserFn
        = Hydration.hydrate d now queryCache dehydratedQueries queryKeyParserFn := by
  cases hentries : objectEntries dehydratedQueries with
  | error err => simp [Core.hydrate, Hydration.hydrate, hentries]
  | ok entries =>
    have hnd := objectEntries_nodup dehydratedQueries entries hwf hentries
    simp only [Core.hydrate, Hydration.hydrate, hentries]
    exact ⟨core_hydrateLoop_idempotent d queryKeyParserFn entries queryCache now now1,
      hydration_hydrateLoop_idempotent d queryKeyParserFn entries hnd queryCache now now1⟩

theorem hydrate_idempotent_witness :
    hydrationSnapshot.wellFormed = true
      ∧ Core.hydrate DEFAULT_CONFIG 400
            (Core.hydrate DEFAULT_CONFIG 300 clientCache hydrationSnapshot JSONparse).queryCache
            hydrationSnapshot JSONparse
          = Core.hydrate DEFAULT_CONFIG 300 clientCache hydrationSnapshot JSONparse
      ∧ Hydration.hydrate DEFAULT_CONFIG 400
            (Hydration.hydrate DEFAULT_CONFIG 300 clientCache hydrationSnapshot
              JSONparse).queryCache
            hydrationSnapshot JSONparse
          = Hydration.hydrate DEFAULT_CONFIG 300 clientCache hydrationSnapshot JSONparse :=
  ⟨rfl, hydrate_idempotent DEFAULT_CONFIG 300 400 clientCache hydrationSnapshot JSONparse rfl⟩

/-! ## The default retry delay and the shape of keys -/

/-- C16: the default `retryDelay` is `min(1000 * 2^n, 30000)`: 1000, 2000, 4000, 8000
and 16000 for the attempts 0 to 4, exactly 30000 from attempt 5 on, never more than
30000 and never less for a later attempt. -/
theorem retryDelay_values (n k : Nat) :
    retryDelay n = min (1000 * 2 ^ n) 30000
      ∧ retryDelay 0 = 1000 ∧ retryDelay 1 = 2000 ∧ retryDelay 2 = 4000
      ∧ retryDelay 3 = 8000 ∧ retryDelay 4 = 16000
      ∧ retryDelay (n + 5) = 30000
      ∧ retryDelay n ≤ 30000
      ∧ retryDelay n ≤ retryDelay (n + k) := by
  refine ⟨rfl, rfl, rfl, rfl, rfl, rfl, ?_, ?_, ?_⟩
  · have h : 1 ≤ 2 ^ n := Nat.one_le_two_pow
    have h2 : 2 ^ (n + 5) = 32 * 2 ^ n := by rw [pow_add]; ring
    simp only [retryDelay, h2]
    omega
  · exact Nat.min_le_right _ _
  · have h : 2 ^ n ≤ 2 ^ (n + k) := Nat.pow_le_pow_right (by decide) (Nat.le_add_right n k)
    simp only [retryDelay]
    omega

/-- C17, as stated, fails: the key `0` is not a sequence and gets the empty result,
while `[0]` gets a hash. -/
theorem falsy_key_is_not_wrapped :
    defaultQueryKeySerializerFn (.num 0) = .ok (.arr [])
      ∧ defaultQueryKeySerializerFn (.arr [.num 0])
        = .ok (.arr [.str "[0]", .arr [.num 0]]) :=
  ⟨rfl, rfl⟩

/-- C17, amended: for every truthy key `k` that is not a sequence,
`defaultQueryKeySerializerFn(k)` returns what `defaultQueryKeySerializerFn([k])`
returns, the same hash and the same canonical key. -/
theorem single_key_is_wrapped (key : JSValue) (harr : key.isArray = false)
    (htruthy : key.truthy = true) :
    defaultQueryKeySerializerFn key = defaultQueryKeySerializerFn (.arr [key]) := by
  rw [defaultQueryKeySerializerFn_eq, defaultQueryKeySerializerFn_eq]
  have h1 : wrapKey key = .arr [key] := by simp [wrapKey, harr]
  have h2 : wrapKey (.arr [key]) = .arr [key] := rfl
  have h3 : (JSValue.arr [key]).truthy = true := rfl
  rw [h1, h2]
  simp only [htruthy, h3]

theorem single_key_is_wrapped_witness :
    (JSValue.str "string").isArray = false ∧ (JSValue.str "string").truthy = true
      ∧ defaultQueryKeySerializerFn (.str "string")
        = defaultQueryKeySerializerFn (.arr [.str "string"])
      ∧ defaultQueryKeySerializerFn (.str "string")
        = .ok (.arr [.str "[\"string\"]", .arr [.str "string"]]) :=
  ⟨rfl, rfl, single_key_is_wrapped (.str "string") rfl rfl, rfl⟩

/-- C18, as stated, fails: for the keys `undefined`, `null` and the empty string the
serializer returns the empty array and does not fail. -/
theorem empty_key_is_not_rejected :
    defaultQueryKeySerializerFn .undefined = .ok (.arr [])
      ∧ defaultQueryKeySerializerFn .null = .ok (.arr [])
      ∧ defaultQueryKeySerializerFn (.str "") = .ok (.arr []) :=
  ⟨rfl, rfl, rfl⟩

/-- C18, amended: for every key that is empty after coercion, that is every falsy
key, `defaultQueryKeySerializerFn` returns the empty array `[]`, without a hash and
without failing. -/
theorem falsy_key_gives_empty_result (key : JSValue) (hfalsy : key.truthy = false) :
    defaultQueryKeySerializerFn key = .ok (.arr []) := by
  rw [defaultQueryKeySerializerFn_eq]
  simp [hfalsy]

theorem falsy_key_gives_empty_result_witness :
    JSValue.null.truthy = false ∧ defaultQueryKeySerializerFn .null = .ok (.arr []) :=
  ⟨rfl, falsy_key_gives_empty_result .null rfl⟩

/-! ## The wire format -/

/-- C15, as stated, fails: the value that `dehydrate` of `src/hydration/hydration.js`
makes for the query `string` of the sample cache has the fields `config` and
`updatedAt`, and `initialData` is a field of `config`, not of the value. -/
theorem dehydrated_value_has_config_and_updatedAt :
    (ownProp (Hydration.dehydrate sampleCache) "[\"string\"]").map objectKeys
        = some ["config", "updatedAt"]
      ∧ ownProp (Hydration.dehydrate sampleCache) "[\"string\"]"
        = some (.obj [("config", .obj [("initialData", .str "string")]),
            ("updatedAt", .num 100)]) :=
  ⟨rfl, rfl⟩

/-- C15, amended: every value of the mapping that `dehydrate` of
`src/hydration/hydration.js` returns is a record with exactly the fields `config`
and `updatedAt`, and its `config` is a record with no fields other than the optional
`staleTime`, `cacheTime` and `initialData`; the values of the mapping of
`src/core/hydration.js` are records with no fields other than these three. -/
theorem dehydrated_value_format (d : Defaults) (queryCache : QueryCache)
    (queryHash : String) (value : JSValue)
    (hvalue : ownProp (Hydration.dehydrate queryCache) queryHash = some value) :
    objectKeys value = ["config", "updatedAt"]
      ∧ (∃ config, ownProp value "config" = some (.obj config)
          ∧ ∀ k ∈ config.map Prod.fst,
              k = "staleTime" ∨ k = "cacheTime" ∨ k = "initialData")
      ∧ ∀ flat, ownProp (Core.dehydrate d queryCache) queryHash = some flat →
          (∃ fields, flat = .obj fields)
            ∧ ∀ k ∈ objectKeys flat, k = "staleTime" ∨ k = "cacheTime" ∨ k = "initialData" := by
  refine ⟨?_, ?_, ?_⟩
  · have hmem := mem_of_objGet _ _ _ hvalue
    rcases mem_foldl_objSet (fun q : Query => q.state.status = Status.success)
      Hydration.dehydrateQuery queryCache.queries [] (queryHash, value) hmem with h | ⟨q, -, -, hq⟩
    · cases h
    · obtain ⟨config, heq, -⟩ := hydration_dehydrateQuery_keys q
      simp only at hq
      rw [hq, heq]
      rfl
  · have hmem := mem_of_objGet _ _ _ hvalue
    rcases mem_foldl_objSet (fun q : Query => q.state.status = Status.success)
      Hydration.dehydrateQuery queryCache.queries [] (queryHash, value) hmem with h | ⟨q, -, -, hq⟩
    · cases h
    · obtain ⟨config, heq, hkeys⟩ := hydration_dehydrateQuery_keys q
      simp only at hq
      rw [hq, heq]
      exact ⟨config, rfl, hkeys⟩
  · intro flat hflat
    have hmem := mem_of_objGet _ _ _ hflat
    rcases mem_foldl_objSet (fun q : Query => q.state.status = Status.success)
      (Core.dehydrateQuery d) queryCache.queries [] (queryHash, flat) hmem with h | ⟨q, -, -, hq⟩
    · cases h
    · simp only at hq
      rw [hq]
      exact ⟨⟨_, rfl⟩, core_dehydrateQuery_keys d q⟩

theorem dehydrated_value_format_witness :
    ownProp (Hydration.dehydrate sampleCache) "[\"null\"]"
        = some (.obj [("config", .obj [("staleTime", .num 50), ("initialData", .null)]),
            ("updatedAt", .num 110)])
      ∧ objectKeys (.obj [("config", .obj [("staleTime", .num 50), ("initialData", .null)]),
            ("updatedAt", .num 110)]) = ["config", "updatedAt"]
      ∧ (∃ config,
          ownProp (.obj [("config", .obj [("staleTime", .num 50), ("initialData", .null)]),
            ("updatedAt", .num 110)]) "config" = some (.obj config)
          ∧ ∀ k ∈ config.map Prod.fst,
              k = "staleTime" ∨ k = "cacheTime" ∨ k = "initialData")
      ∧ ∀ flat, ownProp (Core.dehydrate DEFAULT_CONFIG sampleCache) "[\"null\"]" = some flat →
          (∃ fields, flat = .obj fields)
            ∧ ∀ k ∈ objectKeys flat, k = "staleTime" ∨ k = "cacheTime" ∨ k = "initialData" :=
  ⟨rfl, dehydrated_value_format DEFAULT_CONFIG sampleCache "[\"null\"]" _ rfl⟩

/-! ## A failing key parser -/

/-- C13, as stated, fails: on a snapshot whose second hash is not JSON, `hydrate`
throws the `SyntaxError` of the key parser, so it returns no initializer, and the
hash after the failing one gets no query; in both files. -/
theorem parser_failure_is_not_skipped :
    (Core.hydrate DEFAULT_CONFIG 300 ⟨[]⟩ (.obj brokenSnapshot) JSONparse).result
        = .error .syntaxError
      ∧ ((Core.hydrate DEFAULT_CONFIG 300 ⟨[]⟩ (.obj brokenSnapshot)
          JSONparse).queryCache.queries.map Prod.fst) = ["[\"a\"]"]
      ∧ (Hydration.hydrate DEFAULT_CONFIG 300 ⟨[]⟩ (.obj brokenHydrationSnapshot)
          JSONparse).result = .error .syntaxError
      ∧ ((Hydration.hydrate DEFAULT_CONFIG 300 ⟨[]⟩ (.obj brokenHydrationSnapshot)
          JSONparse).queryCache.queries.map Prod.fst) = ["[\"a\"]"] :=
  ⟨rfl, rfl, rfl, rfl⟩

/-- C13, amended: if the key parser given to `hydrate` fails on one hash of the
snapshot, `hydrate` fails and returns no initializer, and it leaves the cache as
hydrating only the entries before that hash leaves it: no query is created for the
failing hash or for a hash after it.  If the entries before it hydrate without an
error, the error is the one of the key parser.  This holds in both files. -/
theorem parser_failure_aborts_hydrate (d : Defaults) (now : Int) (queryCache : QueryCache)
    (queryKeyParserFn : String → Except JSError JSValue)
    (before after : List (String × JSValue)) (queryHash : String) (dehydrated : JSValue)
    (err : JSError) (hfail : queryKeyParserFn queryHash = .error err) :
    ((∃ e, (Core.hydrate d now queryCache (.obj (before ++ (queryHash, dehydrated) :: after))
          queryKeyParserFn).result = .error e)
      ∧ (Core.hydrate d now queryCache (.obj (before ++ (queryHash, dehydrated) :: after))
          queryKeyParserFn).queryCache
        = (Core.hydrate d now queryCache (.obj before) queryKeyParserFn).queryCache
      ∧ ∀ queriesToInit,
          (Core.hydrate d now queryCache (.obj before) queryKeyParserFn).result
            = .ok queriesToInit →
          (Core.hydrate d now queryCache (.obj (before ++ (queryHash, dehydrated) :: after))
            queryKeyParserFn).result = .error err)
    ∧ ((∃ e, (Hydration.hydrate d now queryCache
          (.obj (before ++ (queryHash, dehydrated) :: after)) queryKeyParserFn).result
            = .error e)
      ∧ (Hydration.hydrate d now queryCache
          (.obj (before ++ (queryHash, dehydrated) :: after)) queryKeyParserFn).queryCache
        = (Hydration.hydrate d now queryCache (.obj before) queryKeyParserFn).queryCache
      ∧ ∀ queriesToInit,
          (Hydration.hydrate d now queryCache (.obj before) queryKeyParserFn).result
            = .ok queriesToInit →
          (Hydration.hydrate d now queryCache
            (.obj (before ++ (queryHash, dehydrated) :: after)) queryKeyParserFn).result
            = .error err) := by
  constructor
  · simp only [Core.hydrate, objectEntries]
    rw [core_hydrateLoop_append]
    cases hres : (Core.hydrateLoop d now queryKeyParserFn before queryCache []).result with
    | error e => exact ⟨⟨e, rfl⟩, rfl, fun q hq => by cases hq⟩
    | ok q =>
      simp only
      rw [core_hydrateLoop_parser_error d now queryKeyParserFn queryHash dehydrated after _ q
        err hfail]
      exact ⟨⟨err, rfl⟩, rfl, fun _ _ => rfl⟩
  · simp only [Hydration.hydrate, objectEntries]
    rw [hydration_hydrateLoop_append]
    cases hres : (Hydration.hydrateLoop d now queryKeyParserFn before queryCache []).result with
    | error e => exact ⟨⟨e, rfl⟩, rfl, fun q hq => by cases hq⟩
    | ok q =>
      simp only
      rw [hydration_hydrateLoop_parser_error d now queryKeyParserFn queryHash dehydrated after
        _ q err hfail]
      exact ⟨⟨err, rfl⟩, rfl, fun _ _ => rfl⟩

theorem parser_failure_aborts_hydrate_witness :
    JSONparse "oops" = .error .syntaxError
      ∧ ((∃ e, (Core.hydrate DEFAULT_CONFIG 300 clientCache
            (.obj ([("[\"a\"]", .obj [("initialData", .str "a")])]
              ++ ("oops", .obj [("initialData", .str "broken")])
              :: [("[\"b\"]", .obj [("initialData", .str "b")])]))
            JSONparse).result = .error e)
        ∧ (Core.hydrate DEFAULT_CONFIG 300 clientCache
            (.obj ([("[\"a\"]", .obj [("initialData", .str "a")])]
              ++ ("oops", .obj [("initialData", .str "broken")])
              :: [("[\"b\"]", .obj [("initialData", .str "b")])]))
            JSONparse).queryCache
          = (Core.hydrate DEFAULT_CONFIG 300 clientCache
              (.obj [("[\"a\"]", .obj [("initialData", .str "a")])]) JSONparse).queryCache
        ∧ ∀ queriesToInit,
            (Core.hydrate DEFAULT_CONFIG 300 clientCache
              (.obj [("[\"a\"]", .obj [("initialData", .str "a")])]) JSONparse).result
              = .ok queriesToInit →
            (Core.hydrate DEFAULT_CONFIG 300 clientCache
              (.obj ([("[\"a\"]", .obj [("initialData", .str "a")])]
                ++ ("oops", .obj [("initialData", .str "broken")])
                :: [("[\"b\"]", .obj [("initialData", .str "b")])]))
              JSONparse).result = .error .syntaxError) :=
  ⟨rfl, (parser_failure_aborts_hydrate DEFAULT_CONFIG 300 clientCache JSONparse
    [("[\"a\"]", .obj [("initialData", .str "a")])]
    [("[\"b\"]", .obj [("initialData", .str "b")])] "oops"
    (.obj [("initialData", .str "broken")]) .syntaxError rfl).1⟩

/-! ## C12: the initializer may be called several times -/

/-- C12: the initializer that `hydrate` returns (either file) holds the hashes of the
snapshot in snapshot order, without repetition. Its first invocation, at any time
and on any state of the cache, calls `initializeQuery` only on hashes of the
snapshot, in snapshot order and at most once for each, and leaves the list of the
initializer empty; every later invocation makes no call and changes no state. -/
theorem initializer_is_safe_to_repeat (d : Defaults) (now : Int) (queryCache : QueryCache)
    (dehydratedQueries : JSValue) (queryKeyParserFn : String → Except JSError JSValue)
    (entries : List (String × JSValue)) (queriesToInit : List String)
    (isServer : Bool) (now1 : Int) (cache1 : QueryCache)
    (hwf : dehydratedQueries.wellFormed = true)
    (hentries : objectEntries dehydratedQueries = .ok entries)
    (hres : (Core.hydrate d now queryCache dehydratedQueries queryKeyParserFn).result
          = .ok queriesToInit
        ∨ (Hydration.hydrate d now queryCache dehydratedQueries queryKeyParserFn).result
          = .ok queriesToInit) :
    queriesToInit = entries.map Prod.fst
      ∧ (initializeQueriesTraced isServer now1 queriesToInit cache1).1
          = initializeQueries isServer now1 queriesToInit cache1
      ∧ (initializeQueriesTraced isServer now1 queriesToInit cache1).2.Sublist
          (entries.map (fun e => CacheCall.initializeQuery e.1))
      ∧ (initializeQueriesTraced isServer now1 queriesToInit cache1).2.Nodup
      ∧ (initializeQueries isServer now1 queriesToInit cache1).2 = []
      ∧ ∀ (isServer2 : Bool) (now2 : Int) (cache2 : QueryCache),
          initializeQueriesTraced isServer2 now2
              (initializeQueries isServer now1 queriesToInit cache1).2 cache2
            = ((cache2, []), []) := by
  have hq : queriesToInit = entries.map Prod.fst := by
    rcases hres with hres | hres
    · simp only [Core.hydrate, hentries] at hres
      simpa using core_hydrateLoop_result d now queryKeyParserFn entries queryCache [] _ hres
    · simp only [Hydration.hydrate, hentries] at hres
      simpa using
        hydration_hydrateLoop_result d now queryKeyParserFn entries queryCache [] _ hres
  have hnd : queriesToInit.Nodup := by
    rw [hq]
    exact objectEntries_nodup dehydratedQueries entries hwf hentries
  have hsub := initializeQueriesTraced_sublist isServer now1 queriesToInit cache1
  have hempty := initializeQueries_queue isServer now1 queriesToInit cache1
  refine ⟨hq, initializeQueriesTraced_fst isServer now1 queriesToInit cache1, ?_,
    (hnd.map initializeQuery_injective).sublist hsub, hempty, ?_⟩
  · have hmap : entries.map (fun e => CacheCall.initializeQuery e.1)
        = queriesToInit.map CacheCall.initializeQuery := by
      rw [hq, List.map_map]
      rfl
    rw [hmap]
    exact hsub
  · intro isServer2 now2 cache2
    rw [hempty]
    rfl

theorem initializer_is_safe_to_repeat_witness :
    (JSValue.obj coreSnapshot).wellFormed = true
      ∧ objectEntries (.obj coreSnapshot) = .ok coreSnapshot
      ∧ ((Core.hydrate DEFAULT_CONFIG 300 clientCache (.obj coreSnapshot) JSONparse).result
            = .ok ["[\"string\"]", "[\"added string\"]"]
          ∨ (Hydration.hydrate DEFAULT_CONFIG 300 clientCache (.obj coreSnapshot)
              JSONparse).result = .ok ["[\"string\"]", "[\"added string\"]"])
      ∧ (initializeQueriesTraced false 310 ["[\"string\"]", "[\"added string\"]"]
            (Core.hydrate DEFAULT_CONFIG 300 clientCache (.obj coreSnapshot)
              JSONparse).queryCache).2
          = [CacheCall.initializeQuery "[\"string\"]",
              CacheCall.initializeQuery "[\"added string\"]"]
      ∧ ∀ (isServer2 : Bool) (now2 : Int) (cache2 : QueryCache),
          initializeQueriesTraced isServer2 now2
              (initializeQueries false 310 ["[\"string\"]", "[\"added string\"]"]
                (Core.hydrate DEFAULT_CONFIG 300 clientCache (.obj coreSnapshot)
                  JSONparse).queryCache).2 cache2
            = ((cache2, []), []) :=
  ⟨rfl, rfl, Or.inl rfl, rfl,
    (initializer_is_safe_to_repeat DEFAULT_CONFIG 300 clientCache (.obj coreSnapshot)
      JSONparse coreSnapshot ["[\"string\"]", "[\"added string\"]"] false 310
      (Core.hydrate DEFAULT_CONFIG 300 clientCache (.obj coreSnapshot) JSONparse).queryCache
      rfl rfl (Or.inl rfl)).2.2.2.2.2⟩

/-! ## C14: `hydrate` does not initialize -/

/-- C14: the calls that `hydrate` of `src/core/hydration.js` makes to the cache, for
every cache, snapshot and key parser. No call is a call of `initializeQuery`. The
calls are calls of `createQuery` with the parsed key and the dehydrated
configuration of an entry, entry after entry in snapshot order, and when `hydrate`
returns there is exactly one call for each entry and the recorded hashes are the
hashes of the snapshot. A query that `hydrate` adds has no armed timer and a query
the cache had is as it was. On the client the initializer then calls
`initializeQuery` for the recorded hashes that have a query. -/
theorem hydrate_defers_initialization (d : Defaults) (now : Int) (queryCache : QueryCache)
    (dehydratedQueries : JSValue) (queryKeyParserFn : String → Except JSError JSValue) :
    (Core.hydrateTraced d now queryCache dehydratedQueries queryKeyParserFn).1
        = Core.hydrate d now queryCache dehydratedQueries queryKeyParserFn
      ∧ (∀ queryHash, CacheCall.initializeQuery queryHash
          ∉ (Core.hydrateTraced d now queryCache dehydratedQueries queryKeyParserFn).2)
      ∧ (∀ entries, objectEntries dehydratedQueries = .ok entries →
          (Core.hydrateTraced d now queryCache dehydratedQueries queryKeyParserFn).2
              <+: entries.map (fun e =>
                CacheCall.createQuery (parsedWith queryKeyParserFn e.1) (orEmptyObject e.2))
            ∧ ∀ queriesToInit,
                (Core.hydrate d now queryCache dehydratedQueries queryKeyParserFn).result
                  = .ok queriesToInit →
                (Core.hydrateTraced d now queryCache dehydratedQueries queryKeyParserFn).2
                    = entries.map (fun e =>
                      CacheCall.createQuery (parsedWith queryKeyParserFn e.1)
                        (orEmptyObject e.2))
                  ∧ queriesToInit = entries.map Prod.fst)
      ∧ OnlyAddsUnarmed queryCache
          (Core.hydrate d now queryCache dehydratedQueries queryKeyParserFn).queryCache
      ∧ ∀ queriesToInit now1,
          (Core.hydrate d now queryCache dehydratedQueries queryKeyParserFn).result
            = .ok queriesToInit →
          (initializeQueriesTraced false now1 queriesToInit
              (Core.hydrate d now queryCache dehydratedQueries queryKeyParserFn).queryCache).2
            = (queriesToInit.filter (fun h =>
                (objGet (Core.hydrate d now queryCache dehydratedQueries
                  queryKeyParserFn).queryCache.queries h).isSome)).map
                CacheCall.initializeQuery := by
  have hfst : (Core.hydrateTraced d now queryCache dehydratedQueries queryKeyParserFn).1
      = Core.hydrate d now queryCache dehydratedQueries queryKeyParserFn := by
    simp only [Core.hydrateTraced, Core.hydrate]
    cases objectEntries dehydratedQueries with
    | error e => rfl
    | ok entries => exact core_hydrateLoopTraced_fst d now queryKeyParserFn entries _ _
  refine ⟨hfst, ?_, ?_, ?_, ?_⟩
  · intro queryHash hmem
    simp only [Core.hydrateTraced] at hmem
    cases hentries : objectEntries dehydratedQueries with
    | error e => simp [hentries] at hmem
    | ok entries =>
      simp only [hentries] at hmem
      have hpre := (core_hydrateLoopTraced_calls d now queryKeyParserFn entries
        queryCache []).1
      have := hpre.subset hmem
      simp at this
  · intro entries hentries
    have hcalls := core_hydrateLoopTraced_calls d now queryKeyParserFn entries queryCache []
    simp only [Core.hydrateTraced, Core.hydrate, hentries]
    refine ⟨hcalls.1, fun queriesToInit hres => ⟨hcalls.2 queriesToInit ?_, ?_⟩⟩
    · rw [core_hydrateLoopTraced_fst]
      exact hres
    · simpa using core_hydrateLoop_result d now queryKeyParserFn entries queryCache [] _ hres
  · simp only [Core.hydrate]
    cases objectEntries dehydratedQueries with
    | error e => exact onlyAddsUnarmed_refl queryCache
    | ok entries =>
      exact (core_hydrateLoop_onlyAddsUnarmed d now queryKeyParserFn entries queryCache []).1
  · intro queriesToInit now1 _
    exact initializeQueriesTraced_calls now1 queriesToInit _

theorem hydrate_defers_initialization_witness :
    objectEntries (.obj coreSnapshot) = .ok coreSnapshot
      ∧ (Core.hydrate DEFAULT_CONFIG 300 clientCache (.obj coreSnapshot) JSONparse).result
          = .ok ["[\"string\"]", "[\"added string\"]"]
      ∧ (Core.hydrateTraced DEFAULT_CONFIG 300 clientCache (.obj coreSnapshot) JSONparse).2
          = [CacheCall.createQuery (.arr [.str "string"])
                (.obj [("initialData", .str "should not change")]),
              CacheCall.createQuery (.arr [.str "added string"])
                (.obj [("initialData", .str "added string")])]
      ∧ (initializeQueriesTraced false 310 ["[\"string\"]", "[\"added string\"]"]
            (Core.hydrate DEFAULT_CONFIG 300 clientCache (.obj coreSnapshot)
              JSONparse).queryCache).2
          = [CacheCall.initializeQuery "[\"string\"]",
              CacheCall.initializeQuery "[\"added string\"]"] :=
  ⟨rfl, rfl,
    (((hydrate_defers_initialization DEFAULT_CONFIG 300 clientCache (.obj coreSnapshot)
      JSONparse).2.2.1 coreSnapshot rfl).2 ["[\"string\"]", "[\"added string\"]"] rfl).1,
    (hydrate_defers_initialization DEFAULT_CONFIG 300 clientCache (.obj coreSnapshot)
      JSONparse).2.2.2.2 ["[\"string\"]", "[\"added string\"]"] 310 rfl⟩

/-! ## The configuration in a snapshot -/

/-- The snapshot of a cache after `JSON.stringify` and `JSON.parse`: an object with
one entry for each success query, the dehydrated query as the round trip leaves it. -/
theorem hydration_snapshot_roundtrip (source : QueryCache)
    (hnd : (source.queries.map Prod.fst).Nodup)
    (hdata : ∀ e ∈ source.queries, e.2.state.status = Status.success →
      e.2.state.data.isJSON = true ∧ e.2.state.data.wellFormed = true
        ∧ e.2.state.updatedAt.wellFormed = true) :
    ∃ text entries,
      JSONstringify (Hydration.dehydrate source) = some text
      ∧ JSONparse text = .ok (.obj entries)
      ∧ (entries.map Prod.fst).Nodup
      ∧ (∀ queryHash query, (queryHash, query) ∈ source.queries →
          query.state.status = Status.success →
          (queryHash, jsonClean (Hydration.dehydrateQuery query)) ∈ entries)
      ∧ ∀ e ∈ entries, ∃ query, (e.1, query) ∈ source.queries
          ∧ query.state.status = Status.success
          ∧ e.2 = jsonClean (Hydration.dehydrateQuery query) := by
  have hsnap := hydration_dehydrate_eq source hnd
  set F := (source.queries.filter (fun e => decide (e.2.state.status = Status.success))).map
    (fun e => (e.1, Hydration.dehydrateQuery e.2)) with hF
  have hFnd : (F.map Prod.fst).Nodup := selected_keys_nodup _ _ _ hnd
  have hFmem : ∀ p ∈ F, ∃ q, (p.1, q) ∈ source.queries ∧ q.state.status = Status.success
      ∧ p.2 = Hydration.dehydrateQuery q := by
    intro p hp
    obtain ⟨e, he, rfl⟩ := List.mem_map.1 hp
    obtain ⟨hmem, hs⟩ := List.mem_filter.1 he
    exact ⟨e.2, hmem, by simpa using hs, rfl⟩
  have hwf : (JSValue.obj F).wellFormed = true := by
    rw [wellFormed_obj_iff]
    refine ⟨hFnd, fun p hp => ?_⟩
    obtain ⟨q, hq, hs, hpq⟩ := hFmem p hp
    rw [hpq]
    have := hdata (p.1, q) hq hs
    exact hydration_dehydrateQuery_wellFormed q this.2.1 this.2.2
  obtain ⟨text, htext⟩ : ∃ text, JSONstringify (JSValue.obj F) = some text := ⟨_, rfl⟩
  have hparse := JSONparse_JSONstringify (.obj F) text hwf htext
  have hclean : jsonClean (.obj F) = .obj (cleanMembers F) := rfl
  rw [hclean] at hparse
  refine ⟨text, cleanMembers F, by rw [hsnap]; exact htext, hparse,
    hFnd.sublist (cleanMembers_keys_sublist F), ?_, ?_⟩
  · intro queryHash query hmem hs
    rw [mem_cleanMembers]
    refine ⟨Hydration.dehydrateQuery query, ?_, (unserialisable_dehydrateQuery query).1, rfl⟩
    exact List.mem_map.2 ⟨(queryHash, query), List.mem_filter.2 ⟨hmem, by simp [hs]⟩, rfl⟩
  · intro e he
    obtain ⟨v, hv, -, hev⟩ := (mem_cleanMembers F e).1 he
    obtain ⟨q, hq, hs, hpq⟩ := hFmem (e.1, v) hv
    simp only at hpq
    exact ⟨q, hq, hs, by rw [hev, hpq]⟩

theorem hydration_config_times (query : Query) :
    ∃ config, Hydration.dehydrateQuery query
        = .obj [("config", .obj config), ("updatedAt", query.state.updatedAt)]
      ∧ (config.map Prod.fst).Nodup
      ∧ objGet config "staleTime"
        = (if query.config.staleTime ≠ DEFAULT_STALE_TIME
            then some (.num query.config.staleTime) else none)
      ∧ objGet config "cacheTime"
        = (if query.config.cacheTime ≠ DEFAULT_CACHE_TIME
            then some (.num query.config.cacheTime) else none) := by
  unfold Hydration.dehydrateQuery
  split_ifs <;> refine ⟨_, rfl, by simp [objSet], ?_, ?_⟩ <;> simp_all [objSet, objGet]

/-- The configuration of a dehydrated query after a JSON round trip: an object with
the property `staleTime` exactly if the stale time of the query differs from
`DEFAULT_STALE_TIME`, and the same for `cacheTime`. -/
theorem hydration_dehydrated_config (query : Query) :
    ∃ config,
      orEmptyObject (propOrUndefined (jsonClean (Hydration.dehydrateQuery query)) "config")
        = .obj config
      ∧ objGet config "staleTime"
        = (if query.config.staleTime ≠ DEFAULT_STALE_TIME
            then some (.num query.config.staleTime) else none)
      ∧ objGet config "cacheTime"
        = (if query.config.cacheTime ≠ DEFAULT_CACHE_TIME
            then some (.num query.config.cacheTime) else none) := by
  obtain ⟨config, heq, hnd, hstale, hcache⟩ := hydration_config_times query
  have hcfg : propOrUndefined (jsonClean (Hydration.dehydrateQuery query)) "config"
      = .obj (cleanMembers config) := by
    rw [heq]
    simp [propOrUndefined, getProp, jsonClean, cleanMembers, JSValue.unserialisable, objGet]
  refine ⟨cleanMembers config, by rw [hcfg]; rfl, ?_, ?_⟩
  · rw [objGet_cleanMembers config _ hnd, hstale]
    split_ifs <;> simp [JSValue.unserialisable, jsonClean]
  · rw [objGet_cleanMembers config _ hnd, hcache]
    split_ifs <;> simp [JSValue.unserialisable, jsonClean]

theorem configNumber_obj (config : List (String × JSValue)) (name : String) (dflt : Int)
    (present : Prop) [Decidable present] (n : Int)
    (hget : objGet config name = (if present then some (.num n) else none)) :
    configNumber (.obj config) name dflt = if present then n else dflt := by
  simp only [configNumber, getProp, hget]
  split_ifs <;> rfl

theorem hydration_hydrateTraced_calls (d : Defaults) (now : Int) (qc : QueryCache)
    (entries : List (String × JSValue)) (p : String → Except JSError JSValue)
    (queriesToInit : List String)
    (hres : (Hydration.hydrate d now qc (.obj entries) p).result = .ok queriesToInit) :
    (Hydration.hydrateTraced d now qc (.obj entries) p).2
      = entries.map (fun e => CacheCall.createQuery (parsedWith p e.1)
          (orEmptyObject (propOrUndefined e.2 "config"))) := by
  have hcalls := hydration_hydrateLoopTraced_calls d now p entries qc []
  refine hcalls.2 queriesToInit ?_
  rw [hydration_hydrateLoopTraced_fst]
  exact hres

theorem sampleCache_nodup : (sampleCache.queries.map Prod.fst).Nodup := by decide

theorem sampleCache_hashes :
    ∀ e ∈ sampleCache.queries, e.2.state.status = Status.success → IsDefaultHash e.1 := by
  intro e he hs
  simp only [sampleCache, List.mem_cons, List.mem_singleton, List.not_mem_nil,
    or_false] at he
  rcases he with rfl | rfl | rfl | rfl
  · exact ⟨.str "string", _, rfl, rfl⟩
  · exact ⟨.str "null", _, rfl, rfl⟩
  · exact ⟨.str "nested", _, rfl, rfl⟩
  · exact ⟨.str "failed", _, rfl, rfl⟩

theorem sampleCache_data :
    ∀ e ∈ sampleCache.queries, e.2.state.status = Status.success →
      e.2.state.data.isJSON = true ∧ e.2.state.data.wellFormed = true
        ∧ e.2.state.updatedAt.wellFormed = true := by
  intro e he hs
  simp only [sampleCache, List.mem_cons, List.mem_singleton, List.not_mem_nil,
    or_false] at he
  rcases he with rfl | rfl | rfl | rfl
  · exact ⟨rfl, rfl, rfl⟩
  · exact ⟨rfl, rfl, rfl⟩
  · exact ⟨rfl, rfl, rfl⟩
  · cases hs

theorem canonicalHash_parsedKey_injective {h h1 : String} {c c1 : JSValue}
    (hc : CanonicalHash h c) (hc1 : CanonicalHash h1 c1)
    (heq : parsedKey h = parsedKey h1) : h = h1 := by
  rw [parsedKey_of_canonical hc, parsedKey_of_canonical hc1] at heq
  subst heq
  have := hc.2.symm.trans hc1.2
  simp only [Except.ok.injEq, JSValue.arr.injEq, List.cons.injEq, JSValue.str.injEq,
    and_true] at this
  exact this

/-! ## C11: stale time and cache time through a snapshot -/

/-- C11, as stated, fails: a server and a client both use the process defaults 50
(stale time) and 1000 (cache time), and the server holds a success query whose stale
time was configured as 0. `dehydrateQuery` of `src/hydration/hydration.js` compares
with `DEFAULT_STALE_TIME`, which is 0, and leaves `staleTime` out; after the JSON
round trip `hydrate` calls `createQuery` with a configuration without `staleTime`,
and the hydrated query has the stale time 50 of the client's defaults, not 0. With
`dehydrate` and `hydrate` of `src/core/hydration.js`, which compare with the process
defaults, the hydrated query has the stale time 0. -/
theorem shared_defaults_do_not_keep_staleTime :
    (objGet customSource.queries "[\"string\"]").map Query.config
        = some { staleTime := 0, cacheTime := 1000 }
      ∧ (JSONstringify (Hydration.dehydrate customSource)).map JSONparse
        = some (.ok (.obj [("[\"string\"]",
            .obj [("config", .obj [("cacheTime", .num 1000), ("initialData", .str "string")]),
              ("updatedAt", .num 100)])]))
      ∧ (Hydration.hydrateTraced customDefaults 300 ⟨[]⟩
            (.obj [("[\"string\"]",
              .obj [("config",
                  .obj [("cacheTime", .num 1000), ("initialData", .str "string")]),
                ("updatedAt", .num 100)])]) JSONparse).2
          = [CacheCall.createQuery (.arr [.str "string"])
              (.obj [("cacheTime", .num 1000), ("initialData", .str "string")])]
      ∧ (objGet (Hydration.hydrate customDefaults 300 ⟨[]⟩
            (.obj [("[\"string\"]",
              .obj [("config",
                  .obj [("cacheTime", .num 1000), ("initialData", .str "string")]),
                ("updatedAt", .num 100)])]) JSONparse).queryCache.queries
            "[\"string\"]").map Query.config
          = some { staleTime := 50, cacheTime := 1000 }
      ∧ (JSONstringify (Core.dehydrate customDefaults customSource)).map JSONparse
        = some (.ok (.obj [("[\"string\"]",
            .obj [("staleTime", .num 0), ("initialData", .str "string")])]))
      ∧ (objGet (Core.hydrate customDefaults 300 ⟨[]⟩
            (.obj [("[\"string\"]",
              .obj [("staleTime", .num 0), ("initialData", .str "string")])])
            JSONparse).queryCache.queries "[\"string\"]").map Query.config
          = some { staleTime := 0, cacheTime := 1000 } :=
  ⟨rfl, rfl, rfl, rfl, rfl, rfl⟩

/-- C11, amended: for a source cache whose success queries hold JSON data under
hashes of the default serializer, `dehydrate` of `src/hydration/hydration.js`,
`JSON.stringify`, `JSON.parse` and `hydrate` into any cache succeed, and for every
success query of the source, with stale time s and cache time c (integers),
`hydrate` calls `createQuery` with the parsed key of its hash and with one
configuration only: that of the snapshot entry at the hash, which has the property
`staleTime`, of value s, if s differs from the built-in `DEFAULT_STALE_TIME` and has
no property `staleTime` otherwise, and the same for `cacheTime` and
`DEFAULT_CACHE_TIME`. If the receiving cache had no query at the hash the hydrated
query has stale time s where s differs from `DEFAULT_STALE_TIME` and the receiving
default otherwise, and the same for the cache time; so it has stale time s and cache
time c when the receiving defaults are `DEFAULT_STALE_TIME` and
`DEFAULT_CACHE_TIME`. -/
theorem hydrated_config_keeps_times (d : Defaults) (now : Int) (source target : QueryCache)
    (hnd : (source.queries.map Prod.fst).Nodup)
    (hhash : ∀ e ∈ source.queries, e.2.state.status = Status.success → IsDefaultHash e.1)
    (hdata : ∀ e ∈ source.queries, e.2.state.status = Status.success →
      e.2.state.data.isJSON = true ∧ e.2.state.data.wellFormed = true
        ∧ e.2.state.updatedAt.wellFormed = true) :
    ∃ text parsed queriesToInit,
      JSONstringify (Hydration.dehydrate source) = some text
      ∧ JSONparse text = .ok parsed
      ∧ (Hydration.hydrate d now target parsed JSONparse).result = .ok queriesToInit
      ∧ ∀ queryHash query, (queryHash, query) ∈ source.queries →
          query.state.status = Status.success →
          ∃ dehydrated queryConfig,
            ownProp parsed queryHash = some dehydrated
            ∧ orEmptyObject (propOrUndefined dehydrated "config") = queryConfig
            ∧ CacheCall.createQuery (parsedKey queryHash) queryConfig
                ∈ (Hydration.hydrateTraced d now target parsed JSONparse).2
            ∧ (∀ other, CacheCall.createQuery (parsedKey queryHash) other
                ∈ (Hydration.hydrateTraced d now target parsed JSONparse).2 →
                other = queryConfig)
            ∧ ownProp queryConfig "staleTime"
                = (if query.config.staleTime ≠ DEFAULT_STALE_TIME
                    then some (.num query.config.staleTime) else none)
            ∧ ownProp queryConfig "cacheTime"
                = (if query.config.cacheTime ≠ DEFAULT_CACHE_TIME
                    then some (.num query.config.cacheTime) else none)
            ∧ (objGet target.queries queryHash = none →
                ∃ hydrated,
                  objGet (Hydration.hydrate d now target parsed JSONparse).queryCache.queries
                      queryHash = some hydrated
                  ∧ hydrated.config.staleTime
                      = (if query.config.staleTime ≠ DEFAULT_STALE_TIME
                          then query.config.staleTime else d.staleTime)
                  ∧ hydrated.config.cacheTime
                      = (if query.config.cacheTime ≠ DEFAULT_CACHE_TIME
                          then query.config.cacheTime else d.cacheTime)
                  ∧ (d.staleTime = DEFAULT_STALE_TIME →
                      hydrated.config.staleTime = query.config.staleTime)
                  ∧ (d.cacheTime = DEFAULT_CACHE_TIME →
                      hydrated.config.cacheTime = query.config.cacheTime)) := by
  obtain ⟨text, entries, htext, hparse, hEnd, hin, hout⟩ :=
    hydration_snapshot_roundtrip source hnd hdata
  have hcanon : ∀ e ∈ entries, ∃ canon, CanonicalHash e.1 canon := by
    intro e he
    obtain ⟨q, hq, hs, -⟩ := hout e he
    exact canonicalHash_of_isDefaultHash (hhash (e.1, q) hq hs)
  have hgood : ∀ e ∈ entries, (∃ canon, CanonicalHash e.1 canon) ∧ ∃ fs, e.2 = .obj fs := by
    intro e he
    obtain ⟨q, -, -, hpq⟩ := hout e he
    refine ⟨hcanon e he, ?_⟩
    rw [hpq]
    exact (unserialisable_dehydrateQuery q).2
  have hhyd : Hydration.hydrate d now target (.obj entries) JSONparse
      = Hydration.hydrateLoop d now JSONparse entries target [] := rfl
  obtain ⟨hres, hall⟩ := hydration_hydrateLoop_spec d now entries target [] hEnd hgood
  have htrace := hydration_hydrateTraced_calls d now target entries JSONparse _
    (by rw [hhyd]; exact hres)
  refine ⟨text, .obj entries, _, htext, hparse, by rw [hhyd]; exact hres, ?_⟩
  intro queryHash query hmem hs
  have hentry := hin queryHash query hmem hs
  have hget := objGet_of_mem _ _ _ hEnd hentry
  obtain ⟨config, hconfig, hstale, hcache⟩ := hydration_dehydrated_config query
  refine ⟨jsonClean (Hydration.dehydrateQuery query), .obj config, hget, hconfig, ?_, ?_,
    hstale, hcache, ?_⟩
  · rw [htrace]
    refine List.mem_map.2 ⟨_, hentry, ?_⟩
    simp only [hconfig]
    rfl
  · intro other hother
    rw [htrace] at hother
    obtain ⟨e, he, heq⟩ := List.mem_map.1 hother
    simp only [CacheCall.createQuery.injEq] at heq
    obtain ⟨c, hc⟩ := hcanon e he
    obtain ⟨c1, hc1⟩ := hcanon _ hentry
    have hkey : e.1 = queryHash := canonicalHash_parsedKey_injective hc hc1 heq.1
    have he2 : objGet entries queryHash = some e.2 :=
      objGet_of_mem _ _ _ hEnd (by rw [← hkey]; exact he)
    rw [hget] at he2
    rw [← heq.2, ← Option.some.inj he2, hconfig]
  · intro hnone
    have hq := hall queryHash
    rw [hget] at hq
    simp only [hnone, Option.getD_none, hconfig] at hq
    rw [hhyd]
    refine ⟨_, hq, ?_, ?_, ?_, ?_⟩
    · exact configNumber_obj config "staleTime" d.staleTime _ _ hstale
    · exact configNumber_obj config "cacheTime" d.cacheTime _ _ hcache
    · intro hd
      have := configNumber_obj config "staleTime" d.staleTime _ _ hstale
      simp only [Query.withUpdatedAt, newQuery] at this ⊢
      rw [this, hd]
      split_ifs with h
      · rfl
      · exact (not_not.1 h).symm
    · intro hd
      have := configNumber_obj config "cacheTime" d.cacheTime _ _ hcache
      simp only [Query.withUpdatedAt, newQuery] at this ⊢
      rw [this, hd]
      split_ifs with h
      · rfl
      · exact (not_not.1 h).symm

theorem hydrated_config_keeps_times_witness :
    (sampleCache.queries.map Prod.fst).Nodup
      ∧ (∀ e ∈ sampleCache.queries, e.2.state.status = Status.success → IsDefaultHash e.1)
      ∧ (∀ e ∈ sampleCache.queries, e.2.state.status = Status.success →
          e.2.state.data.isJSON = true ∧ e.2.state.data.wellFormed = true
            ∧ e.2.state.updatedAt.wellFormed = true)
      ∧ ∃ text parsed queriesToInit,
          JSONstringify (Hydration.dehydrate sampleCache) = some text
          ∧ JSONparse text = .ok parsed
          ∧ (Hydration.hydrate DEFAULT_CONFIG 300 ⟨[]⟩ parsed JSONparse).result = .ok queriesToInit
          ∧ ∀ queryHash query, (queryHash, query) ∈ sampleCache.queries →
              query.state.status = Status.success →
              ∃ dehydrated queryConfig,
                ownProp parsed queryHash = some dehydrated
                ∧ orEmptyObject (propOrUndefined dehydrated "config") = queryConfig
                ∧ CacheCall.createQuery (parsedKey queryHash) queryConfig
                    ∈ (Hydration.hydrateTraced DEFAULT_CONFIG 300 ⟨[]⟩ parsed JSONparse).2
                ∧ (∀ other, CacheCall.createQuery (parsedKey queryHash) other
                    ∈ (Hydration.hydrateTraced DEFAULT_CONFIG 300 ⟨[]⟩ parsed JSONparse).2 →
                    other = queryConfig)
                ∧ ownProp queryConfig "staleTime"
                    = (if query.config.staleTime ≠ DEFAULT_STALE_TIME
                        then some (.num query.config.staleTime) else none)
                ∧ ownProp queryConfig "cacheTime"
                    = (if query.config.cacheTime ≠ DEFAULT_CACHE_TIME
                        then some (.num query.config.cacheTime) else none)
                ∧ (objGet (QueryCache.mk []).queries queryHash = none →
                    ∃ hydrated,
                      objGet (Hydration.hydrate DEFAULT_CONFIG 300 ⟨[]⟩ parsed JSONparse).queryCache.queries
                          queryHash = some hydrated
                      ∧ hydrated.config.staleTime
                          = (if query.config.staleTime ≠ DEFAULT_STALE_TIME
                              then query.config.staleTime else DEFAULT_CONFIG.staleTime)
                      ∧ hydrated.config.cacheTime
                          = (if query.config.cacheTime ≠ DEFAULT_CACHE_TIME
                              then query.config.cacheTime else DEFAULT_CONFIG.cacheTime)
                      ∧ (DEFAULT_CONFIG.staleTime = DEFAULT_STALE_TIME →
                          hydrated.config.staleTime = query.config.staleTime)
                      ∧ (DEFAULT_CONFIG.cacheTime = DEFAULT_CACHE_TIME →
                          hydrated.config.cacheTime = query.config.cacheTime)) :=
  ⟨sampleCache_nodup, sampleCache_hashes, sampleCache_data,
    hydrated_config_keeps_times DEFAULT_CONFIG 300 sampleCache ⟨[]⟩ sampleCache_nodup
      sampleCache_hashes sampleCache_data⟩

/-! ## The initializer on the client -/

theorem initializeQuery_idem (now : Int) (query : Query) :
    initializeQuery now (initializeQuery now query) = initializeQuery now query := rfl

/-- On the client the initializer replaces the query at each hash of its list by the
initialized query and leaves the other queries as they are. -/
theorem initializeQueries_client (now : Int) (queue : List String) :
    ∀ (qc : QueryCache) (h : String),
      objGet (initializeQueries false now queue qc).1.queries h
        = (objGet qc.queries h).map
            (fun q => if h ∈ queue then initializeQuery now q else q) := by
  induction queue with
  | nil =>
    intro qc h
    simp [initializeQueries]
  | cons h0 queue ih =>
    intro qc h
    rw [initializeQueries]
    cases hq : objGet qc.queries h0 with
    | none =>
      simp only
      rw [ih]
      by_cases hh : h = h0
      · subst hh
        simp [hq]
      · simp [hh]
    | some q =>
      simp only [Bool.not_false, if_true]
      rw [ih]
      simp only [objGet_objSet]
      by_cases hh : h0 = h
      · subst hh
        simp only [if_true, hq, Option.map_some', List.mem_cons, true_or]
        split_ifs
        · rw [initializeQuery_idem]
        · rfl
      · have hh' : ¬ h = h0 := fun e => hh e.symm
        simp [hh, hh']

/-! ## C19: staleness of a hydrated query -/

/-- C19: a snapshot entry that carries data is hydrated, by `hydrate` of
`src/hydration/hydration.js`, into a fresh cache and the initializer is invoked on
the client at time t0. Then the cache holds a query at the hash of the entry whose
stale time s is the `staleTime` of the entry, or the default where the entry has
none. The query is not stale, and its staleness timer is armed for t0 + s. At a time
before t0 + s the query is still not stale; at a time not before t0 + s, when the
timer has run, it is stale. With the default stale time 0 the timer is due at t0,
so the query is stale as soon as the timer runs. -/
theorem hydrated_query_staleness (d : Defaults) (now t0 : Int)
    (snapshot : List (String × JSValue)) (queryHash : String) (dehydrated : JSValue)
    (hnd : (snapshot.map Prod.fst).Nodup)
    (hgood : ∀ e ∈ snapshot, (∃ canon, CanonicalHash e.1 canon) ∧ ∃ fs, e.2 = .obj fs)
    (hmem : (queryHash, dehydrated) ∈ snapshot)
    (hinit : (propOrUndefined (orEmptyObject (propOrUndefined dehydrated "config"))
      "initialData").isUndefined = false) :
    ∃ queriesToInit hydrated,
      (Hydration.hydrate d now ⟨[]⟩ (.obj snapshot) JSONparse).result = .ok queriesToInit
      ∧ objGet (initializeQueries false t0 queriesToInit
          (Hydration.hydrate d now ⟨[]⟩ (.obj snapshot) JSONparse).queryCache).1.queries
          queryHash = some hydrated
      ∧ hydrated.config.staleTime
          = configNumber (orEmptyObject (propOrUndefined dehydrated "config")) "staleTime"
              d.staleTime
      ∧ hydrated.state.isStale = false
      ∧ hydrated.staleTimeout = some (t0 + hydrated.config.staleTime)
      ∧ (∀ t, t < t0 + hydrated.config.staleTime →
          (hydrated.runStaleTimer t).state.isStale = false)
      ∧ (∀ t, t0 + hydrated.config.staleTime ≤ t →
          (hydrated.runStaleTimer t).state.isStale = true)
      ∧ (hydrated.config.staleTime = DEFAULT_STALE_TIME →
          ∀ t, t0 ≤ t → (hydrated.runStaleTimer t).state.isStale = true) := by
  have hhyd : Hydration.hydrate d now ⟨[]⟩ (.obj snapshot) JSONparse
      = Hydration.hydrateLoop d now JSONparse snapshot ⟨[]⟩ [] := rfl
  obtain ⟨hres, hall⟩ := hydration_hydrateLoop_spec d now snapshot ⟨[]⟩ [] hnd hgood
  have hget := objGet_of_mem _ _ _ hnd hmem
  have hq := hall queryHash
  rw [hget] at hq
  simp only [objGet, Option.getD_none] at hq
  have hqueue : queryHash ∈ [] ++ snapshot.map Prod.fst := by
    simp only [List.nil_append]
    exact List.mem_map.2 ⟨_, hmem, rfl⟩
  have hclient := initializeQueries_client t0 ([] ++ snapshot.map Prod.fst)
    (Hydration.hydrateLoop d now JSONparse snapshot ⟨[]⟩ []).queryCache queryHash
  rw [hq] at hclient
  simp only [Option.map_some', hqueue, if_true] at hclient
  have hstale : ∀ q : Query, (initializeQuery t0 q).staleTimeout
      = some (t0 + (initializeQuery t0 q).config.staleTime) := fun _ => rfl
  have hfresh : (initializeQuery t0 ((newQuery d now queryHash (parsedKey queryHash)
      (orEmptyObject (propOrUndefined dehydrated "config"))).withUpdatedAt
        (propOrUndefined dehydrated "updatedAt"))).state.isStale = false := by
    simp only [initializeQuery, Query.withUpdatedAt, newQuery, Bool.not_not]
    exact hinit
  have hbefore : ∀ (q : Query) (t : Int), q.state.isStale = false →
      q.staleTimeout = some (t0 + q.config.staleTime) → t < t0 + q.config.staleTime →
      (q.runStaleTimer t).state.isStale = false := by
    intro q t h1 h2 h3
    simp only [Query.runStaleTimer, h2, not_le.2 h3, if_false]
    exact h1
  have hafter : ∀ (q : Query) (t : Int),
      q.staleTimeout = some (t0 + q.config.staleTime) → t0 + q.config.staleTime ≤ t →
      (q.runStaleTimer t).state.isStale = true := by
    intro q t h2 h3
    simp only [Query.runStaleTimer, h2, h3, if_true]
  rw [hhyd]
  refine ⟨_, _, hres, hclient, rfl, hfresh, hstale _, fun t ht => hbefore _ t hfresh (hstale _) ht,
    fun t ht => hafter _ t (hstale _) ht, fun hs t ht => hafter _ t (hstale _) ?_⟩
  rw [hs]
  simpa [DEFAULT_STALE_TIME] using ht

theorem hydrated_query_staleness_witness :
    (timedSnapshot.map Prod.fst).Nodup
      ∧ (∀ e ∈ timedSnapshot, (∃ canon, CanonicalHash e.1 canon) ∧ ∃ fs, e.2 = .obj fs)
      ∧ ("[\"string\"]", JSValue.obj [("config",
            .obj [("staleTime", .num 50), ("initialData", .str "string")]),
          ("updatedAt", .num 100)]) ∈ timedSnapshot
      ∧ (propOrUndefined (orEmptyObject (propOrUndefined (JSValue.obj [("config",
            .obj [("staleTime", .num 50), ("initialData", .str "string")]),
          ("updatedAt", .num 100)]) "config")) "initialData").isUndefined = false
      ∧ ∃ queriesToInit hydrated,
          (Hydration.hydrate DEFAULT_CONFIG 300 ⟨[]⟩ (.obj timedSnapshot) JSONparse).result = .ok queriesToInit
          ∧ objGet (initializeQueries false 310 queriesToInit
              (Hydration.hydrate DEFAULT_CONFIG 300 ⟨[]⟩ (.obj timedSnapshot) JSONparse).queryCache).1.queries
              "[\"string\"]" = some hydrated
          ∧ hydrated.config.staleTime
              = configNumber (orEmptyObject (propOrUndefined (JSValue.obj [("config",
                  .obj [("staleTime", .num 50), ("initialData", .str "string")]),
                ("updatedAt", .num 100)]) "config")) "staleTime"
                  DEFAULT_CONFIG.staleTime
          ∧ hydrated.state.isStale = false
          ∧ hydrated.staleTimeout = some (310 + hydrated.config.staleTime)
          ∧ (∀ t, t < 310 + hydrated.config.staleTime →
              (hydrated.runStaleTimer t).state.isStale = false)
          ∧ (∀ t, 310 + hydrated.config.staleTime ≤ t →
              (hydrated.runStaleTimer t).state.isStale = true)
          ∧ (hydrated.config.staleTime = DEFAULT_STALE_TIME →
              ∀ t, 310 ≤ t → (hydrated.runStaleTimer t).state.isStale = true) :=
  have hnd : (timedSnapshot.map Prod.fst).Nodup := by decide
  have hgood : ∀ e ∈ timedSnapshot,
      (∃ canon, CanonicalHash e.1 canon) ∧ ∃ fs, e.2 = .obj fs := by
    intro e he
    simp only [timedSnapshot, List.mem_singleton] at he
    subst he
    exact ⟨⟨.arr [.str "string"], rfl, rfl⟩, _, rfl⟩
  have hmem : ("[\"string\"]", JSValue.obj [("config",
        .obj [("staleTime", .num 50), ("initialData", .str "string")]),
      ("updatedAt", .num 100)]) ∈ timedSnapshot := List.mem_singleton.2 rfl
  ⟨hnd, hgood, hmem, rfl,
    hydrated_query_staleness DEFAULT_CONFIG 300 310 timedSnapshot _ _ hnd hgood hmem rfl⟩

/-! ## The provider of a query cache -/

theorem eraseIdx_indexOf (l : List PropValue) (v : PropValue) :
    (match indexOf l v with
      | some i => l.eraseIdx i
      | none => l) = l.erase v := by
  induction l with
  | nil => rfl
  | cons x xs ih =>
    by_cases hx : x = v
    · subst hx
      simp [indexOf]
    · have hbeq : (x == v) = false := by simpa using hx
      rw [List.erase_cons, hbeq]
      simp only [indexOf, hx, if_false, Bool.false_eq_true]
      rw [← ih]
      cases indexOf xs v <;> rfl

/-- The cleanup removes the first occurrence of the cache from the list of the active
caches, and calls `clear`, on that cache, exactly if the prop is `null` or
`undefined`. -/
theorem cleanup_eq (rt : Runtime) (inst : ProviderInstance) :
    ReactQueryCacheProvider.cleanup rt inst
      = { queryCaches := rt.queryCaches.erase inst.resolvedQueryCache
          nextRef := rt.nextRef
          clearCalls :=
            if inst.queryCache.looseNull then rt.clearCalls ++ [inst.resolvedQueryCache]
            else rt.clearCalls } := by
  have h := eraseIdx_indexOf rt.queryCaches inst.resolvedQueryCache
  unfold ReactQueryCacheProvider.cleanup
  cases hi : indexOf rt.queryCaches inst.resolvedQueryCache with
  | none =>
    rw [hi] at h
    simp only at h
    cases inst.queryCache.looseNull <;> simp [clear, ← h]
  | some i =>
    rw [hi] at h
    simp only at h
    cases inst.queryCache.looseNull <;> simp [clear, ← h]

/-- The provider makes a cache exactly if the prop is falsy. -/
theorem resolve_eq (rt : Runtime) (queryCache : PropValue) :
    ReactQueryCacheProvider.resolve rt queryCache
      = if queryCache.truthy then (queryCache, rt)
        else (.object rt.nextRef, { rt with nextRef := rt.nextRef + 1 }) := rfl

/-- A prop that is falsy and neither `null` nor `undefined`: the provider makes a
cache for it and the cleanup does not clear that cache. -/
theorem falsy_prop_cache_is_kept (rt later : Runtime) (queryCache : PropValue)
    (hfalsy : queryCache.truthy = false) (hnull : queryCache.looseNull = false) :
    (ReactQueryCacheProvider.mount rt queryCache).1.resolvedQueryCache = .object rt.nextRef
      ∧ (ReactQueryCacheProvider.unmount later
          (ReactQueryCacheProvider.mount rt queryCache).1).clearCalls = later.clearCalls := by
  simp [ReactQueryCacheProvider.unmount, cleanup_eq, ReactQueryCacheProvider.mount,
    resolve_eq, hfalsy, hnull]

/-! ## Teardown of the provider -/

/-- For a `queryCache` prop that is absent (`undefined` or `null`) or a cache object:
mounting adds the cache in use to the list of the active caches; the teardown, by
unmounting or by a render with a different prop, removes the first occurrence of that
cache from the list, and either the prop was absent, the cache in use is one that the
provider made, and the teardown calls `clear` on it, or the prop was a cache of the
caller, the cache in use is that cache, and the teardown makes no call of `clear`. -/
theorem provider_teardown (rt later : Runtime) (queryCache next : PropValue)
    (hprop : queryCache.looseNull = true ∨ ∃ ref, queryCache = .object ref)
    (hnext : next ≠ queryCache) :
    (ReactQueryCacheProvider.mount rt queryCache).2.queryCaches
        = rt.queryCaches
          ++ [(ReactQueryCacheProvider.mount rt queryCache).1.resolvedQueryCache]
      ∧ (ReactQueryCacheProvider.mount rt queryCache).2.clearCalls = rt.clearCalls
      ∧ (ReactQueryCacheProvider.unmount later
            (ReactQueryCacheProvider.mount rt queryCache).1).queryCaches
          = later.queryCaches.erase
              (ReactQueryCacheProvider.mount rt queryCache).1.resolvedQueryCache
      ∧ (ReactQueryCacheProvider.rerender later
            (ReactQueryCacheProvider.mount rt queryCache).1 next).2.queryCaches
          = later.queryCaches.erase
              (ReactQueryCacheProvider.mount rt queryCache).1.resolvedQueryCache
            ++ [(ReactQueryCacheProvider.rerender later
                  (ReactQueryCacheProvider.mount rt queryCache).1 next).1.resolvedQueryCache]
      ∧ ((queryCache.looseNull = true
            ∧ (ReactQueryCacheProvider.mount rt queryCache).1.resolvedQueryCache
                = .object rt.nextRef
            ∧ (ReactQueryCacheProvider.mount rt queryCache).2.nextRef = rt.nextRef + 1
            ∧ (ReactQueryCacheProvider.unmount later
                  (ReactQueryCacheProvider.mount rt queryCache).1).clearCalls
                = later.clearCalls
                  ++ [(ReactQueryCacheProvider.mount rt queryCache).1.resolvedQueryCache]
            ∧ (ReactQueryCacheProvider.rerender later
                  (ReactQueryCacheProvider.mount rt queryCache).1 next).2.clearCalls
                = later.clearCalls
                  ++ [(ReactQueryCacheProvider.mount rt queryCache).1.resolvedQueryCache])
          ∨ ((∃ ref, queryCache = .object ref)
            ∧ (ReactQueryCacheProvider.mount rt queryCache).1.resolvedQueryCache = queryCache
            ∧ (ReactQueryCacheProvider.mount rt queryCache).2.nextRef = rt.nextRef
            ∧ (ReactQueryCacheProvider.unmount later
                  (ReactQueryCacheProvider.mount rt queryCache).1).clearCalls
                = later.clearCalls
            ∧ (ReactQueryCacheProvider.rerender later
                  (ReactQueryCacheProvider.mount rt queryCache).1 next).2.clearCalls
                = later.clearCalls)) := by
  have hre : ∀ inst : ProviderInstance, inst.queryCache = queryCache →
      ReactQueryCacheProvider.rerender later inst next
        = (⟨next, (ReactQueryCacheProvider.resolve later next).1⟩,
            ReactQueryCacheProvider.effect
              (ReactQueryCacheProvider.cleanup (ReactQueryCacheProvider.resolve later next).2
                inst)
              (ReactQueryCacheProvider.resolve later next).1) := by
    intro inst hinst
    simp [ReactQueryCacheProvider.rerender, hinst, hnext]
  have hclear : ∀ v, (ReactQueryCacheProvider.resolve later v).2.clearCalls
      = later.clearCalls := by
    intro v
    rw [resolve_eq]
    split_ifs <;> rfl
  have hlist : ∀ v, (ReactQueryCacheProvider.resolve later v).2.queryCaches
      = later.queryCaches := by
    intro v
    rw [resolve_eq]
    split_ifs <;> rfl
  rw [hre _ rfl]
  simp only [ReactQueryCacheProvider.unmount, ReactQueryCacheProvider.effect, cleanup_eq,
    hclear, hlist]
  rcases hprop with hnull | ⟨ref, rfl⟩
  · have hfalsy : queryCache.truthy = false := by
      cases queryCache <;> simp_all [PropValue.looseNull, PropValue.truthy]
    simp [ReactQueryCacheProvider.mount, ReactQueryCacheProvider.effect, resolve_eq, hfalsy,
      hnull]
  · simp [ReactQueryCacheProvider.mount, ReactQueryCacheProvider.effect, resolve_eq,
      PropValue.truthy, PropValue.looseNull]

theorem provider_teardown_witness :
    (PropValue.undefined.looseNull = true ∨ ∃ ref, PropValue.undefined = .object ref)
      ∧ PropValue.object 1 ≠ PropValue.undefined
      ∧ (ReactQueryCacheProvider.mount sampleRuntime .undefined).1.resolvedQueryCache
          = .object 2
      ∧ (ReactQueryCacheProvider.mount sampleRuntime .undefined).2.queryCaches
          = [.object 0, .object 2]
      ∧ (ReactQueryCacheProvider.rerender
            (ReactQueryCacheProvider.mount sampleRuntime .undefined).2
            (ReactQueryCacheProvider.mount sampleRuntime .undefined).1 (.object 1)).2
          = { queryCaches := [.object 0, .object 1], nextRef := 3,
              clearCalls := [.object 2] }
      ∧ (ReactQueryCacheProvider.unmount
            (ReactQueryCacheProvider.mount sampleRuntime .undefined).2
            (ReactQueryCacheProvider.mount sampleRuntime .undefined).1).queryCaches
          = (ReactQueryCacheProvider.mount sampleRuntime .undefined).2.queryCaches.erase
              (ReactQueryCacheProvider.mount sampleRuntime .undefined).1.resolvedQueryCache :=
  ⟨Or.inl rfl, by decide, by decide, by decide, by decide,
    (provider_teardown sampleRuntime
      (ReactQueryCacheProvider.mount sampleRuntime .undefined).2 .undefined (.object 1)
      (Or.inl rfl) (by decide)).2.2.1⟩

/-! ## C20: a cache that the provider made and does not clear -/

/-- C20, evaluated on a provider whose prop `queryCache` is `false`: the prop is falsy, so the
provider makes a cache of its own (object 2, the next new object) and adds it to the
list of the active caches; the prop is not `null` or `undefined`, so the cleanup, on
unmounting as on a render with the cache object 1 as prop, removes that cache from
the list and makes no call of `clear`. With the prop `undefined` the same steps make
the same cache and the cleanup calls `clear` on it. -/
theorem provider_leaves_own_cache_uncleared :
    PropValue.truthy (.bool false) = false
      ∧ PropValue.looseNull (.bool false) = false
      ∧ ReactQueryCacheProvider.mount sampleRuntime (.bool false)
          = (⟨.bool false, .object 2⟩,
              { queryCaches := [.object 0, .object 2], nextRef := 3, clearCalls := [] })
      ∧ ReactQueryCacheProvider.unmount
            (ReactQueryCacheProvider.mount sampleRuntime (.bool false)).2
            (ReactQueryCacheProvider.mount sampleRuntime (.bool false)).1
          = { queryCaches := [.object 0], nextRef := 3, clearCalls := [] }
      ∧ ReactQueryCacheProvider.rerender
            (ReactQueryCacheProvider.mount sampleRuntime (.bool false)).2
            (ReactQueryCacheProvider.mount sampleRuntime (.bool false)).1 (.object 1)
          = (⟨.object 1, .object 1⟩,
              { queryCaches := [.object 0, .object 1], nextRef := 3, clearCalls := [] })
      ∧ ReactQueryCacheProvider.unmount
            (ReactQueryCacheProvider.mount sampleRuntime .undefined).2
            (ReactQueryCacheProvider.mount sampleRuntime .undefined).1
          = { queryCaches := [.object 0], nextRef := 3, clearCalls := [.object 2] } :=
  ⟨rfl, rfl, by decide, by decide, by decide, by decide⟩

/-! ## C26: the two `dehydrateQuery` functions -/

/-- C26: when the current process defaults are the built-in ones, the record that
`dehydrateQuery` of `src/core/hydration.js` returns is the `config` record of the
result of `dehydrateQuery` of `src/hydration/hydration.js`, so each of the fields
`staleTime`, `cacheTime` and `initialData` (and any other name) is present in the
one exactly when it is present in the other, with the same value. The built-in
defaults are the stale time 0 and the cache time 300000. -/
theorem dehydrateQuery_implementations_agree (d : Defaults) (query : Query)
    (hstale : d.staleTime = DEFAULT_STALE_TIME) (hcache : d.cacheTime = DEFAULT_CACHE_TIME) :
    ownProp (Hydration.dehydrateQuery query) "config" = some (Core.dehydrateQuery d query)
      ∧ (∀ name, ownProp (Core.dehydrateQuery d query) name
          = (ownProp (Hydration.dehydrateQuery query) "config").bind (ownProp · name))
      ∧ DEFAULT_STALE_TIME = 0 ∧ DEFAULT_CACHE_TIME = 300000 := by
  have hconfig : ownProp (Hydration.dehydrateQuery query) "config"
      = some (Core.dehydrateQuery d query) := by
    unfold Hydration.dehydrateQuery Core.dehydrateQuery
    rw [hstale, hcache]
    split_ifs <;> simp [ownProp, objSet, objGet]
  refine ⟨hconfig, fun name => ?_, rfl, rfl⟩
  rw [hconfig]
  rfl

theorem dehydrateQuery_implementations_agree_witness :
    DEFAULT_CONFIG.staleTime = DEFAULT_STALE_TIME
      ∧ DEFAULT_CONFIG.cacheTime = DEFAULT_CACHE_TIME
      ∧ ownProp (Hydration.dehydrateQuery
            (sampleQuery "null" .success .null 50 (.num 110))) "config"
          = some (.obj [("staleTime", .num 50), ("initialData", .null)])
      ∧ Core.dehydrateQuery DEFAULT_CONFIG (sampleQuery "null" .success .null 50 (.num 110))
          = .obj [("staleTime", .num 50), ("initialData", .null)] :=
  ⟨rfl, rfl, rfl,
    Option.some.inj ((dehydrateQuery_implementations_agree DEFAULT_CONFIG
      (sampleQuery "null" .success .null 50 (.num 110)) rfl rfl).1.symm.trans rfl)⟩

/-! ## Outcomes of the key serializer -/

theorem JSONparse_empty : JSONparse "" = .error .syntaxError := rfl

/-- A truthy key without a function at the top level gets a hash, which is not the
empty string, and a canonical key. -/
theorem serializer_pair_exists (key : JSValue) (hwf : key.wellFormed = true)
    (ht : key.truthy = true)
    (hf : (arrayElements (wrapKey key)).any JSValue.isFunction = false) :
    ∃ queryHash canonical,
      defaultQueryKeySerializerFn key = .ok (.arr [.str queryHash, canonical])
        ∧ queryHash ≠ "" := by
  obtain ⟨qh, hqh⟩ := stableStringify_wrapKey key
  have hparse := JSONparse_JSONstringify (sortFields (wrapKey key)) qh
    (wellFormed_sortFields _ (wellFormed_wrapKey key hwf)) hqh
  have hne : qh ≠ "" := by
    intro he
    rw [he, JSONparse_empty] at hparse
    cases hparse
  exact ⟨qh, _, serializer_pair_of ht hf hqh hparse hne, hne⟩

theorem any_isFunction_wrapKey (key : JSValue) :
    (arrayElements (wrapKey key)).any JSValue.isFunction = true
      ↔ (key.isFunction = true ∨ ∃ xs, key = .arr xs ∧ ∃ x ∈ xs, x.isFunction = true) := by
  cases key <;> simp [wrapKey, JSValue.isArray, arrayElements, JSValue.isFunction]

/-! ## C22: the three outcomes of `defaultQueryKeySerializerFn` -/

/-- C22: for every key, `defaultQueryKeySerializerFn` throws the invalid-key error
exactly when the key is truthy and is a function or an array with a function among
its top-level elements, and it throws no other error; for a falsy key it returns the
empty array; in every other case it returns a pair of a hash that is not the empty
string and a key. -/
theorem serializer_outcomes (key : JSValue) (hwf : key.wellFormed = true) :
    (defaultQueryKeySerializerFn key = .error invalidKeyError
        ↔ key.truthy = true
          ∧ (key.isFunction = true ∨ ∃ xs, key = .arr xs ∧ ∃ x ∈ xs, x.isFunction = true))
      ∧ (∀ err, defaultQueryKeySerializerFn key = .error err → err = invalidKeyError)
      ∧ (key.truthy = false → defaultQueryKeySerializerFn key = .ok (.arr []))
      ∧ (key.truthy = true →
          ¬ (key.isFunction = true ∨ ∃ xs, key = .arr xs ∧ ∃ x ∈ xs, x.isFunction = true) →
          ∃ queryHash queryKey,
            defaultQueryKeySerializerFn key = .ok (.arr [.str queryHash, queryKey])
              ∧ queryHash ≠ "") := by
  have hfalsy : key.truthy = false → defaultQueryKeySerializerFn key = .ok (.arr []) := by
    intro hf
    rw [defaultQueryKeySerializerFn_eq]
    simp [hf]
  have hthrow : (arrayElements (wrapKey key)).any JSValue.isFunction = true →
      key.truthy = true → defaultQueryKeySerializerFn key = .error invalidKeyError := by
    intro hf ht
    rw [defaultQueryKeySerializerFn_eq]
    simp [hf, ht]
  have hpair : key.truthy = true →
      ¬ (key.isFunction = true ∨ ∃ xs, key = .arr xs ∧ ∃ x ∈ xs, x.isFunction = true) →
      ∃ queryHash queryKey,
        defaultQueryKeySerializerFn key = .ok (.arr [.str queryHash, queryKey])
          ∧ queryHash ≠ "" := by
    intro ht hnf
    have hf : (arrayElements (wrapKey key)).any JSValue.isFunction = false := by
      rw [← Bool.not_eq_true]
      exact fun h => hnf ((any_isFunction_wrapKey key).1 h)
    exact serializer_pair_exists key hwf ht hf
  have hcases : ∀ err, defaultQueryKeySerializerFn key = .error err →
      err = invalidKeyError ∧ key.truthy = true
        ∧ (key.isFunction = true ∨ ∃ xs, key = .arr xs ∧ ∃ x ∈ xs, x.isFunction = true) := by
    intro err herr
    cases ht : key.truthy with
    | false => rw [hfalsy ht] at herr; cases herr
    | true =>
      by_cases hfn : key.isFunction = true ∨ ∃ xs, key = .arr xs ∧ ∃ x ∈ xs, x.isFunction = true
      · rw [hthrow ((any_isFunction_wrapKey key).2 hfn) ht] at herr
        cases herr
        exact ⟨rfl, rfl, hfn⟩
      · obtain ⟨qh, qk, hres, -⟩ := hpair ht hfn
        rw [hres] at herr
        cases herr
  refine ⟨⟨fun h => (hcases _ h).2, fun h => hthrow ((any_isFunction_wrapKey key).2 h.2) h.1⟩,
    fun err herr => (hcases err herr).1, hfalsy, hpair⟩

theorem serializer_outcomes_witness :
    (JSValue.arr [.str "todos", .obj [("page", .num 2)]]).wellFormed = true
      ∧ (JSValue.arr [.str "todos", .obj [("page", .num 2)]]).truthy = true
      ∧ ¬ ((JSValue.arr [.str "todos", .obj [("page", .num 2)]]).isFunction = true
          ∨ ∃ xs, JSValue.arr [.str "todos", .obj [("page", .num 2)]] = .arr xs
              ∧ ∃ x ∈ xs, x.isFunction = true)
      ∧ ∃ queryHash queryKey,
          defaultQueryKeySerializerFn (.arr [.str "todos", .obj [("page", .num 2)]])
              = .ok (.arr [.str queryHash, queryKey])
            ∧ queryHash ≠ "" :=
  have hnf : ¬ ((JSValue.arr [.str "todos", .obj [("page", .num 2)]]).isFunction = true
      ∨ ∃ xs, JSValue.arr [.str "todos", .obj [("page", .num 2)]] = .arr xs
          ∧ ∃ x ∈ xs, x.isFunction = true) := by
    simp [JSValue.isFunction]
  ⟨rfl, rfl, hnf,
    (serializer_outcomes (.arr [.str "todos", .obj [("page", .num 2)]]) rfl).2.2.2 rfl hnf⟩

/-! ## Sorting the properties gives an equivalent value -/

theorem keyEquiv_arr_map (f : JSValue → JSValue) (xs : List JSValue) :
    ∀ pre : List JSValue, (∀ x ∈ xs, KeyEquiv x (f x)) →
      KeyEquiv (.arr (pre ++ xs)) (.arr (pre ++ xs.map f)) := by
  induction xs with
  | nil => intro pre _; exact KeyEquiv.refl _
  | cons x xs ih =>
    intro pre h
    have h1 : KeyEquiv (.arr (pre ++ x :: xs)) (.arr (pre ++ f x :: xs)) :=
      KeyEquiv.element pre xs (h x (List.mem_cons_self _ _))
    have h2 := ih (pre ++ [f x]) (fun y hy => h y (List.mem_cons_of_mem _ hy))
    simp only [List.append_assoc, List.singleton_append] at h2
    exact KeyEquiv.trans h1 h2

theorem keyEquiv_obj_map (f : JSValue → JSValue) (fs : List (String × JSValue)) :
    ∀ pre : List (String × JSValue), (∀ p ∈ fs, KeyEquiv p.2 (f p.2)) →
      KeyEquiv (.obj (pre ++ fs)) (.obj (pre ++ fs.map (fun p => (p.1, f p.2)))) := by
  induction fs with
  | nil => intro pre _; exact KeyEquiv.refl _
  | cons p fs ih =>
    intro pre h
    obtain ⟨k, v⟩ := p
    have h1 : KeyEquiv (.obj (pre ++ (k, v) :: fs)) (.obj (pre ++ (k, f v) :: fs)) :=
      KeyEquiv.property pre fs k (h (k, v) (List.mem_cons_self _ _))
    have h2 := ih (pre ++ [(k, f v)]) (fun y hy => h y (List.mem_cons_of_mem _ hy))
    simp only [List.append_assoc, List.singleton_append] at h2
    exact KeyEquiv.trans h1 h2

/-- A value is equivalent, as a key, to the value with all properties sorted. -/
theorem keyEquiv_sortFields (v : JSValue) : KeyEquiv v (sortFields v) := by
  induction v using jsValue_induct with
  | hundefined => exact KeyEquiv.refl _
  | hnull => exact KeyEquiv.refl _
  | hbool b => exact KeyEquiv.refl _
  | hnum n => exact KeyEquiv.refl _
  | hstr s => exact KeyEquiv.refl _
  | hfunc i => exact KeyEquiv.refl _
  | harr xs ih =>
    have h := keyEquiv_arr_map sortFields xs [] ih
    simp only [List.nil_append] at h
    simp only [sortFields, sortElements_eq_map]
    exact h
  | hobj fs ih =>
    have h := keyEquiv_obj_map sortFields fs [] ih
    simp only [List.nil_append] at h
    simp only [sortFields, sortMembers_eq_map]
    exact KeyEquiv.trans h (KeyEquiv.reorder (List.perm_insertionSort fieldLe _).symm)

theorem isJSON_sortFields (v : JSValue) : v.isJSON = true → (sortFields v).isJSON = true := by
  induction v using jsValue_induct with
  | hundefined => intro h; exact h
  | hnull => intro h; exact h
  | hbool b => intro h; exact h
  | hnum n => intro h; exact h
  | hstr s => intro h; exact h
  | hfunc i => intro h; exact h
  | harr xs ih =>
    intro h
    simp only [JSValue.isJSON, isJSONElements_iff] at h
    simp only [sortFields, sortElements_eq_map, JSValue.isJSON, isJSONElements_iff,
      List.mem_map]
    rintro y ⟨x, hx, rfl⟩
    exact ih x hx (h x hx)
  | hobj fs ih =>
    intro h
    simp only [JSValue.isJSON, isJSONMembers_iff] at h
    simp only [sortFields, sortMembers_eq_map, JSValue.isJSON, isJSONMembers_iff]
    intro q hq
    have hq' := (List.perm_insertionSort fieldLe _).subset hq
    obtain ⟨p, hp, rfl⟩ := List.mem_map.1 hq'
    exact ih p hp (h p hp)

theorem isJSON_wrapKey (key : JSValue) (h : key.isJSON = true) :
    (wrapKey key).isJSON = true := by
  unfold wrapKey
  split_ifs
  · exact h
  · simp [JSValue.isJSON, isJSONElements, h]

/-- The hash determines the key with its properties sorted, for keys of JSON data. -/
theorem sortFields_eq_of_stableStringify_eq (a b : JSValue) (queryHash : String)
    (hja : a.isJSON = true) (hjb : b.isJSON = true)
    (hwa : a.wellFormed = true) (hwb : b.wellFormed = true)
    (ha : stableStringify a = some queryHash) (hb : stableStringify b = some queryHash) :
    sortFields a = sortFields b := by
  have hpa := JSONparse_JSONstringify (sortFields a) queryHash (wellFormed_sortFields a hwa) ha
  have hpb := JSONparse_JSONstringify (sortFields b) queryHash (wellFormed_sortFields b hwb) hb
  rw [jsonClean_of_isJSON _ (isJSON_sortFields a hja)] at hpa
  rw [jsonClean_of_isJSON _ (isJSON_sortFields b hjb)] at hpb
  exact Except.ok.inj (hpa.symm.trans hpb)

/-! ## C23: the hash is injective up to key equivalence -/

/-- C23: for two keys of JSON data to which `defaultQueryKeySerializerFn` gives a
hash, the two hashes are the same exactly when the two keys, each wrapped into an
array if it is a single value, are structurally equal up to the order of the
properties of their objects; the canonical keys are then the same too. Two keys
that are not equal in this sense never get the same hash. -/
theorem hash_injective_up_to_equivalence (a b : JSValue) (hashA hashB : String)
    (canonicalA canonicalB : JSValue)
    (hja : a.isJSON = true) (hjb : b.isJSON = true)
    (hwa : a.wellFormed = true) (hwb : b.wellFormed = true)
    (ha : defaultQueryKeySerializerFn a = .ok (.arr [.str hashA, canonicalA]))
    (hb : defaultQueryKeySerializerFn b = .ok (.arr [.str hashB, canonicalB])) :
    (hashA = hashB ↔ KeyEquiv (wrapKey a) (wrapKey b))
      ∧ (hashA = hashB → canonicalA = canonicalB)
      ∧ (hashA = hashB ↔ sortFields (wrapKey a) = sortFields (wrapKey b)) := by
  obtain ⟨-, -, hsa, hpa, -⟩ := serializer_pair_inv ha
  obtain ⟨-, -, hsb, hpb, -⟩ := serializer_pair_inv hb
  have hsorted : hashA = hashB → sortFields (wrapKey a) = sortFields (wrapKey b) := by
    intro heq
    subst heq
    exact sortFields_eq_of_stableStringify_eq _ _ hashA (isJSON_wrapKey a hja)
      (isJSON_wrapKey b hjb) (wellFormed_wrapKey a hwa) (wellFormed_wrapKey b hwb) hsa hsb
  have hback : sortFields (wrapKey a) = sortFields (wrapKey b) → hashA = hashB := by
    intro heq
    simp only [stableStringify, heq] at hsa
    simp only [stableStringify] at hsb
    exact Option.some.inj (hsa.symm.trans hsb)
  refine ⟨⟨fun heq => ?_, fun hequiv => ?_⟩, fun heq => ?_, hsorted, hback⟩
  · have h1 := keyEquiv_sortFields (wrapKey a)
    have h2 := keyEquiv_sortFields (wrapKey b)
    rw [hsorted heq] at h1
    exact KeyEquiv.trans h1 (KeyEquiv.symm h2)
  · exact hback ((keyEquiv_sortFields_eq hequiv).2 (wellFormed_wrapKey a hwa))
  · subst heq
    exact Except.ok.inj (hpa.symm.trans hpb)

theorem hash_injective_up_to_equivalence_witness :
    (JSValue.num 1).isJSON = true ∧ (JSValue.str "1").isJSON = true
      ∧ (JSValue.num 1).wellFormed = true ∧ (JSValue.str "1").wellFormed = true
      ∧ defaultQueryKeySerializerFn (.num 1) = .ok (.arr [.str "[1]", .arr [.num 1]])
      ∧ defaultQueryKeySerializerFn (.str "1")
          = .ok (.arr [.str "[\"1\"]", .arr [.str "1"]])
      ∧ ¬ KeyEquiv (wrapKey (.num 1)) (wrapKey (.str "1")) :=
  ⟨rfl, rfl, rfl, rfl, rfl, rfl,
    fun hequiv => absurd
      ((hash_injective_up_to_equivalence (.num 1) (.str "1") "[1]" "[\"1\"]" (.arr [.num 1])
        (.arr [.str "1"]) rfl rfl rfl rfl rfl rfl).1.2 hequiv)
      (by decide)⟩

/-! ## The initializer after queries have been removed -/

theorem objGet_filter_keys {α : Type} (keep : String → Bool) (fs : List (String × α))
    (h : String) :
    objGet (fs.filter (fun e => keep e.1)) h = if keep h then objGet fs h else none := by
  induction fs with
  | nil => simp [objGet]
  | cons p fs ih =>
    obtain ⟨k, v⟩ := p
    by_cases hk : keep k = true
    · by_cases hh : k = h
      · subst hh
        simp [List.filter, hk, objGet]
      · simp [List.filter, hk, objGet, hh, ih]
    · have hk' : keep k = false := by simpa using hk
      by_cases hh : k = h
      · subst hh
        simp [List.filter, hk', ih]
      · simp [List.filter, hk', objGet, hh, ih]

theorem objGet_deleteQueries (removed : List String) (qc : QueryCache) (h : String) :
    objGet (deleteQueries removed qc).queries h
      = if h ∈ removed then none else objGet qc.queries h := by
  simp only [deleteQueries]
  rw [objGet_filter_keys (fun k => !removed.contains k)]
  by_cases hm : h ∈ removed <;> simp [hm]

/-! ## C21: the initializer resolves the hashes when it is invoked -/

/-- C21: the initializer that `hydrate` of `src/core/hydration.js` returns holds the
hashes of the snapshot and looks each of them up in the cache when it is invoked. On
the client, whatever the cache is at that time, it calls `initializeQuery` for the
hashes that have a query then, in snapshot order, and for no other. If queries were
removed from the cache between `hydrate` and the invocation, the removed hashes are
skipped and have no query afterwards, every other hash of the snapshot has the
initialized query that `hydrate` left for it, the queries outside the snapshot are
as they were, and the initializer ends with its list empty. -/
theorem initializer_skips_removed_queries (d : Defaults) (now t0 : Int)
    (queryCache : QueryCache) (dehydratedQueries : JSValue)
    (queryKeyParserFn : String → Except JSError JSValue)
    (entries : List (String × JSValue)) (queriesToInit removed : List String)
    (hentries : objectEntries dehydratedQueries = .ok entries)
    (hres : (Core.hydrate d now queryCache dehydratedQueries queryKeyParserFn).result
      = .ok queriesToInit) :
    queriesToInit = entries.map Prod.fst
      ∧ (∀ cache1 : QueryCache,
          (initializeQueriesTraced false t0 queriesToInit cache1).1
              = initializeQueries false t0 queriesToInit cache1
            ∧ (initializeQueriesTraced false t0 queriesToInit cache1).2
              = (queriesToInit.filter (fun h => (objGet cache1.queries h).isSome)).map
                  CacheCall.initializeQuery
            ∧ (initializeQueries false t0 queriesToInit cache1).2 = [])
      ∧ (initializeQueriesTraced false t0 queriesToInit
            (deleteQueries removed
              (Core.hydrate d now queryCache dehydratedQueries
                queryKeyParserFn).queryCache)).2
          = (queriesToInit.filter (fun h => !removed.contains h
              && (objGet (Core.hydrate d now queryCache dehydratedQueries
                    queryKeyParserFn).queryCache.queries h).isSome)).map
              CacheCall.initializeQuery
      ∧ (∀ h, h ∈ removed →
          objGet (initializeQueries false t0 queriesToInit
            (deleteQueries removed
              (Core.hydrate d now queryCache dehydratedQueries
                queryKeyParserFn).queryCache)).1.queries h = none)
      ∧ (∀ h, h ∈ queriesToInit → h ∉ removed →
          objGet (initializeQueries false t0 queriesToInit
            (deleteQueries removed
              (Core.hydrate d now queryCache dehydratedQueries
                queryKeyParserFn).queryCache)).1.queries h
            = (objGet (Core.hydrate d now queryCache dehydratedQueries
                queryKeyParserFn).queryCache.queries h).map (initializeQuery t0))
      ∧ (∀ h, h ∉ queriesToInit → h ∉ removed →
          objGet (initializeQueries false t0 queriesToInit
            (deleteQueries removed
              (Core.hydrate d now queryCache dehydratedQueries
                queryKeyParserFn).queryCache)).1.queries h
            = objGet (Core.hydrate d now queryCache dehydratedQueries
                queryKeyParserFn).queryCache.queries h) := by
  have hq : queriesToInit = entries.map Prod.fst := by
    simp only [Core.hydrate, hentries] at hres
    simpa using core_hydrateLoop_result d now queryKeyParserFn entries queryCache [] _ hres
  refine ⟨hq, fun cache1 => ⟨initializeQueriesTraced_fst false t0 queriesToInit cache1,
    initializeQueriesTraced_calls t0 queriesToInit cache1,
    initializeQueries_queue false t0 queriesToInit cache1⟩, ?_, ?_, ?_, ?_⟩
  · rw [initializeQueriesTraced_calls]
    congr 1
    apply List.filter_congr
    intro h _
    rw [objGet_deleteQueries]
    by_cases hm : h ∈ removed <;> simp [hm]
  · intro h hm
    rw [initializeQueries_client, objGet_deleteQueries]
    simp [hm]
  · intro h hin hm
    rw [initializeQueries_client, objGet_deleteQueries]
    simp [hm, hin]
  · intro h hin hm
    rw [initializeQueries_client, objGet_deleteQueries]
    simp [hm, hin]

theorem initializer_skips_removed_queries_witness :
    objectEntries (.obj coreSnapshot) = .ok coreSnapshot
      ∧ (Core.hydrate DEFAULT_CONFIG 300 clientCache (.obj coreSnapshot) JSONparse).result
          = .ok ["[\"string\"]", "[\"added string\"]"]
      ∧ (initializeQueriesTraced false 310 ["[\"string\"]", "[\"added string\"]"]
            (deleteQueries ["[\"string\"]"]
              (Core.hydrate DEFAULT_CONFIG 300 clientCache (.obj coreSnapshot)
                JSONparse).queryCache)).2
          = [CacheCall.initializeQuery "[\"added string\"]"]
      ∧ (∀ h, h ∈ ["[\"string\"]"] →
          objGet (initializeQueries false 310 ["[\"string\"]", "[\"added string\"]"]
            (deleteQueries ["[\"string\"]"]
              (Core.hydrate DEFAULT_CONFIG 300 clientCache (.obj coreSnapshot)
                JSONparse).queryCache)).1.queries h = none) :=
  ⟨rfl, rfl, rfl,
    (initializer_skips_removed_queries DEFAULT_CONFIG 300 310 clientCache (.obj coreSnapshot)
      JSONparse coreSnapshot ["[\"string\"]", "[\"added string\"]"] ["[\"string\"]"]
      rfl rfl).2.2.2.1⟩

/-! ## `hydrate` on what `dehydrate` returns -/

/-- For the parsed key of a canonical hash `createQuery` returns a query, and the
cache then has that query at exactly this hash. -/
theorem createQuery_at_canonical_hash (d : Defaults) (now : Int) (qc : QueryCache)
    (queryHash : String) (canonical cfg : JSValue) (hc : CanonicalHash queryHash canonical) :
    ∃ qc1 query, createQuery d now qc (parsedKey queryHash) cfg = (qc1, .ok query)
      ∧ objGet qc1.queries queryHash = some query := by
  rw [parsedKey_of_canonical hc, createQuery_of_pair d now qc canonical cfg queryHash canonical
    hc.2]
  cases hq : objGet qc.queries queryHash with
  | some q => exact ⟨qc, q, rfl, hq⟩
  | none =>
    refine ⟨_, _, rfl, ?_⟩
    simp [objGet_append, hq, objGet]

/-- The entries of the snapshot that `dehydrate` of `src/hydration/hydration.js`
returns. -/
theorem hydration_dehydrate_entries (source : QueryCache)
    (hnd : (source.queries.map Prod.fst).Nodup)
    (hhash : ∀ e ∈ source.queries, e.2.state.status = Status.success → IsDefaultHash e.1) :
    ∃ entries, Hydration.dehydrate source = .obj entries
      ∧ (entries.map Prod.fst).Nodup
      ∧ ∀ e ∈ entries, (∃ canon, CanonicalHash e.1 canon) ∧ ∃ fs, e.2 = .obj fs := by
  refine ⟨_, hydration_dehydrate_eq source hnd, selected_keys_nodup _ _ _ hnd, ?_⟩
  intro p hp
  obtain ⟨e, he, rfl⟩ := List.mem_map.1 hp
  obtain ⟨hmem, hs⟩ := List.mem_filter.1 he
  refine ⟨canonicalHash_of_isDefaultHash (hhash e hmem (by simpa using hs)), ?_⟩
  obtain ⟨config, heq, -⟩ := hydration_dehydrateQuery_eq e.2
  exact ⟨_, heq⟩

/-! ## C24: `hydrate` never dereferences a missing query -/

/-- C24: for a cache whose success queries are under hashes of
`defaultQueryKeySerializerFn`, `hydrate` of `src/hydration/hydration.js` with the
default key parser returns, without an error, on the snapshot that `dehydrate`
makes of the cache and on any target cache, and the hashes it records are those of
the snapshot. For every entry of the snapshot and every state of the target cache,
`createQuery` for the parsed key of the hash returns a query and leaves that query
at exactly the hash of the entry, so the assignment of `updatedAt` finds a query. If
the data are JSON data, the same holds for the snapshot after `JSON.stringify` and
`JSON.parse`. -/
theorem hydrate_of_dehydrated_completes (d : Defaults) (now : Int)
    (source target : QueryCache)
    (hnd : (source.queries.map Prod.fst).Nodup)
    (hhash : ∀ e ∈ source.queries, e.2.state.status = Status.success → IsDefaultHash e.1) :
    (Hydration.hydrate d now target (Hydration.dehydrate source) JSONparse).result
        = .ok (objectKeys (Hydration.dehydrate source))
      ∧ (∀ queryHash dehydrated,
          ownProp (Hydration.dehydrate source) queryHash = some dehydrated →
          ∀ cache : QueryCache, ∃ cache1 query cache2,
            createQuery d now cache (parsedKey queryHash)
                (orEmptyObject (propOrUndefined dehydrated "config")) = (cache1, .ok query)
              ∧ objGet cache1.queries queryHash = some query
              ∧ Hydration.setUpdatedAt cache1 queryHash
                  (propOrUndefined dehydrated "updatedAt") = .ok cache2)
      ∧ ((∀ e ∈ source.queries, e.2.state.status = Status.success →
            e.2.state.data.isJSON = true ∧ e.2.state.data.wellFormed = true
              ∧ e.2.state.updatedAt.wellFormed = true) →
          ∃ text parsed,
            JSONstringify (Hydration.dehydrate source) = some text
              ∧ JSONparse text = .ok parsed
              ∧ (Hydration.hydrate d now target parsed JSONparse).result
                  = .ok (objectKeys parsed)) := by
  obtain ⟨entries, hsnap, hEnd, hgood⟩ := hydration_dehydrate_entries source hnd hhash
  refine ⟨?_, ?_, ?_⟩
  · rw [hsnap]
    have h := (hydration_hydrateLoop_spec d now entries target [] hEnd hgood).1
    simpa [Hydration.hydrate, objectEntries, objectKeys] using h
  · intro queryHash dehydrated hown cache
    rw [hsnap] at hown
    obtain ⟨⟨canon, hc⟩, -⟩ := hgood _ (mem_of_objGet entries queryHash dehydrated hown)
    obtain ⟨cache1, query, hcreate, hget⟩ := createQuery_at_canonical_hash d now cache
      queryHash canon (orEmptyObject (propOrUndefined dehydrated "config")) hc
    obtain ⟨cache2, hset, -⟩ := hydration_setUpdatedAt_spec cache1 queryHash
      (propOrUndefined dehydrated "updatedAt") query hget
    exact ⟨cache1, query, cache2, hcreate, hget, hset⟩
  · intro hdata
    obtain ⟨text, parsed, htext, hparse, hPnd, -, hout⟩ :=
      hydration_snapshot_roundtrip source hnd hdata
    have hPgood : ∀ e ∈ parsed, (∃ canon, CanonicalHash e.1 canon) ∧ ∃ fs, e.2 = .obj fs := by
      intro e he
      obtain ⟨q, hq, hs, hpq⟩ := hout e he
      refine ⟨canonicalHash_of_isDefaultHash (hhash (e.1, q) hq hs), ?_⟩
      rw [hpq]
      exact (unserialisable_dehydrateQuery q).2
    have h := (hydration_hydrateLoop_spec d now parsed target [] hPnd hPgood).1
    exact ⟨text, .obj parsed, htext, hparse,
      by simpa [Hydration.hydrate, objectEntries, objectKeys] using h⟩

theorem hydrate_of_dehydrated_completes_witness :
    (sampleCache.queries.map Prod.fst).Nodup
      ∧ (∀ e ∈ sampleCache.queries, e.2.state.status = Status.success → IsDefaultHash e.1)
      ∧ (Hydration.hydrate DEFAULT_CONFIG 300 clientCache (Hydration.dehydrate sampleCache)
            JSONparse).result
          = .ok ["[\"string\"]", "[\"null\"]", "[\"nested\"]"] :=
  ⟨sampleCache_nodup, sampleCache_hashes,
    (hydrate_of_dehydrated_completes DEFAULT_CONFIG 300 sampleCache clientCache
      sampleCache_nodup sampleCache_hashes).1.trans rfl⟩

/-! ## C25: `updatedAt` through a snapshot -/

theorem hydration_dehydrated_updatedAt (query : Query) (n : Int)
    (hupd : query.state.updatedAt = .num n) :
    propOrUndefined (jsonClean (Hydration.dehydrateQuery query)) "updatedAt" = .num n := by
  obtain ⟨config, heq, -⟩ := hydration_dehydrateQuery_eq query
  rw [heq, hupd]
  simp [propOrUndefined, getProp, jsonClean, cleanMembers, JSValue.unserialisable, objGet]

/-- C25: for a source cache whose success queries hold JSON data under hashes of the
default serializer, `dehydrate` of `src/hydration/hydration.js`, `JSON.stringify`,
`JSON.parse` and `hydrate` into a fresh cache at any time `now` succeed, and every
success query of the source whose `updatedAt` is a number n has a hydrated query at
its hash whose `updatedAt` is n, not `now` unless n is `now`; the initializer, run
at any later time, leaves it so. -/
theorem hydrated_updatedAt_is_source_updatedAt (d : Defaults) (now later : Int)
    (isServer : Bool) (source : QueryCache)
    (hnd : (source.queries.map Prod.fst).Nodup)
    (hhash : ∀ e ∈ source.queries, e.2.state.status = Status.success → IsDefaultHash e.1)
    (hdata : ∀ e ∈ source.queries, e.2.state.status = Status.success →
      e.2.state.data.isJSON = true ∧ e.2.state.data.wellFormed = true
        ∧ e.2.state.updatedAt.wellFormed = true) :
    ∃ text parsed queriesToInit,
      JSONstringify (Hydration.dehydrate source) = some text
      ∧ JSONparse text = .ok parsed
      ∧ (Hydration.hydrate d now ⟨[]⟩ parsed JSONparse).result = .ok queriesToInit
      ∧ ∀ queryHash query n, (queryHash, query) ∈ source.queries →
          query.state.status = Status.success →
          query.state.updatedAt = .num n →
          ∃ hydrated,
            objGet (Hydration.hydrate d now ⟨[]⟩ parsed JSONparse).queryCache.queries
                queryHash = some hydrated
            ∧ hydrated.state.updatedAt = query.state.updatedAt
            ∧ (n ≠ now → hydrated.state.updatedAt ≠ .num now)
            ∧ (objGet (initializeQueries isServer later queriesToInit
                (Hydration.hydrate d now ⟨[]⟩ parsed JSONparse).queryCache).1.queries
                queryHash).map (fun q => q.state.updatedAt)
              = some query.state.updatedAt := by
  obtain ⟨text, entries, htext, hparse, hEnd, hin, hout⟩ :=
    hydration_snapshot_roundtrip source hnd hdata
  have hgood : ∀ e ∈ entries, (∃ canon, CanonicalHash e.1 canon) ∧ ∃ fs, e.2 = .obj fs := by
    intro e he
    obtain ⟨q, hq, hs, hpq⟩ := hout e he
    refine ⟨canonicalHash_of_isDefaultHash (hhash (e.1, q) hq hs), ?_⟩
    rw [hpq]
    exact (unserialisable_dehydrateQuery q).2
  have hhyd : Hydration.hydrate d now ⟨[]⟩ (.obj entries) JSONparse
      = Hydration.hydrateLoop d now JSONparse entries ⟨[]⟩ [] := rfl
  obtain ⟨hres, hall⟩ := hydration_hydrateLoop_spec d now entries ⟨[]⟩ [] hEnd hgood
  refine ⟨text, .obj entries, _, htext, hparse, by rw [hhyd]; exact hres, ?_⟩
  intro queryHash query n hmem hs hupd
  have hget := objGet_of_mem _ _ _ hEnd (hin queryHash query hmem hs)
  have hq := hall queryHash
  rw [hget] at hq
  simp only [objGet, Option.getD_none, hydration_dehydrated_updatedAt query n hupd] at hq
  have hstate := initializeQueries_state isServer later ([] ++ entries.map Prod.fst)
    (Hydration.hydrateLoop d now JSONparse entries ⟨[]⟩ []).queryCache queryHash
  rw [hq] at hstate
  rw [hhyd]
  refine ⟨_, hq, by rw [hupd]; rfl, fun hne => ?_, ?_⟩
  · intro heq
    simp only [Query.withUpdatedAt, JSValue.num.injEq] at heq
    exact hne heq
  · have := congrArg (Option.map QueryState.updatedAt) hstate
    simp only [Option.map_map, Option.map_some'] at this
    rw [hupd]
    exact this

theorem hydrated_updatedAt_is_source_updatedAt_witness :
    (sampleCache.queries.map Prod.fst).Nodup
      ∧ (∀ e ∈ sampleCache.queries, e.2.state.status = Status.success → IsDefaultHash e.1)
      ∧ (∀ e ∈ sampleCache.queries, e.2.state.status = Status.success →
          e.2.state.data.isJSON = true ∧ e.2.state.data.wellFormed = true
            ∧ e.2.state.updatedAt.wellFormed = true)
      ∧ ∃ text parsed queriesToInit,
          JSONstringify (Hydration.dehydrate sampleCache) = some text
          ∧ JSONparse text = .ok parsed
          ∧ (Hydration.hydrate DEFAULT_CONFIG 300 ⟨[]⟩ parsed JSONparse).result
              = .ok queriesToInit
          ∧ ∀ queryHash query n, (queryHash, query) ∈ sampleCache.queries →
              query.state.status = Status.success →
              query.state.updatedAt = .num n →
              ∃ hydrated,
                objGet (Hydration.hydrate DEFAULT_CONFIG 300 ⟨[]⟩ parsed
                    JSONparse).queryCache.queries queryHash = some hydrated
                ∧ hydrated.state.updatedAt = query.state.updatedAt
                ∧ (n ≠ 300 → hydrated.state.updatedAt ≠ .num 300)
                ∧ (objGet (initializeQueries false 310 queriesToInit
                    (Hydration.hydrate DEFAULT_CONFIG 300 ⟨[]⟩ parsed
                      JSONparse).queryCache).1.queries
                    queryHash).map (fun q => q.state.updatedAt)
                  = some query.state.updatedAt :=
  ⟨sampleCache_nodup, sampleCache_hashes, sampleCache_data,
    hydrated_updatedAt_is_source_updatedAt DEFAULT_CONFIG 300 310 false sampleCache
      sampleCache_nodup sampleCache_hashes sampleCache_data⟩

end ReactQuery
